import Mathlib

/-!
# devdoc: the devhelp2 index loader and the location resolver

A shallow embedding of `src/devdoc.cpp`.

* The markup tree that libxml++ hands to the program is the inductive type `XmlNode`.
* Names and map keys are `Glib::ustring` values; their comparison operators call
  `g_utf8_collate`, which depends on the locale of the process. The locale is the parameter
  `Locale` of every definition that compares names.
* The free store is a list of `doc_tree_node` records; a pointer is an index into that list
  (`new` appends a record, so a fresh pointer is the old length of the list) and `nullptr`
  is `none`.
* The three data members of `devdoc` (`parsers`, `nodes`, `root_nodes`) are the first three
  fields of the state record `devdoc`; every member function passes the state explicitly.
* A call that ends in `std::terminate` (an exception that leaves a `noexcept` function) has
  the outcome `none`.
-/

namespace DevDoc

/-! ## The markup tree (libxml++) -/

/-- A node of a parsed document (`xmlpp::Node`): an element with its name, attributes and
children, or a node of another kind (text, comment, processing instruction), which has a
name and no children. -/
inductive XmlNode where
  | element (name : String) (attrs : List (String × String)) (children : List XmlNode)
  | other (name : String)

mutual
/-- Equality of markup nodes is decidable. -/
def XmlNode.decEq : (a b : XmlNode) → Decidable (a = b)
  | .element n1 a1 c1, .element n2 a2 c2 =>
    if hn : n1 = n2 then
      if ha : a1 = a2 then
        match XmlNode.decEqList c1 c2 with
        | isTrue hc => isTrue (by rw [hn, ha, hc])
        | isFalse hc => isFalse (fun h => hc (by injection h))
      else isFalse (fun h => ha (by injection h))
    else isFalse (fun h => hn (by injection h))
  | .element _ _ _, .other _ => isFalse (fun h => by cases h)
  | .other _, .element _ _ _ => isFalse (fun h => by cases h)
  | .other n1, .other n2 =>
    if hn : n1 = n2 then isTrue (by rw [hn]) else isFalse (fun h => hn (by injection h))
/-- Equality of lists of markup nodes is decidable. -/
def XmlNode.decEqList : (a b : List XmlNode) → Decidable (a = b)
  | [], [] => isTrue rfl
  | [], _ :: _ => isFalse (fun h => by cases h)
  | _ :: _, [] => isFalse (fun h => by cases h)
  | x :: xs, y :: ys =>
    match XmlNode.decEq x y with
    | isTrue hx =>
      match XmlNode.decEqList xs ys with
      | isTrue hs => isTrue (by rw [hx, hs])
      | isFalse hs => isFalse (fun h => hs (by injection h))
    | isFalse hx => isFalse (fun h => hx (by injection h))
end

instance : DecidableEq XmlNode := XmlNode.decEq

/-- An element of a parsed document (`xmlpp::Element`), what `dynamic_cast<xmlpp::Element*>`
yields on an element node. -/
structure Element where
  name : String
  attrs : List (String × String)
  children : List XmlNode
deriving DecidableEq

/-- The cast `dynamic_cast<xmlpp::Element*>(node)`: `none` is the null result. -/
def as_element : XmlNode → Option Element
  | .element name attrs children => some ⟨name, attrs, children⟩
  | .other _ => none

/-- Library call `xmlpp::Node::get_name`. -/
def get_name : XmlNode → String
  | .element name _ _ => name
  | .other name => name

/-- Library call `xmlpp::Node::get_children` (no name filter). -/
def get_children : XmlNode → List XmlNode
  | .element _ _ children => children
  | .other _ => []

/-- Library call `xmlpp::Element::get_attribute_value`: the value of the attribute, the empty
string when the element has no such attribute. The attribute is found by its exact name
(libxml2 compares the bytes). -/
def get_attribute_value (e : Element) (name : String) : String :=
  (e.attrs.lookup name).getD ""

/-! ## Comparison of `Glib::ustring` values -/

/-- The locale of the process, as far as the program depends on it. `Glib::ustring::compare`
is `g_utf8_collate`; glib documents that `g_utf8_collate(a, b)` has the sign of the byte
comparison of the collation keys `g_utf8_collate_key(a)` and `g_utf8_collate_key(b)`, so two
strings compare equal exactly when their keys are the same. The key function is the
parameter. -/
class Locale where
  collate_key : String → String

/-- The operators `a == b` and `!(a != b)` on `Glib::ustring` values (also against a string
literal): `a.compare(b) == 0`, that is `g_utf8_collate(a, b) == 0`. -/
def ustring_eq [Locale] (a b : String) : Bool :=
  Locale.collate_key a == Locale.collate_key b

/-- Library call `xmlpp::Node::get_first_child(name)` on an element: the first child node
(of any kind) whose name compares equal to `name` as a `Glib::ustring`, `none` (null) when
there is none. -/
def get_first_child [Locale] (e : Element) (name : String) : Option XmlNode :=
  e.children.find? (fun c => ustring_eq name (get_name c))

/-- A parsed document; `root` is what `get_document()->get_root_node()` returns. -/
structure Document where
  root : Option Element
deriving DecidableEq

/-- A parser object (`xmlpp::DomParser`) with the document it holds, if it parsed one. -/
structure DomParser where
  document : Option Document
deriving DecidableEq

/-! ## The file system and the parser, as seen by `get_doc_tree` -/

/-- The outside world of `get_doc_tree`: the three `std::filesystem` queries, each of which
either answers or throws `std::filesystem::filesystem_error` (`none`; the operating system
reported an error other than "no such file", for instance a name that is too long or a
directory that may not be searched), and the result of `DomParser::parse_file` on a file
name (`none`: the call throws). -/
structure FileSystem where
  is_directory : String → Option Bool
  file_exists : String → Option Bool
  is_regular_file : String → Option Bool
  parse_file : String → Option Document

/-- The last component of a path, `std::filesystem::path::filename`: what follows the last
separator (empty when the path ends with a separator). -/
def filename (path : String) : String :=
  String.mk (path.data.reverse.takeWhile (fun c => c != '/')).reverse

/-- Path concatenation `p / x` for a relative `x`: a separator is put between the two unless
`p` is empty or already ends with one. -/
def path_append (p x : String) : String :=
  if p.data = [] then x
  else if p.data.getLast? = some '/' then p ++ x
  else p ++ "/" ++ x

/-- The index file of a documentation directory,
`path / (std::string(path.filename()) + ".devhelp2")`. -/
def index_file (path : String) : String :=
  path_append path (filename path ++ ".devhelp2")

/-! ## The document tree and the state of the extension object -/

/-- Modelled from the spec: the declaration of `docview::doc_tree_node` is in the header
`docview.hpp` of the host library, which is not part of the sources; the spec's data model
gives it a `title`, a `parent` back-reference (null for roots) and an ordered sequence of
`children`. Pointers are free-store indices. -/
structure doc_tree_node where
  title : String
  parent : Option Nat
  children : List Nat
deriving DecidableEq

/-- The state of a `devdoc` object: its data members `parsers`, `nodes` (the map from
document nodes to markup elements, as an association list; a value `none` is a null element
pointer) and `root_nodes`, together with the free store `heap` of document nodes and the
list `freed` of the pointers that were passed to `delete`. -/
structure devdoc where
  parsers : List DomParser
  nodes : List (Nat × Option Element)
  root_nodes : List Nat
  heap : List doc_tree_node
  freed : List Nat
deriving DecidableEq

/-- The state of a freshly constructed extension object. -/
def devdoc.init : devdoc := ⟨[], [], [], [], []⟩

/-- Allocation `new docview::doc_tree_node` followed by the assignments to `title` and
`parent`: the record is appended to the free store and its index is the new pointer. -/
def new_node (s : devdoc) (title : String) (parent : Option Nat) : devdoc × Nat :=
  ({ s with heap := s.heap ++ [⟨title, parent, []⟩] }, s.heap.length)

/-- The statement `p->children.push_back(c)`. -/
def push_back_child (s : devdoc) (p c : Nat) : devdoc :=
  match s.heap[p]? with
  | some n => { s with heap := s.heap.set p { n with children := n.children ++ [c] } }
  | none => s

/-- Lookup in the map `nodes` (`std::map::find`): `none` when the key is absent. -/
def nodes_find (m : List (Nat × Option Element)) (k : Nat) : Option (Option Element) :=
  m.lookup k

/-- The statement `nodes.insert(std::make_pair(k, e))`: `std::map::insert` leaves the map as
it is when the key is already present. -/
def nodes_insert (s : devdoc) (k : Nat) (e : Element) : devdoc :=
  match nodes_find s.nodes k with
  | some _ => s
  | none => { s with nodes := s.nodes ++ [(k, some e)] }

/-- The expression `p->children`, read from the free store. -/
def children_of (s : devdoc) (p : Nat) : List Nat :=
  match s.heap[p]? with
  | some n => n.children
  | none => []

/-- The statement `delete p` on a single node. -/
def delete_single (s : devdoc) (p : Nat) : devdoc :=
  { s with freed := s.freed ++ [p] }

/-! ## `build_chapters_tree` (lines 22-43) -/

mutual
/-- The member function `build_chapters_tree(node, source)`. -/
def build_chapters_tree [Locale] (s : devdoc) (node : Nat) : XmlNode → devdoc
  | .element name attrs children =>
    if ustring_eq name "sub" then
      let element : Element := ⟨name, attrs, children⟩
      let (s1, child) := new_node s (get_attribute_value element "name") (some node)
      let s2 := build_chapters_children s1 child children
      nodes_insert (push_back_child s2 node child) child element
    else s
  | .other _ => s
/-- The loop `for (auto& subject : element->get_children()) build_chapters_tree(child, subject)`
(lines 36-37, and lines 116-117 with the root as the parent). -/
def build_chapters_children [Locale] (s : devdoc) (node : Nat) : List XmlNode → devdoc
  | [] => s
  | subject :: rest => build_chapters_children (build_chapters_tree s node subject) node rest
end

/-! ## `get_doc_tree` (lines 75-194) -/

/-- The fixed title of the node that groups the keywords. -/
def more_title : String := "More (keywords, functions...)"

/-- The call `known_keyword_types.at(key)` on the local map of line 131, an association list
here. The map is a `std::map<Glib::ustring, ...>`: it finds the entry whose key is equivalent
to `key` under the order of `Glib::ustring`, that is the entry whose key compares equal to
`key`; `none` stands for `std::out_of_range`. -/
def known_at [Locale] (known : List (String × Nat)) (key : String) : Option Nat :=
  (known.find? (fun kv => ustring_eq kv.1 key)).map Prod.snd

/-- The second half of the body of the loop over the children of `functions` (lines 142-169),
run for an element that passed the test of line 139. The second component of the loop state
is the local map `known_keyword_types`; an entry is inserted only after `at` failed, so no
entry with an equivalent key is present then. -/
def add_keyword [Locale] (parent : Nat) (acc : devdoc × List (String × Nat))
    (element : Element) : devdoc × List (String × Nat) :=
  let ty := get_attribute_value element "type"
  let (s1, known1, keyword_type_parent) :=
    match known_at acc.2 ty with
    | some p => (acc.1, acc.2, p)
    | none =>
      let (s0, p) := new_node acc.1 ty (some parent)
      (push_back_child s0 parent p, acc.2 ++ [(ty, p)], p)
  let (s2, node) := new_node s1 (get_attribute_value element "name") (some keyword_type_parent)
  (nodes_insert (push_back_child s2 keyword_type_parent node) node element, known1)

/-- The body of the loop over the children of `functions` (lines 136-169): a child that is
not an element, or whose name does not compare equal to `keyword`, is skipped
(lines 138-140). -/
def add_function [Locale] (parent : Nat) (acc : devdoc × List (String × Nat))
    (function : XmlNode) : devdoc × List (String × Nat) :=
  match as_element function with
  | none => acc
  | some element =>
    if !ustring_eq (get_name function) "keyword" then acc
    else add_keyword parent acc element

/-- The block run when the `functions` child exists (lines 125-179). -/
def build_functions [Locale] (s : devdoc) (root : Nat) (functions : XmlNode) : devdoc :=
  let (s1, parent) := new_node s more_title (some root)
  let s2 := ((get_children functions).foldl (add_function parent) (s1, [])).1
  if (children_of s2 parent).length = 0 then delete_single s2 parent
  else push_back_child s2 root parent

/-- Lines 107-186 of `get_doc_tree`: the tree is built from the root element `xml_root`,
which passed the test of line 105, and the root is registered. -/
def build_book [Locale] (s : devdoc) (xml_root : Element) : devdoc × Nat :=
  let (s1, root) := new_node s (get_attribute_value xml_root "title") none
  let s2 :=
    match get_first_child xml_root "chapters" with
    | some chapters => build_chapters_children s1 root (get_children chapters)
    | none => s1
  let s3 :=
    match get_first_child xml_root "functions" with
    | some functions => build_functions s2 root functions
    | none => s2
  let s4 := nodes_insert s3 root xml_root
  ({ s4 with root_nodes := s4.root_nodes ++ [root] }, root)

/-- The `try` block of `get_doc_tree` with its handler (lines 93-193), entered after the
path passed the checks of lines 79-87; the result `none` is `nullptr`. -/
def get_doc_tree_try [Locale] (fs : FileSystem) (s : devdoc) (path : String) :
    devdoc × Option Nat :=
  match fs.parse_file (index_file path) with
  | none => ({ s with parsers := s.parsers ++ [⟨none⟩] }, none)
  | some doc =>
    let s1 := { s with parsers := s.parsers ++ [⟨some doc⟩] }
    match doc.root with
    | none => (s1, none)
    | some xml_root =>
      if !ustring_eq xml_root.name "book" then (s1, none)
      else
        let (s2, root) := build_book s1 xml_root
        (s2, some root)

/-- The member function `get_doc_tree(path)`. The three checks of lines 79-87 are evaluated
from left to right, the later ones only when the earlier ones held; they stand before the
`try` block, and the function is `noexcept`, so a check that throws ends the process
(`std::terminate`): the outcome `none`. The outcome `some (s, r)` is a call that returns `r`
(`none` for `nullptr`) in the state `s`. -/
def get_doc_tree [Locale] (fs : FileSystem) (s : devdoc) (path : String) :
    Option (devdoc × Option Nat) :=
  match fs.is_directory path with
  | none => none
  | some false => some (s, none)
  | some true =>
    match fs.file_exists (index_file path) with
    | none => none
    | some false => some (s, none)
    | some true =>
      match fs.is_regular_file (index_file path) with
      | none => none
      | some false => some (s, none)
      | some true => some (get_doc_tree_try fs s path)

/-! ## `get_doc` (lines 197-211) -/

/-- The loop `while (root->parent) root = root->parent`. The loop has no bound in the source;
here it runs on `fuel`, and `none` stands for a walk that did not end within the fuel or that
left the free store. -/
def find_root (heap : List doc_tree_node) : Nat → Nat → Option Nat
  | 0, _ => none
  | fuel + 1, node =>
    match heap[node]? with
    | none => none
    | some n =>
      match n.parent with
      | none => some node
      | some p => find_root heap fuel p

/-- The expression `nodes[k]`: `std::map::operator[]` inserts a null element pointer when the
key is absent. -/
def nodes_index (s : devdoc) (k : Nat) : devdoc × Option Element :=
  match nodes_find s.nodes k with
  | some e => (s, e)
  | none => ({ s with nodes := s.nodes ++ [(k, none)] }, none)

/-- The member function `get_doc(node)`. The result `none` stands for undefined behaviour
(a walk that does not end, or a null element pointer that is dereferenced). The walk is given
the size of the free store as its fuel. -/
def get_doc (s : devdoc) (node : Nat) : devdoc × Option (String × Bool) :=
  match find_root s.heap s.heap.length node with
  | none => (s, none)
  | some root =>
    let (s1, re) := nodes_index s root
    let (s2, ne) := nodes_index s1 node
    match re, ne with
    | some r, some n =>
      (s2, some ("file://" ++ get_attribute_value r "base" ++ "/" ++ get_attribute_value n "link",
        true))
    | _, _ => (s2, none)

/-! ## Teardown: `delete_node` (lines 45-55) and the destructor (lines 59-66) -/

/-- A loop `for (auto& x : xs) f(x)` over pointers whose body can fault (`none`). -/
def for_each (f : devdoc → Nat → Option devdoc) : devdoc → List Nat → Option devdoc
  | s, [] => some s
  | s, x :: xs =>
    match f s x with
    | none => none
    | some s1 => for_each f s1 xs

/-- The member function `delete_node(node)`: the children are deleted first, in order, then
the node itself. The recursion has no bound in the source; here its depth is bounded by
`fuel`. The result `none` stands for undefined behaviour or a recursion that does not end:
the fuel ran out, the pointer does not point into the free store, or the node was deleted
before (its children are read from released memory, or it is released a second time). -/
def delete_node : Nat → devdoc → Nat → Option devdoc
  | 0, _, _ => none
  | fuel + 1, s, node =>
    if node ∈ s.freed then none
    else
      match s.heap[node]? with
      | none => none
      | some d =>
        match for_each (delete_node fuel) s d.children with
        | none => none
        | some s1 => if node ∈ s1.freed then none else some (delete_single s1 node)

/-- The destructor `~devdoc()`: `delete_node` on every registered root, in order. The
recursion is given the size of the free store as its fuel. -/
def devdoc.destructor (s : devdoc) : Option devdoc :=
  for_each (delete_node s.heap.length) s s.root_nodes

/-! ## Abstract document trees

The trees below are the reference against which the free store is read: a `DocTree` is a
title, the markup element the node stands for (if any) and the subtrees in display order.
The definitions of this part follow the wording of the specification and read the markup
tree directly: they call none of the functions of the program above. -/

/-- An abstract document tree node: its title, the markup element it is mapped to (`none`
for a purely structural node) and its children in display order. -/
inductive DocTree where
  | node (title : String) (element : Option Element) (children : List DocTree)

/-- The title of an abstract node. -/
def DocTree.title : DocTree → String
  | .node t _ _ => t

/-- The element an abstract node is mapped to. -/
def DocTree.element : DocTree → Option Element
  | .node _ e _ => e

/-- The children of an abstract node. -/
def DocTree.children : DocTree → List DocTree
  | .node _ _ c => c

mutual
/-- The free store `H` and the map `M` hold the abstract tree `t` at the pointer `id`, below
the parent pointer `par`: the record at `id` has the title and the parent pointer, `id` is
mapped in `M` to the element of `t` (and is absent from `M` when `t` has none), and the
children pointers hold the children of `t`, in order. All pointers of the tree are at least
`lo`, and every node was allocated after its parent. -/
def Represents (H : List doc_tree_node) (M : List (Nat × Option Element)) (lo : Nat) :
    Option Nat → Nat → DocTree → Prop
  | par, id, .node title el children =>
    lo ≤ id ∧ (∀ p, par = some p → p < id) ∧
    ∃ n, H[id]? = some n ∧ n.title = title ∧ n.parent = par ∧
      nodes_find M id = el.map some ∧ RepresentsList H M lo (some id) n.children children
/-- The pointers `ids` hold the abstract trees `ts`, one by one and in order. -/
def RepresentsList (H : List doc_tree_node) (M : List (Nat × Option Element)) (lo : Nat) :
    Option Nat → List Nat → List DocTree → Prop
  | _, [], [] => True
  | par, i :: is, t :: ts => Represents H M lo par i t ∧ RepresentsList H M lo par is ts
  | _, [], _ :: _ => False
  | _, _ :: _, [] => False
end

/-- The pointer `k` is a node of the tree rooted at `r`: it is reached from `r` through
`children` sequences. -/
inductive InTree (H : List doc_tree_node) (r : Nat) : Nat → Prop where
  | root : InTree H r r
  | child {n c : Nat} {d : doc_tree_node} :
      InTree H r n → H[n]? = some d → c ∈ d.children → InTree H r c

/-- Two names are the same for the program: they compare equal as `Glib::ustring` values,
that is, they have the same collation key in the locale of the process. -/
def SameName [Locale] (a b : String) : Prop :=
  Locale.collate_key a = Locale.collate_key b

instance SameName.decidable [Locale] (a b : String) : Decidable (SameName a b) :=
  inferInstanceAs (Decidable (Locale.collate_key a = Locale.collate_key b))

/-- The value of the attribute `name` of an element, the empty string when the element has
no such attribute. -/
def spec_attr (e : Element) (name : String) : String :=
  match e.attrs.find? (fun kv => kv.1 = name) with
  | some kv => kv.2
  | none => ""

/-- The first child node, of any kind, that has the name `name`; `none` when no child has
it. A text node, a comment or a processing instruction has a name too and can come first. -/
def spec_first_named [Locale] (name : String) : List XmlNode → Option XmlNode
  | [] => none
  | .element n attrs children :: rest =>
    if SameName n name then some (.element n attrs children) else spec_first_named name rest
  | .other n :: rest =>
    if SameName n name then some (.other n) else spec_first_named name rest

mutual
/-- The chapter tree of one child of `chapters` (or of a `sub`): a node for an element named
`sub`, titled by its `name` attribute, nothing for any other child. -/
def spec_chapter_node [Locale] : XmlNode → List DocTree
  | .element name attrs children =>
    if SameName name "sub" then
      [.node (spec_attr ⟨name, attrs, children⟩ "name") (some ⟨name, attrs, children⟩)
        (spec_chapter_trees children)]
    else []
  | .other _ => []
/-- The chapter trees of a list of children: one tree per child element named `sub`, in
document order, built by the same rule from the children of that element. -/
def spec_chapter_trees [Locale] : List XmlNode → List DocTree
  | [] => []
  | x :: xs => spec_chapter_node x ++ spec_chapter_trees xs
end

/-- The children that are elements named `keyword`, in document order. -/
def spec_keywords [Locale] : List XmlNode → List Element
  | [] => []
  | .element name attrs children :: rest =>
    if SameName name "keyword" then ⟨name, attrs, children⟩ :: spec_keywords rest
    else spec_keywords rest
  | .other _ :: rest => spec_keywords rest

/-- The `type` attribute of a keyword. -/
def keyword_type (k : Element) : String := spec_attr k "type"

/-- The values of a list that are the first of their kind, in the order of the list: a value
is kept unless a value with the same collation key comes before it. -/
def first_occurrences [Locale] : List String → List String
  | [] => []
  | t :: ts => t :: (first_occurrences ts).filter (fun u => decide (¬ SameName u t))

/-- The leaf of a keyword: titled by the `name` attribute, mapped to the keyword element,
without children. -/
def spec_keyword_leaf (k : Element) : DocTree :=
  .node (spec_attr k "name") (some k) []

/-- The group with the title `t`: mapped to no element, with one leaf per keyword whose type
is the same name as `t`, in document order. -/
def spec_keyword_group [Locale] (ks : List Element) (t : String) : DocTree :=
  .node t none ((ks.filter (fun k => decide (SameName (keyword_type k) t))).map
    spec_keyword_leaf)

/-- The groups of a list of keywords: one per type, titled by the type value that is met
first, in first-encounter order. -/
def spec_keyword_groups [Locale] (ks : List Element) : List DocTree :=
  (first_occurrences (ks.map keyword_type)).map (spec_keyword_group ks)

/-- The "More" node of a list of keywords: mapped to no element, with the groups as its
children. -/
def spec_more_tree [Locale] (ks : List Element) : DocTree :=
  .node more_title none (spec_keyword_groups ks)

/-- The chapter part of the children of the root: when the first child node named `chapters`
is an element, the chapter trees of its children; nothing otherwise. -/
def spec_book_chapters [Locale] (xml_root : Element) : List DocTree :=
  match spec_first_named "chapters" xml_root.children with
  | some (.element _ _ children) => spec_chapter_trees children
  | _ => []

/-- The keywords of a book: when the first child node named `functions` is an element, its
children that are elements named `keyword`; none otherwise. -/
def book_keywords [Locale] (xml_root : Element) : List Element :=
  match spec_first_named "functions" xml_root.children with
  | some (.element _ _ children) => spec_keywords children
  | _ => []

/-- The keyword part of the children of the root: the "More" node when there is at least
one keyword, nothing otherwise. -/
def spec_book_more [Locale] (xml_root : Element) : List DocTree :=
  if book_keywords xml_root = [] then [] else [spec_more_tree (book_keywords xml_root)]

/-- The tree of a book: the root is titled by the `title` attribute and mapped to the root
element; its children are the chapter trees followed by the "More" node, if any. -/
def spec_book_tree [Locale] (xml_root : Element) : DocTree :=
  .node (spec_attr xml_root "title") (some xml_root)
    (spec_book_chapters xml_root ++ spec_book_more xml_root)

mutual
/-- The number of `sub` elements counted from one child: the child itself, when it is an
element named `sub`, together with what is counted from its children; nothing for any other
child, whatever it contains. -/
def sub_chain_count_node [Locale] : XmlNode → Nat
  | .element name _ children => if SameName name "sub" then 1 + sub_chain_count children else 0
  | .other _ => 0
/-- The number of `sub` elements that are reached from a list of children through a chain of
`sub` elements only. -/
def sub_chain_count [Locale] : List XmlNode → Nat
  | [] => 0
  | x :: xs => sub_chain_count_node x + sub_chain_count xs
end

mutual
/-- The number of nodes of an abstract tree. -/
def DocTree.size : DocTree → Nat
  | .node _ _ children => 1 + DocTree.size_list children
/-- The number of nodes of a list of abstract trees. -/
def DocTree.size_list : List DocTree → Nat
  | [] => 0
  | t :: ts => DocTree.size t + DocTree.size_list ts
end

/-! ## Invariants of the construction -/

/-- Well-formed states: the keys of the map `nodes` are pairwise distinct and are pointers
into the free store (so a pointer returned by `new` is not yet a key). -/
structure devdoc.WF (s : devdoc) : Prop where
  keys_nodup : (s.nodes.map Prod.fst).Nodup
  keys_lt : ∀ k ∈ s.nodes.map Prod.fst, k < s.heap.length

/-- The path passes the checks of lines 79-87 (each of them answers, none throws), the index
file parses, and the root element of the parsed document is `xml_root`. -/
def ParsesTo (fs : FileSystem) (path : String) (xml_root : Element) : Prop :=
  fs.is_directory path = some true ∧ fs.file_exists (index_file path) = some true ∧
    fs.is_regular_file (index_file path) = some true ∧
    ∃ doc, fs.parse_file (index_file path) = some doc ∧ doc.root = some xml_root

/-- Every record of `H` is still in `H2`, with at least the same children. -/
@[reducible]
def Grows (H H2 : List doc_tree_node) : Prop :=
  ∀ (i : Nat) (n : doc_tree_node), H[i]? = some n →
    ∃ n2 : doc_tree_node, H2[i]? = some n2 ∧ ∀ c ∈ n.children, c ∈ n2.children

/-- What a run of the chapter walk below the parent pointer `p` does to the state: it
allocates, appends the new children `ids` to the record of `p`, appends the entries `ext` to
the map, and leaves every other record as it was; the new children hold the trees `ts`. -/
structure ChapStep (s s2 : devdoc) (p : Nat) (ids : List Nat)
    (ext : List (Nat × Option Element)) (ts : List DocTree) : Prop where
  parsers_eq : s2.parsers = s.parsers
  root_nodes_eq : s2.root_nodes = s.root_nodes
  wf : s2.WF
  len_le : s.heap.length ≤ s2.heap.length
  old : ∀ i, i < s.heap.length → i ≠ p → s2.heap[i]? = s.heap[i]?
  par : ∀ n, s.heap[p]? = some n →
    s2.heap[p]? = some { n with children := n.children ++ ids }
  rep : RepresentsList s2.heap s2.nodes s.heap.length (some p) ids ts
  nodes_eq : s2.nodes = s.nodes ++ ext
  ext_keys : ∀ kv ∈ ext, s.heap.length ≤ kv.1 ∧ ∃ c ∈ ids, InTree s2.heap c kv.1

/-- The keywords of each type, as pairs of a title and its keywords: one pair per type, in
first-encounter order, titled by the type value met first, each with the keywords of that
type in document order. -/
def spec_groups [Locale] (ks : List Element) : List (String × List Element) :=
  (first_occurrences (ks.map keyword_type)).map
    (fun t => (t, ks.filter (fun k => decide (SameName (keyword_type k) t))))

/-- The keyword `k`, of the type `t`, is appended to the group whose title is the same name
as `t`. -/
def add_to_group [Locale] (G : List (String × List Element)) (t : String) (k : Element) :
    List (String × List Element) :=
  G.map (fun tg => if SameName tg.1 t then (tg.1, tg.2 ++ [k]) else tg)

/-- The pointer `l` is the leaf of the keyword `k` in the group `g`. -/
def IsLeaf (H : List doc_tree_node) (M : List (Nat × Option Element)) (g l : Nat)
    (k : Element) : Prop :=
  g < l ∧ H[l]? = some ⟨spec_attr k "name", some g, []⟩ ∧
    nodes_find M l = some (some k)

/-- The pointer `g` is the group node with the title `t` below the "More" node `m`, and its
children are the leaves of the keywords `ks`. -/
def GroupAt (H : List doc_tree_node) (M : List (Nat × Option Element)) (m g : Nat)
    (t : String) (ks : List Element) : Prop :=
  m < g ∧ nodes_find M g = none ∧
    ∃ lids, H[g]? = some ⟨t, some m, lids⟩ ∧ List.Forall₂ (IsLeaf H M g) lids ks

/-- The invariant of the loop over the children of `functions`: `sb` is the state in which
the loop starts (the "More" node `m` has just been allocated), `sc` the current state,
`known` the local map `known_keyword_types` and `G` the keywords seen so far, by type. -/
structure KwInv [Locale] (sb sc : devdoc) (m root : Nat) (known : List (String × Nat))
    (G : List (String × List Element)) (ext : List (Nat × Option Element)) : Prop where
  parsers_eq : sc.parsers = sb.parsers
  root_nodes_eq : sc.root_nodes = sb.root_nodes
  freed_eq : sc.freed = sb.freed
  wf : sc.WF
  len_le : sb.heap.length ≤ sc.heap.length
  old : ∀ i, i < m → sc.heap[i]? = sb.heap[i]?
  more : sc.heap[m]? = some ⟨more_title, some root, known.map Prod.snd⟩
  more_unmapped : nodes_find sc.nodes m = none
  keys_nodup : (G.map (fun tg => Locale.collate_key tg.1)).Nodup
  groups : List.Forall₂ (fun kg tg => kg.1 = tg.1 ∧ GroupAt sc.heap sc.nodes m kg.2 tg.1 tg.2)
    known G
  nodes_eq : sc.nodes = sb.nodes ++ ext
  ext_keys : ∀ kv ∈ ext, m < kv.1 ∧ InTree sc.heap m kv.1

/-- What the block for the `functions` child does to the state: it allocates the "More"
node and the nodes below it, appends the "More" node to the children of the root unless
there is no keyword (in which case the "More" node is deleted), and appends the entries
`ext` to the map; `ks` are the keyword elements. -/
structure FunStep [Locale] (s s3 : devdoc) (root : Nat) (ks : List Element)
    (ext : List (Nat × Option Element)) : Prop where
  parsers_eq : s3.parsers = s.parsers
  root_nodes_eq : s3.root_nodes = s.root_nodes
  freed_eq : s3.freed = s.freed ++ (if ks = [] then [s.heap.length] else [])
  wf : s3.WF
  len_lt : s.heap.length < s3.heap.length
  old : ∀ i, i < s.heap.length → i ≠ root → s3.heap[i]? = s.heap[i]?
  par : ∀ n, s.heap[root]? = some n →
    s3.heap[root]? =
      some { n with children := n.children ++ (if ks = [] then [] else [s.heap.length]) }
  rep : Represents s3.heap s3.nodes s.heap.length (some root) s.heap.length (spec_more_tree ks)
  nodes_eq : s3.nodes = s.nodes ++ ext
  ext_keys : ∀ kv ∈ ext, s.heap.length < kv.1 ∧ InTree s3.heap s.heap.length kv.1
  ext_nil : ks = [] → ext = []

/-- What lines 107-186 do to the state: the root `r` is allocated at the end of the free
store, its children are the chapter nodes `cs` followed by the nodes `ms` of the keyword part
(the "More" node or nothing), the root is appended to the root registry, and the entries
`ext` are appended to the map. -/
structure BookStep [Locale] (s s2 : devdoc) (r : Nat) (xml_root : Element) (cs ms : List Nat)
    (ext : List (Nat × Option Element)) : Prop where
  root_eq : r = s.heap.length
  parsers_eq : s2.parsers = s.parsers
  root_nodes_eq : s2.root_nodes = s.root_nodes ++ [r]
  wf : s2.WF
  len_lt : s.heap.length < s2.heap.length
  old : ∀ i, i < s.heap.length → s2.heap[i]? = s.heap[i]?
  root_rec : s2.heap[r]? = some ⟨spec_attr xml_root "title", none, cs ++ ms⟩
  root_map : nodes_find s2.nodes r = some (some xml_root)
  chap : RepresentsList s2.heap s2.nodes (s.heap.length + 1) (some r) cs
    (spec_book_chapters xml_root)
  more : RepresentsList s2.heap s2.nodes (s.heap.length + 1) (some r) ms
    (spec_book_more xml_root)
  nodes_eq : s2.nodes = s.nodes ++ ext
  ext_keys : ∀ kv ∈ ext, s.heap.length ≤ kv.1 ∧ InTree s2.heap r kv.1
  more_node : ∀ f, spec_first_named "functions" xml_root.children = some f →
    ∃ m, r < m ∧
      Represents s2.heap s2.nodes m (some r) m (spec_more_tree (book_keywords xml_root)) ∧
      ms = (if book_keywords xml_root = [] then [] else [m]) ∧
      s2.freed = s.freed ++ (if book_keywords xml_root = [] then [m] else [])
  no_functions : spec_first_named "functions" xml_root.children = none →
    ms = [] ∧ s2.freed = s.freed

/-- The kinds of nodes of the tree of the book `xml_root` rooted at `r`, each with the
abstract tree it holds: the root, a chapter node (built from an element named `sub`), the
"More" node, the group node with the title `t`, and the leaf of a keyword. -/
inductive NodeKind [Locale] (H : List doc_tree_node) (M : List (Nat × Option Element))
    (r : Nat) (xml_root : Element) : Nat → DocTree → Prop where
  | root : NodeKind H M r xml_root r (spec_book_tree xml_root)
  | chapter (k : Nat) (name : String) (attrs : List (String × String))
      (children : List XmlNode) :
      SameName name "sub" →
      NodeKind H M r xml_root k
        (.node (spec_attr ⟨name, attrs, children⟩ "name")
          (some ⟨name, attrs, children⟩) (spec_chapter_trees children))
  | more (k : Nat) (n : doc_tree_node) :
      book_keywords xml_root ≠ [] → H[k]? = some n → n.title = more_title →
      n.parent = some r → nodes_find M k = none →
      NodeKind H M r xml_root k (spec_more_tree (book_keywords xml_root))
  | group (k m : Nat) (n mn : doc_tree_node) (t : String) :
      H[m]? = some mn → mn.title = more_title → mn.parent = some r → nodes_find M m = none →
      H[k]? = some n → n.title = t → n.parent = some m → nodes_find M k = none →
      t ∈ (book_keywords xml_root).map keyword_type →
      NodeKind H M r xml_root k (spec_keyword_group (book_keywords xml_root) t)
  | leaf (k : Nat) (kw : Element) :
      kw ∈ book_keywords xml_root → NodeKind H M r xml_root k (spec_keyword_leaf kw)

/-- The pointer `k` is the "More" node of the tree rooted at `r`: a node with the fixed
title whose parent is the root and which is mapped to no element. -/
def IsMore (H : List doc_tree_node) (M : List (Nat × Option Element)) (r k : Nat) : Prop :=
  ∃ n, H[k]? = some n ∧ n.title = more_title ∧ n.parent = some r ∧ nodes_find M k = none

/-- The records of the free store from the pointer `lo` on agree with their children
sequences: a children sequence is strictly increasing, and every child was allocated after
the node and has the node as its parent. -/
def HeapOK (lo : Nat) (H : List doc_tree_node) : Prop :=
  ∀ (i : Nat) (d : doc_tree_node), lo ≤ i → H[i]? = some d →
    d.children.Pairwise (fun a b => a < b) ∧
    ∀ c ∈ d.children, i < c ∧ ∃ dc : doc_tree_node, H[c]? = some dc ∧ dc.parent = some i

/-- The pointer `c` is released before the pointer `n` in the list `L` of released
pointers. -/
def Before (L : List Nat) (c n : Nat) : Prop :=
  ∃ l1 l2 l3, L = l1 ++ c :: l2 ++ n :: l3

/-- In the list `L` of released pointers every child is released before its parent. -/
def ChildrenFirst (H : List doc_tree_node) (L : List Nat) : Prop :=
  ∀ (n : Nat) (d : doc_tree_node) (c : Nat), n ∈ L → H[n]? = some d → c ∈ d.children →
    Before L c n

/-- The states the extension object can be in: the state is well-formed, the whole free
store agrees with its children sequences, the registered roots are in the order of their
creation and point to root nodes, the nodes of the tree of a registered root are alive and
lie before the next registered root, and no pointer was deleted twice. -/
structure devdoc.Sound (s : devdoc) : Prop where
  wf : s.WF
  heap_ok : HeapOK 0 s.heap
  roots_sorted : s.root_nodes.Pairwise (fun a b => a < b)
  roots_ok : ∀ r ∈ s.root_nodes, ∃ d, s.heap[r]? = some d ∧ d.parent = none
  sep : ∀ r ∈ s.root_nodes, ∀ k, InTree s.heap r k →
    k ∉ s.freed ∧ ∀ r2 ∈ s.root_nodes, r < r2 → k < r2
  freed_nodup : s.freed.Nodup
  freed_lt : ∀ x ∈ s.freed, x < s.heap.length

/-- The run `res` of a teardown loop from the state `s` over the pointers `roots` did not
fault and released exactly the pointers `L`: the final state is `s` with `L` appended to the
deleted pointers, `L` lists no pointer twice, its members are exactly the nodes of the trees
of `roots`, and in `L` every child comes before its parent. -/
def Released (H : List doc_tree_node) (res : Option devdoc) (s : devdoc) (roots : List Nat)
    (L : List Nat) : Prop :=
  res = some { s with freed := s.freed ++ L } ∧ L.Nodup ∧
    (∀ x, x ∈ L ↔ ∃ c ∈ roots, InTree H c x) ∧ ChildrenFirst H L

/-- The states the extension object goes through: the freshly constructed object, and the
state in which a call of `get_doc_tree` or of `get_doc` in such a state returns. -/
inductive Reachable [Locale] : devdoc → Prop where
  | init : Reachable devdoc.init
  | tree (fs : FileSystem) (path : String) {s s2 : devdoc} {res : Option Nat} :
      Reachable s → get_doc_tree fs s path = some (s2, res) → Reachable s2
  | doc (node : Nat) {s : devdoc} : Reachable s → Reachable (get_doc s node).1

/-- The root `r` was returned by a call of `get_doc_tree` in the history of the state `s`. -/
inductive Returned [Locale] : devdoc → Nat → Prop where
  | here (fs : FileSystem) (path : String) {s s2 : devdoc} {r : Nat} :
      Reachable s → get_doc_tree fs s path = some (s2, some r) → Returned s2 r
  | tree (fs : FileSystem) (path : String) {s s2 : devdoc} {r : Nat} {res : Option Nat} :
      Returned s r → get_doc_tree fs s path = some (s2, res) → Returned s2 r
  | doc (node : Nat) {s : devdoc} {r : Nat} : Returned s r → Returned (get_doc s node).1 r

/-! ## Sample documents, a sample locale and a sample file system -/

/-- The markup node of an element. -/
def Element.toNode (e : Element) : XmlNode := .element e.name e.attrs e.children

/-- The chapter `B1` of the sample book. -/
def sample_B1 : Element := ⟨"sub", [("name", "B1"), ("link", "b1.html")], []⟩

/-- The chapter `A` of the sample book, which contains the chapter `B1`. -/
def sample_A : Element := ⟨"sub", [("name", "A"), ("link", "a.html")], [sample_B1.toNode]⟩

/-- The keyword `FOO` of the sample book, of the type `macro`. -/
def sample_FOO : Element :=
  ⟨"keyword", [("type", "macro"), ("name", "FOO"), ("link", "foo.html")], []⟩

/-- The keyword `f` of the sample book, of the type `function`. -/
def sample_f : Element :=
  ⟨"keyword", [("type", "function"), ("name", "f"), ("link", "f.html")], []⟩

/-- The keyword `BAR` of the sample book, of the type `macro`. -/
def sample_BAR : Element :=
  ⟨"keyword", [("type", "macro"), ("name", "BAR"), ("link", "x.html")], []⟩

/-- A sample book: `book title="X" base="/docs"` with the chapter `A` (containing the
chapter `B1`) and the keywords `FOO` (type `macro`), `f` (type `function`) and `BAR` (type
`macro`), with a text node after the first keyword. -/
def sample_book : Element :=
  ⟨"book", [("title", "X"), ("base", "/docs")],
    [.element "chapters" [] [sample_A.toNode],
     .element "functions" []
      [sample_FOO.toNode, .other "text", sample_f.toNode, sample_BAR.toNode]]⟩

/-- The state in which `get_doc_tree` returns on the sample book, called on the freshly
constructed object: root `X` -> `A` -> `B1`, and "More" -> `macro` -> `FOO`, `BAR` and
"More" -> `function` -> `f`. -/
def sample_state : devdoc :=
  { parsers := [⟨some ⟨some sample_book⟩⟩]
    nodes := [(2, some sample_B1), (1, some sample_A), (5, some sample_FOO),
      (7, some sample_f), (8, some sample_BAR), (0, some sample_book)]
    root_nodes := [0]
    heap := [⟨"X", none, [1, 3]⟩, ⟨"A", some 0, [2]⟩, ⟨"B1", some 1, []⟩,
      ⟨"More (keywords, functions...)", some 0, [4, 6]⟩, ⟨"macro", some 3, [5, 8]⟩,
      ⟨"FOO", some 4, []⟩, ⟨"function", some 3, [7]⟩, ⟨"f", some 6, []⟩,
      ⟨"BAR", some 4, []⟩]
    freed := [] }

/-- The sample state after a further call of `get_doc_tree` on a document whose root element
is named `Book`: only the parser collection has grown. -/
def sample_state_absent : devdoc :=
  { sample_state with
    parsers := sample_state.parsers ++ [⟨some ⟨some ⟨"Book", [], []⟩⟩⟩] }

/-- A book whose `chapters` child holds a `sub` element inside an element named `section`,
followed by a text node. -/
def pruned_book : Element :=
  ⟨"book", [("title", "P"), ("base", "/p")],
    [.element "chapters" []
      [.element "section" [] [.element "sub" [("name", "hidden"), ("link", "h.html")] []],
       .other "text"]]⟩

/-- A book whose `functions` child comes before its `chapters` child. -/
def reversed_book : Element :=
  ⟨"book", [("title", "R"), ("base", "/r")],
    [.element "functions" []
      [.element "keyword" [("type", "function"), ("name", "f"), ("link", "f.html")] []],
     .element "chapters" []
      [.element "sub" [("name", "One"), ("link", "one.html")] [],
       .element "sub" [("name", "Two"), ("link", "two.html")] []]]⟩

/-- A root element whose name is `book` written in fullwidth letters. -/
def fullwidth_book : Element := ⟨"ｂｏｏｋ", [("title", "F"), ("base", "/f")], []⟩

/-- What the compatibility normalisation, the first step of `g_utf8_collate`, does to a
character on the samples: the ligature `ﬁ` becomes `fi`, a fullwidth form (U+FF01 to U+FF5E)
becomes its ASCII counterpart, and any other character stays. -/
def compat_char (c : Char) : List Char :=
  if c = 'ﬁ' then ['f', 'i']
  else if 0xFF01 ≤ c.toNat ∧ c.toNat ≤ 0xFF5E then [Char.ofNat (c.toNat - 0xFEE0)]
  else [c]

/-- The collation key of the sample locale: the characters are normalised one by one, and
the normalised strings are compared as they are. -/
def compat_key (s : String) : String :=
  String.mk (s.data.map compat_char).flatten

/-- A sample locale: strings compare equal when they are the same after the compatibility
normalisation of `compat_char`. -/
def compat_locale : Locale := ⟨compat_key⟩

/-- A file system in which every path is a directory with a regular index file that parses
to the document with the root element `xml_root`. -/
def fs_with (xml_root : Option Element) : FileSystem :=
  ⟨fun _ => some true, fun _ => some true, fun _ => some true, fun _ => some ⟨xml_root⟩⟩

/-- A file system without any file, in which a query on a path whose last component is
longer than 255 characters fails (`ENAMETOOLONG`), so that the query throws. -/
def fs_empty : FileSystem :=
  ⟨fun p => if 255 < (filename p).length then none else some false,
   fun p => if 255 < (filename p).length then none else some false,
   fun p => if 255 < (filename p).length then none else some false,
   fun _ => none⟩

/-- A relative path of one component of 256 characters. -/
def long_name : String := String.mk (List.replicate 256 'a')

/-! ## The free store under allocation and `push_back` -/

theorem WF_init : devdoc.init.WF := ⟨by simp [devdoc.init], by simp [devdoc.init]⟩

mutual
theorem Represents.frame_node {H H2 : List doc_tree_node} {M M2 : List (Nat × Option Element)}
    {lo : Nat} (hH : ∀ i, lo ≤ i → i < H.length → H2[i]? = H[i]?)
    (hM : ∀ i, lo ≤ i → i < H.length → nodes_find M2 i = nodes_find M i) :
    ∀ (par : Option Nat) (id : Nat) (t : DocTree),
      Represents H M lo par id t → Represents H2 M2 lo par id t
  | par, id, .node title el children => by
    intro h
    unfold Represents at h ⊢
    obtain ⟨h1, h2, n, h3, h4, h5, h6, h7⟩ := h
    have hlt : id < H.length := by
      rcases Nat.lt_or_ge id H.length with h | h
      · exact h
      · rw [List.getElem?_eq_none h] at h3; cases h3
    exact ⟨h1, h2, n, by rw [hH id h1 hlt, h3], h4, h5, by rw [hM id h1 hlt, h6],
      RepresentsList.frame_list hH hM (some id) n.children children h7⟩
theorem RepresentsList.frame_list {H H2 : List doc_tree_node} {M M2 : List (Nat × Option Element)}
    {lo : Nat} (hH : ∀ i, lo ≤ i → i < H.length → H2[i]? = H[i]?)
    (hM : ∀ i, lo ≤ i → i < H.length → nodes_find M2 i = nodes_find M i) :
    ∀ (par : Option Nat) (ids : List Nat) (ts : List DocTree),
      RepresentsList H M lo par ids ts → RepresentsList H2 M2 lo par ids ts
  | _, [], [] => by intro _; unfold RepresentsList; trivial
  | par, i :: is, t :: ts => by
    intro h
    unfold RepresentsList at h ⊢
    exact ⟨Represents.frame_node hH hM par i t h.1, RepresentsList.frame_list hH hM par is ts h.2⟩
  | _, [], _ :: _ => by intro h; unfold RepresentsList at h; exact h.elim
  | _, _ :: _, [] => by intro h; unfold RepresentsList at h; exact h.elim
end

mutual
theorem Represents.mono_node {H : List doc_tree_node} {M : List (Nat × Option Element)}
    {lo lo2 : Nat} (hlo : lo2 ≤ lo) :
    ∀ (par : Option Nat) (id : Nat) (t : DocTree),
      Represents H M lo par id t → Represents H M lo2 par id t
  | par, id, .node title el children => by
    intro h
    unfold Represents at h ⊢
    obtain ⟨h1, h2, n, h3, h4, h5, h6, h7⟩ := h
    exact ⟨Nat.le_trans hlo h1, h2, n, h3, h4, h5, h6,
      RepresentsList.mono_list hlo (some id) n.children children h7⟩
theorem RepresentsList.mono_list {H : List doc_tree_node} {M : List (Nat × Option Element)}
    {lo lo2 : Nat} (hlo : lo2 ≤ lo) :
    ∀ (par : Option Nat) (ids : List Nat) (ts : List DocTree),
      RepresentsList H M lo par ids ts → RepresentsList H M lo2 par ids ts
  | _, [], [] => by intro _; unfold RepresentsList; trivial
  | par, i :: is, t :: ts => by
    intro h
    unfold RepresentsList at h ⊢
    exact ⟨Represents.mono_node hlo par i t h.1, RepresentsList.mono_list hlo par is ts h.2⟩
  | _, [], _ :: _ => by intro h; unfold RepresentsList at h; exact h.elim
  | _, _ :: _, [] => by intro h; unfold RepresentsList at h; exact h.elim
end

theorem representsList_iff {H : List doc_tree_node} {M : List (Nat × Option Element)}
    {lo : Nat} {par : Option Nat} :
    ∀ (ids : List Nat) (ts : List DocTree),
      RepresentsList H M lo par ids ts ↔ List.Forall₂ (Represents H M lo par) ids ts
  | [], [] => by unfold RepresentsList; simp
  | i :: is, t :: ts => by
    unfold RepresentsList
    rw [List.forall₂_cons, representsList_iff is ts]
  | [], _ :: _ => by unfold RepresentsList; simp
  | _ :: _, [] => by unfold RepresentsList; simp

theorem representsList_append {H : List doc_tree_node} {M : List (Nat × Option Element)}
    {lo : Nat} {par : Option Nat} {ids1 ids2 : List Nat} {ts1 ts2 : List DocTree}
    (h1 : RepresentsList H M lo par ids1 ts1) (h2 : RepresentsList H M lo par ids2 ts2) :
    RepresentsList H M lo par (ids1 ++ ids2) (ts1 ++ ts2) := by
  rw [representsList_iff] at h1 h2 ⊢
  exact List.rel_append h1 h2

theorem represents_node {H : List doc_tree_node} {M : List (Nat × Option Element)}
    {lo : Nat} {par : Option Nat} {id : Nat} {t : DocTree} :
    Represents H M lo par id t ↔
      lo ≤ id ∧ (∀ p, par = some p → p < id) ∧
      ∃ n, H[id]? = some n ∧ n.title = t.title ∧ n.parent = par ∧
        nodes_find M id = t.element.map some ∧
        RepresentsList H M lo (some id) n.children t.children := by
  cases t with
  | node title el children => unfold Represents; rfl

theorem represents_lt_length {H : List doc_tree_node} {M : List (Nat × Option Element)}
    {lo : Nat} {par : Option Nat} {id : Nat} {t : DocTree}
    (h : Represents H M lo par id t) : id < H.length := by
  rw [represents_node] at h
  obtain ⟨_, _, n, h3, _⟩ := h
  rcases Nat.lt_or_ge id H.length with h | h
  · exact h
  · rw [List.getElem?_eq_none h] at h3; cases h3

/-! ### The map `nodes` -/

theorem nodes_find_eq_none_iff {M : List (Nat × Option Element)} {k : Nat} :
    nodes_find M k = none ↔ k ∉ M.map Prod.fst := by
  unfold nodes_find
  rw [List.lookup_eq_none_iff]
  constructor
  · intro h hk
    obtain ⟨p, hp, rfl⟩ := List.mem_map.1 hk
    simpa using h p hp
  · intro h p hp
    simp only [bne_iff_ne, ne_eq]
    intro hk
    exact h (List.mem_map.2 ⟨p, hp, hk.symm⟩)

theorem nodes_find_append_left {M E : List (Nat × Option Element)} {k : Nat}
    (h : k ∉ E.map Prod.fst) : nodes_find (M ++ E) k = nodes_find M k := by
  have hE : nodes_find E k = none := nodes_find_eq_none_iff.2 h
  unfold nodes_find at hE ⊢
  rw [List.lookup_append, hE]
  cases List.lookup k M <;> rfl

theorem nodes_find_append_right {M E : List (Nat × Option Element)} {k : Nat}
    (h : nodes_find M k = none) : nodes_find (M ++ E) k = nodes_find E k := by
  unfold nodes_find at h ⊢
  rw [List.lookup_append, h]
  rfl

theorem nodes_find_of_mem {M : List (Nat × Option Element)} {k : Nat} {v : Option Element}
    (hnd : (M.map Prod.fst).Nodup) (h : (k, v) ∈ M) : nodes_find M k = some v := by
  induction M with
  | nil => cases h
  | cons p M ih =>
    obtain ⟨k2, v2⟩ := p
    simp only [List.map_cons, List.nodup_cons] at hnd
    unfold nodes_find
    rw [List.lookup_cons]
    rcases List.mem_cons.1 h with h2 | h2
    · cases h2; simp
    · have hne : k ≠ k2 := by
        intro hk
        exact hnd.1 (List.mem_map.2 ⟨(k, v), h2, hk⟩)
      have : (k == k2) = false := by simpa using hne
      rw [this]
      exact ih hnd.2 h2

theorem mem_of_nodes_find {M : List (Nat × Option Element)} {k : Nat} {v : Option Element}
    (h : nodes_find M k = some v) : (k, v) ∈ M := by
  unfold nodes_find at h
  obtain ⟨l1, l2, rfl, _⟩ := List.lookup_eq_some_iff.1 h
  simp

/-! ### Allocation and `push_back` -/

@[simp]
theorem new_node_heap (s : devdoc) (t : String) (p : Option Nat) :
    (new_node s t p).1.heap = s.heap ++ [⟨t, p, []⟩] := rfl

@[simp]
theorem new_node_ptr (s : devdoc) (t : String) (p : Option Nat) :
    (new_node s t p).2 = s.heap.length := rfl

@[simp]
theorem new_node_nodes (s : devdoc) (t : String) (p : Option Nat) :
    (new_node s t p).1.nodes = s.nodes := rfl

@[simp]
theorem new_node_parsers (s : devdoc) (t : String) (p : Option Nat) :
    (new_node s t p).1.parsers = s.parsers := rfl

@[simp]
theorem new_node_root_nodes (s : devdoc) (t : String) (p : Option Nat) :
    (new_node s t p).1.root_nodes = s.root_nodes := rfl

@[simp]
theorem new_node_freed (s : devdoc) (t : String) (p : Option Nat) :
    (new_node s t p).1.freed = s.freed := rfl

@[simp]
theorem push_back_child_nodes (s : devdoc) (p c : Nat) :
    (push_back_child s p c).nodes = s.nodes := by
  unfold push_back_child; split <;> rfl

@[simp]
theorem push_back_child_parsers (s : devdoc) (p c : Nat) :
    (push_back_child s p c).parsers = s.parsers := by
  unfold push_back_child; split <;> rfl

@[simp]
theorem push_back_child_root_nodes (s : devdoc) (p c : Nat) :
    (push_back_child s p c).root_nodes = s.root_nodes := by
  unfold push_back_child; split <;> rfl

@[simp]
theorem push_back_child_freed (s : devdoc) (p c : Nat) :
    (push_back_child s p c).freed = s.freed := by
  unfold push_back_child; split <;> rfl

@[simp]
theorem push_back_child_length (s : devdoc) (p c : Nat) :
    (push_back_child s p c).heap.length = s.heap.length := by
  unfold push_back_child; split <;> simp

theorem push_back_child_ne (s : devdoc) {p i : Nat} (c : Nat) (h : i ≠ p) :
    (push_back_child s p c).heap[i]? = s.heap[i]? := by
  unfold push_back_child
  split
  · simp [List.getElem?_set_ne (Ne.symm h)]
  · rfl

theorem push_back_child_self (s : devdoc) {p : Nat} (c : Nat) {n : doc_tree_node}
    (h : s.heap[p]? = some n) :
    (push_back_child s p c).heap[p]? = some { n with children := n.children ++ [c] } := by
  have hlt : p < s.heap.length := by
    rcases Nat.lt_or_ge p s.heap.length with h2 | h2
    · exact h2
    · rw [List.getElem?_eq_none h2] at h; cases h
  unfold push_back_child
  rw [h]
  simp [List.getElem?_set_self hlt]

@[simp]
theorem nodes_insert_heap (s : devdoc) (k : Nat) (e : Element) :
    (nodes_insert s k e).heap = s.heap := by
  unfold nodes_insert; split <;> rfl

@[simp]
theorem nodes_insert_parsers (s : devdoc) (k : Nat) (e : Element) :
    (nodes_insert s k e).parsers = s.parsers := by
  unfold nodes_insert; split <;> rfl

@[simp]
theorem nodes_insert_root_nodes (s : devdoc) (k : Nat) (e : Element) :
    (nodes_insert s k e).root_nodes = s.root_nodes := by
  unfold nodes_insert; split <;> rfl

@[simp]
theorem nodes_insert_freed (s : devdoc) (k : Nat) (e : Element) :
    (nodes_insert s k e).freed = s.freed := by
  unfold nodes_insert; split <;> rfl

theorem nodes_insert_fresh (s : devdoc) {k : Nat} (e : Element)
    (h : nodes_find s.nodes k = none) :
    (nodes_insert s k e).nodes = s.nodes ++ [(k, some e)] := by
  unfold nodes_insert; rw [h]

/-! ### Reachability -/

theorem Grows.refl (H : List doc_tree_node) : Grows H H :=
  fun _ n h => ⟨n, h, fun _ hc => hc⟩

theorem Grows.trans_grows {H1 H2 H3 : List doc_tree_node} (h12 : Grows H1 H2) (h23 : Grows H2 H3) :
    Grows H1 H3 := by
  intro i n h
  obtain ⟨n2, h2, hc2⟩ := h12 i n h
  obtain ⟨n3, h3, hc3⟩ := h23 i n2 h2
  exact ⟨n3, h3, fun c hc => hc3 c (hc2 c hc)⟩

theorem Grows.of_new_node (s : devdoc) (t : String) (p : Option Nat) :
    Grows s.heap (new_node s t p).1.heap := by
  intro i n h
  have hlt : i < s.heap.length := by
    rcases Nat.lt_or_ge i s.heap.length with h2 | h2
    · exact h2
    · rw [List.getElem?_eq_none h2] at h; cases h
  exact ⟨n, by simp [List.getElem?_append_left hlt, h], fun _ hc => hc⟩

theorem Grows.push_back_child (s : devdoc) (p c : Nat) :
    Grows s.heap (push_back_child s p c).heap := by
  intro i n h
  by_cases hip : i = p
  · subst hip
    exact ⟨_, push_back_child_self s c h, fun x hx => by simp [hx]⟩
  · exact ⟨n, by rw [push_back_child_ne s c hip, h], fun _ hc => hc⟩

theorem InTree.mono_grows {H H2 : List doc_tree_node} (hg : Grows H H2) {r k : Nat}
    (h : InTree H r k) : InTree H2 r k := by
  induction h with
  | root => exact InTree.root
  | child _ hn hc ih =>
    obtain ⟨n2, h2, hc2⟩ := hg _ _ hn
    exact InTree.child ih h2 (hc2 _ hc)

theorem InTree.trans_tree {H : List doc_tree_node} {a b c : Nat}
    (hab : InTree H a b) (hbc : InTree H b c) : InTree H a c := by
  induction hbc with
  | root => exact hab
  | child _ hn hc ih => exact InTree.child ih hn hc

/-! ## The chapter walk -/

theorem getElem?_some_of_lt {H : List doc_tree_node} {i : Nat} (h : i < H.length) :
    ∃ n, H[i]? = some n := ⟨H[i], List.getElem?_eq_getElem h⟩

theorem lt_of_getElem?_some {H : List doc_tree_node} {i : Nat} {n : doc_tree_node}
    (h : H[i]? = some n) : i < H.length := by
  rcases Nat.lt_or_ge i H.length with h2 | h2
  · exact h2
  · rw [List.getElem?_eq_none h2] at h; cases h

theorem ChapStep.nil (s : devdoc) (hwf : s.WF) (p : Nat) : ChapStep s s p [] [] [] where
  parsers_eq := rfl
  root_nodes_eq := rfl
  wf := hwf
  len_le := Nat.le_refl _
  old := fun _ _ _ => rfl
  par := fun n h => by simp [h]
  rep := by unfold RepresentsList; trivial
  nodes_eq := by simp
  ext_keys := fun kv h => by cases h

theorem ChapStep.grows {s s2 : devdoc} {p : Nat} {ids : List Nat}
    {ext : List (Nat × Option Element)} {ts : List DocTree}
    (h : ChapStep s s2 p ids ext ts) : Grows s.heap s2.heap := by
  intro i n hi
  by_cases hip : i = p
  · subst hip
    exact ⟨_, h.par n hi, fun c hc => by simp [hc]⟩
  · exact ⟨n, by rw [h.old i (lt_of_getElem?_some hi) hip, hi], fun _ hc => hc⟩

theorem ChapStep.find_old {s s2 : devdoc} {p : Nat} {ids : List Nat}
    {ext : List (Nat × Option Element)} {ts : List DocTree}
    (h : ChapStep s s2 p ids ext ts) {k : Nat} (hk : k < s.heap.length) :
    nodes_find s2.nodes k = nodes_find s.nodes k := by
  rw [h.nodes_eq]
  apply nodes_find_append_left
  intro hmem
  obtain ⟨kv, hkv, rfl⟩ := List.mem_map.1 hmem
  have := (h.ext_keys kv hkv).1
  omega

theorem ChapStep.comp {s s1 s2 : devdoc} {p : Nat} {ids1 ids2 : List Nat}
    {ext1 ext2 : List (Nat × Option Element)} {ts1 ts2 : List DocTree}
    (hp : p < s.heap.length)
    (h1 : ChapStep s s1 p ids1 ext1 ts1) (h2 : ChapStep s1 s2 p ids2 ext2 ts2) :
    ChapStep s s2 p (ids1 ++ ids2) (ext1 ++ ext2) (ts1 ++ ts2) where
  parsers_eq := by rw [h2.parsers_eq, h1.parsers_eq]
  root_nodes_eq := by rw [h2.root_nodes_eq, h1.root_nodes_eq]
  wf := h2.wf
  len_le := Nat.le_trans h1.len_le h2.len_le
  old := fun i hi hip => by
    rw [h2.old i (Nat.lt_of_lt_of_le hi h1.len_le) hip, h1.old i hi hip]
  par := fun n hn => by
    rw [h2.par _ (h1.par n hn)]
    simp [List.append_assoc]
  rep := by
    apply representsList_append
    · refine RepresentsList.frame_list ?_ ?_ _ _ _ h1.rep
      · intro i hlo hi
        exact h2.old i hi (by omega)
      · intro i _ hi
        exact h2.find_old hi
    · exact RepresentsList.mono_list h1.len_le _ _ _ h2.rep
  nodes_eq := by rw [h2.nodes_eq, h1.nodes_eq, List.append_assoc]
  ext_keys := fun kv hkv => by
    rcases List.mem_append.1 hkv with hkv | hkv
    · obtain ⟨hle, c, hc, hin⟩ := h1.ext_keys kv hkv
      exact ⟨hle, c, List.mem_append_left _ hc, hin.mono_grows h2.grows⟩
    · obtain ⟨hle, c, hc, hin⟩ := h2.ext_keys kv hkv
      exact ⟨Nat.le_trans h1.len_le hle, c, List.mem_append_right _ hc, hin⟩

theorem ChapStep.sub {s s2 : devdoc} {p : Nat} (hwf : s.WF) (hp : p < s.heap.length)
    (el : Element) {ids2 : List Nat} {ext2 : List (Nat × Option Element)}
    {ts2 : List DocTree}
    (h : ChapStep (new_node s (spec_attr el "name") (some p)).1 s2 s.heap.length
      ids2 ext2 ts2) :
    ChapStep s (nodes_insert (push_back_child s2 p s.heap.length) s.heap.length el) p
      [s.heap.length] (ext2 ++ [(s.heap.length, some el)])
      [.node (spec_attr el "name") (some el) ts2] := by
  have hlen1 : (new_node s (spec_attr el "name") (some p)).1.heap.length
      = s.heap.length + 1 := by simp
  have hle2 : s.heap.length + 1 ≤ s2.heap.length := hlen1 ▸ h.len_le
  have hold : ∀ i, i < s.heap.length → s2.heap[i]? = s.heap[i]? := by
    intro i hi
    rw [h.old i (by omega) (by omega)]
    simp [List.getElem?_append_left hi]
  have hc : s2.heap[s.heap.length]? =
      some ⟨spec_attr el "name", some p, ids2⟩ := by
    have := h.par ⟨spec_attr el "name", some p, []⟩ (by simp)
    simpa using this
  have hnodes2 : s2.nodes = s.nodes ++ ext2 := by simpa using h.nodes_eq
  have hfresh : nodes_find s2.nodes s.heap.length = none := by
    rw [nodes_find_eq_none_iff, hnodes2, List.map_append, List.mem_append]
    rintro (hm | hm)
    · exact Nat.lt_irrefl _ (hwf.keys_lt _ hm)
    · obtain ⟨kv, hkv, hk⟩ := List.mem_map.1 hm
      have := (h.ext_keys kv hkv).1
      rw [hlen1] at this
      omega
  have hne : s.heap.length ≠ p := by omega
  have hnodes4 : (nodes_insert (push_back_child s2 p s.heap.length) s.heap.length el).nodes
      = s2.nodes ++ [(s.heap.length, some el)] := by
    rw [nodes_insert_fresh _ _ (by simpa using hfresh)]
    simp
  refine
    { parsers_eq := by simpa using h.parsers_eq
      root_nodes_eq := by simpa using h.root_nodes_eq
      wf := ?_
      len_le := by simp; omega
      old := ?_
      par := ?_
      rep := ?_
      nodes_eq := by rw [hnodes4, hnodes2, List.append_assoc]
      ext_keys := ?_ }
  · constructor
    · rw [hnodes4, List.map_append, List.nodup_append]
      refine ⟨h.wf.keys_nodup, by simp, ?_⟩
      intro a ha hb
      simp at hb
      subst hb
      exact (nodes_find_eq_none_iff.1 hfresh) ha
    · intro k hk
      rw [hnodes4, List.map_append, List.mem_append] at hk
      simp only [nodes_insert_heap, push_back_child_length]
      rcases hk with hk | hk
      · exact h.wf.keys_lt k hk
      · simp at hk; omega
  · intro i hi hip
    simp only [nodes_insert_heap]
    rw [push_back_child_ne _ _ hip, hold i hi]
  · intro n hn
    simp only [nodes_insert_heap]
    exact push_back_child_self _ _ (by rw [hold p hp, hn])
  · unfold RepresentsList
    refine ⟨?_, by unfold RepresentsList; trivial⟩
    unfold Represents
    refine ⟨Nat.le_refl _, ?_, ⟨spec_attr el "name", some p, ids2⟩, ?_, rfl, rfl,
      ?_, ?_⟩
    · intro q hq
      cases hq
      exact hp
    · simp only [nodes_insert_heap]
      rw [push_back_child_ne _ _ hne, hc]
    · rw [hnodes4, nodes_find_append_right hfresh]
      simp [nodes_find, List.lookup_cons]
    · refine RepresentsList.mono_list (Nat.le_succ _) _ _ _ ?_
      refine RepresentsList.frame_list ?_ ?_ _ _ _ (hlen1 ▸ h.rep)
      · intro i hlo _
        simp only [nodes_insert_heap]
        exact push_back_child_ne _ _ (by omega)
      · intro i hlo _
        rw [hnodes4]
        apply nodes_find_append_left
        simp
        omega
  · intro kv hkv
    rcases List.mem_append.1 hkv with hkv | hkv
    · obtain ⟨hle, c, hcm, hin⟩ := h.ext_keys kv hkv
      rw [hlen1] at hle
      refine ⟨by omega, s.heap.length, by simp, ?_⟩
      simp only [nodes_insert_heap]
      have hc3 := @push_back_child_ne s2 p _ s.heap.length hne
      refine InTree.trans_tree (InTree.child InTree.root (hc3.trans hc) hcm) ?_
      exact hin.mono_grows (Grows.push_back_child _ _ _)
    · simp at hkv
      subst hkv
      exact ⟨Nat.le_refl _, s.heap.length, by simp, InTree.root⟩

theorem WF.after_new_node {s : devdoc} (hwf : s.WF) (t : String) (p : Option Nat) :
    (new_node s t p).1.WF :=
  ⟨hwf.keys_nodup, fun k hk => by
    have := hwf.keys_lt k hk
    simp only [new_node_heap, List.length_append, List.length_singleton]
    omega⟩

/-! ## The program's view of the markup tree and the specification's -/

theorem get_attribute_value_eq (e : Element) (name : String) :
    get_attribute_value e name = spec_attr e name := by
  unfold get_attribute_value spec_attr
  generalize e.attrs = l
  induction l with
  | nil => rfl
  | cons kv l ih =>
    obtain ⟨k, v⟩ := kv
    rw [List.lookup_cons, List.find?_cons]
    by_cases h : k = name
    · subst h
      simp
    · have h2 : (name == k) = false := by
        simp only [beq_eq_false_iff_ne, ne_eq]
        exact fun h3 => h h3.symm
      simp only [h2, h, decide_False]
      exact ih

theorem SameName.refl_name [Locale] (a : String) : SameName a a := rfl

theorem SameName.symm_name [Locale] {a b : String} (h : SameName a b) : SameName b a :=
  Eq.symm h

theorem SameName.trans_name [Locale] {a b c : String} (h1 : SameName a b)
    (h2 : SameName b c) : SameName a c :=
  Eq.trans h1 h2

theorem sameName_of_eq [Locale] {a b : String} (h : a = b) : SameName a b := by
  rw [h]
  exact SameName.refl_name b

theorem ustring_eq_iff [Locale] (a b : String) : ustring_eq a b = true ↔ SameName a b := by
  simp [ustring_eq, SameName]

theorem ustring_eq_false_iff [Locale] (a b : String) :
    ustring_eq a b = false ↔ ¬ SameName a b := by
  rw [← ustring_eq_iff]
  simp

theorem get_first_child_eq [Locale] (e : Element) (name : String) :
    get_first_child e name = spec_first_named name e.children := by
  unfold get_first_child
  generalize e.children = l
  induction l with
  | nil => rfl
  | cons c l ih =>
    rw [List.find?_cons]
    cases c with
    | element n attrs children =>
      rw [spec_first_named]
      by_cases h : SameName n name
      · have h2 : ustring_eq name (get_name (.element n attrs children)) = true :=
          (ustring_eq_iff _ _).2 h.symm_name
        rw [h2, if_pos h]
      · have h2 : ustring_eq name (get_name (.element n attrs children)) = false :=
          (ustring_eq_false_iff _ _).2 (fun h3 => h h3.symm_name)
        rw [h2, if_neg h]
        exact ih
    | other n =>
      rw [spec_first_named]
      by_cases h : SameName n name
      · have h2 : ustring_eq name (get_name (.other n)) = true :=
          (ustring_eq_iff _ _).2 h.symm_name
        rw [h2, if_pos h]
      · have h2 : ustring_eq name (get_name (.other n)) = false :=
          (ustring_eq_false_iff _ _).2 (fun h3 => h h3.symm_name)
        rw [h2, if_neg h]
        exact ih

theorem known_at_nil [Locale] (t : String) : known_at [] t = none := rfl

theorem known_at_cons [Locale] (kv : String × Nat) (l : List (String × Nat)) (t : String) :
    known_at (kv :: l) t = if SameName kv.1 t then some kv.2 else known_at l t := by
  unfold known_at
  rw [List.find?_cons]
  by_cases h : SameName kv.1 t
  · rw [(ustring_eq_iff _ _).2 h, if_pos h]
    rfl
  · rw [(ustring_eq_false_iff _ _).2 h, if_neg h]

theorem known_at_append [Locale] (l1 l2 : List (String × Nat)) (t : String) :
    known_at (l1 ++ l2) t = (known_at l1 t).orElse (fun _ => known_at l2 t) := by
  induction l1 with
  | nil => rfl
  | cons kv l1 ih =>
    rw [List.cons_append, known_at_cons, known_at_cons, ih]
    split <;> rfl

theorem mem_of_known_at [Locale] {l : List (String × Nat)} {t : String} {g : Nat}
    (h : known_at l t = some g) : ∃ t0, (t0, g) ∈ l ∧ SameName t0 t := by
  induction l with
  | nil => cases h
  | cons kv l ih =>
    rw [known_at_cons] at h
    by_cases hs : SameName kv.1 t
    · rw [if_pos hs] at h
      cases h
      exact ⟨kv.1, List.mem_cons_self _ _, hs⟩
    · rw [if_neg hs] at h
      obtain ⟨t0, hmem, ht0⟩ := ih h
      exact ⟨t0, List.mem_cons_of_mem _ hmem, ht0⟩

theorem known_at_eq_none_iff [Locale] {l : List (String × Nat)} {t : String} :
    known_at l t = none ↔ ∀ kv ∈ l, ¬ SameName kv.1 t := by
  induction l with
  | nil => simp [known_at_nil]
  | cons kv l ih =>
    rw [known_at_cons]
    by_cases hs : SameName kv.1 t
    · rw [if_pos hs]
      constructor
      · intro h
        cases h
      · intro h
        exact absurd hs (h kv (List.mem_cons_self _ _))
    · rw [if_neg hs, ih]
      constructor
      · intro h kv2 hkv2
        rcases List.mem_cons.1 hkv2 with h2 | h2
        · subst h2
          exact hs
        · exact h kv2 h2
      · intro h kv2 hkv2
        exact h kv2 (List.mem_cons_of_mem _ hkv2)

theorem known_at_of_mem_nodup [Locale] {l : List (String × Nat)} {t0 t : String} {g : Nat}
    (hnd : (l.map (fun kv => Locale.collate_key kv.1)).Nodup) (h : (t0, g) ∈ l)
    (ht : SameName t0 t) : known_at l t = some g := by
  induction l with
  | nil => cases h
  | cons kv l ih =>
    simp only [List.map_cons, List.nodup_cons] at hnd
    rw [known_at_cons]
    rcases List.mem_cons.1 h with h2 | h2
    · subst h2
      rw [if_pos ht]
    · have hne : ¬ SameName kv.1 t := by
        intro hs
        apply hnd.1
        refine List.mem_map.2 ⟨(t0, g), h2, ?_⟩
        exact ht.trans_name hs.symm_name
      rw [if_neg hne]
      exact ih hnd.2 h2

/-! ## The chapter walk -/

theorem build_chapters_tree_sub [Locale] (s : devdoc) (p : Nat) (name : String)
    (attrs : List (String × String)) (children : List XmlNode) (h : SameName name "sub") :
    build_chapters_tree s p (.element name attrs children) =
      nodes_insert
        (push_back_child
          (build_chapters_children
            (new_node s (spec_attr ⟨name, attrs, children⟩ "name") (some p)).1 s.heap.length
            children)
          p s.heap.length)
        s.heap.length ⟨name, attrs, children⟩ := by
  rw [build_chapters_tree, (ustring_eq_iff _ _).2 h, ← get_attribute_value_eq]
  rfl

theorem build_chapters_tree_not_sub [Locale] (s : devdoc) (p : Nat) (name : String)
    (attrs : List (String × String)) (children : List XmlNode) (h : ¬ SameName name "sub") :
    build_chapters_tree s p (.element name attrs children) = s := by
  rw [build_chapters_tree, (ustring_eq_false_iff _ _).2 h]
  rfl

theorem build_chapters_tree_other [Locale] (s : devdoc) (p : Nat) (name : String) :
    build_chapters_tree s p (.other name) = s := by
  rw [build_chapters_tree]

theorem build_chapters_children_nil [Locale] (s : devdoc) (p : Nat) :
    build_chapters_children s p [] = s := by
  rw [build_chapters_children]

theorem build_chapters_children_cons [Locale] (s : devdoc) (p : Nat) (x : XmlNode)
    (xs : List XmlNode) :
    build_chapters_children s p (x :: xs) =
      build_chapters_children (build_chapters_tree s p x) p xs := by
  rw [build_chapters_children]

theorem spec_chapter_trees_nil [Locale] : spec_chapter_trees [] = [] := by
  rw [spec_chapter_trees]

theorem spec_chapter_trees_cons [Locale] (x : XmlNode) (xs : List XmlNode) :
    spec_chapter_trees (x :: xs) = spec_chapter_node x ++ spec_chapter_trees xs := by
  rw [spec_chapter_trees]

theorem spec_chapter_node_element [Locale] (name : String) (attrs : List (String × String))
    (children : List XmlNode) :
    spec_chapter_node (.element name attrs children) =
      if SameName name "sub" then
        [.node (spec_attr ⟨name, attrs, children⟩ "name") (some ⟨name, attrs, children⟩)
          (spec_chapter_trees children)]
      else [] := by
  rw [spec_chapter_node]

theorem spec_chapter_node_other [Locale] (name : String) :
    spec_chapter_node (.other name) = [] := by
  rw [spec_chapter_node]

mutual
theorem build_chapters_tree_freed [Locale] :
    ∀ (source : XmlNode) (s : devdoc) (p : Nat), (build_chapters_tree s p source).freed = s.freed
  | .element name attrs children, s, p => by
    by_cases hname : SameName name "sub"
    · rw [build_chapters_tree_sub s p name attrs children hname]
      simp only [nodes_insert_freed, push_back_child_freed]
      rw [build_chapters_children_freed children]
      rfl
    · rw [build_chapters_tree_not_sub s p name attrs children hname]
  | .other name, s, p => by rw [build_chapters_tree_other]
theorem build_chapters_children_freed [Locale] :
    ∀ (sources : List XmlNode) (s : devdoc) (p : Nat),
      (build_chapters_children s p sources).freed = s.freed
  | [], s, p => by rw [build_chapters_children_nil]
  | x :: xs, s, p => by
    rw [build_chapters_children_cons, build_chapters_children_freed xs,
      build_chapters_tree_freed x]
end

mutual
theorem build_chapters_tree_step [Locale] :
    ∀ (source : XmlNode) (s : devdoc) (p : Nat), s.WF → p < s.heap.length →
      ∃ ids ext, ChapStep s (build_chapters_tree s p source) p ids ext
        (spec_chapter_node source)
  | .element name attrs children, s, p, hwf, hp => by
    rw [spec_chapter_node_element]
    by_cases hname : SameName name "sub"
    · rw [build_chapters_tree_sub s p name attrs children hname, if_pos hname]
      obtain ⟨ids2, ext2, h2⟩ := build_chapters_children_step children
        (new_node s (spec_attr ⟨name, attrs, children⟩ "name") (some p)).1
        s.heap.length (WF.after_new_node hwf _ _) (by simp)
      exact ⟨_, _, ChapStep.sub hwf hp ⟨name, attrs, children⟩ h2⟩
    · rw [build_chapters_tree_not_sub s p name attrs children hname, if_neg hname]
      exact ⟨[], [], ChapStep.nil s hwf p⟩
  | .other name, s, p, hwf, _ => by
    rw [build_chapters_tree_other, spec_chapter_node_other]
    exact ⟨[], [], ChapStep.nil s hwf p⟩
theorem build_chapters_children_step [Locale] :
    ∀ (sources : List XmlNode) (s : devdoc) (p : Nat), s.WF → p < s.heap.length →
      ∃ ids ext, ChapStep s (build_chapters_children s p sources) p ids ext
        (spec_chapter_trees sources)
  | [], s, p, hwf, _ => by
    rw [build_chapters_children_nil, spec_chapter_trees_nil]
    exact ⟨[], [], ChapStep.nil s hwf p⟩
  | x :: xs, s, p, hwf, hp => by
    rw [build_chapters_children_cons, spec_chapter_trees_cons]
    obtain ⟨ids1, ext1, h1⟩ := build_chapters_tree_step x s p hwf hp
    obtain ⟨ids2, ext2, h2⟩ := build_chapters_children_step xs (build_chapters_tree s p x) p
      h1.wf (Nat.lt_of_lt_of_le hp h1.len_le)
    exact ⟨_, _, ChapStep.comp hp h1 h2⟩
end

/-! ## Keyword types in first-encounter order -/

theorem first_occurrences_subset [Locale] {l : List String} {t : String}
    (h : t ∈ first_occurrences l) : t ∈ l := by
  induction l with
  | nil => simp [first_occurrences] at h
  | cons a l ih =>
    rw [first_occurrences, List.mem_cons] at h
    rcases h with h | h
    · exact h ▸ List.mem_cons_self _ _
    · exact List.mem_cons_of_mem _ (ih (List.mem_filter.1 h).1)

theorem exists_mem_first_occurrences [Locale] {l : List String} {t : String} (h : t ∈ l) :
    ∃ u ∈ first_occurrences l, SameName u t := by
  induction l with
  | nil => cases h
  | cons a l ih =>
    rw [first_occurrences]
    by_cases hta : SameName t a
    · exact ⟨a, List.mem_cons_self _ _, hta.symm_name⟩
    · rcases List.mem_cons.1 h with h | h
      · exact absurd (sameName_of_eq h) hta
      · obtain ⟨u, hu, hut⟩ := ih h
        refine ⟨u, List.mem_cons_of_mem _ (List.mem_filter.2 ⟨hu, ?_⟩), hut⟩
        simp only [decide_eq_true_eq]
        exact fun hua => hta (hut.symm_name.trans_name hua)

theorem first_occurrences_append_known [Locale] (l : List String) (t : String)
    (h : ∃ u ∈ l, SameName u t) : first_occurrences (l ++ [t]) = first_occurrences l := by
  induction l with
  | nil =>
    obtain ⟨u, hu, _⟩ := h
    cases hu
  | cons a l ih =>
    rw [List.cons_append, first_occurrences, first_occurrences]
    by_cases hl : ∃ u ∈ l, SameName u t
    · rw [ih hl]
    · have hat : SameName a t := by
        obtain ⟨u, hu, hut⟩ := h
        rcases List.mem_cons.1 hu with hu | hu
        · exact hu ▸ hut
        · exact absurd ⟨u, hu, hut⟩ hl
      have hnew : ∀ (l2 : List String), (∀ u ∈ l2, ¬ SameName u t) →
          first_occurrences (l2 ++ [t]) = first_occurrences l2 ++ [t] := by
        intro l2
        induction l2 with
        | nil => intro _; rfl
        | cons b l2 ih2 =>
          intro hb
          rw [List.cons_append, first_occurrences, first_occurrences,
            ih2 (fun u hu => hb u (List.mem_cons_of_mem _ hu)), List.filter_append]
          have : ¬ SameName t b := fun h3 => hb b (List.mem_cons_self _ _) h3.symm_name
          simp [this]
      rw [hnew l (fun u hu hut => hl ⟨u, hu, hut⟩), List.filter_append]
      have : SameName t a := hat.symm_name
      simp [this]

theorem first_occurrences_append_new [Locale] (l : List String) (t : String)
    (h : ∀ u ∈ l, ¬ SameName u t) : first_occurrences (l ++ [t]) = first_occurrences l ++ [t] := by
  induction l with
  | nil => rfl
  | cons b l ih =>
    rw [List.cons_append, first_occurrences, first_occurrences,
      ih (fun u hu => h u (List.mem_cons_of_mem _ hu)), List.filter_append]
    have : ¬ SameName t b := fun h3 => h b (List.mem_cons_self _ _) h3.symm_name
    simp [this]

theorem spec_groups_keys [Locale] (ks : List Element) :
    (spec_groups ks).map Prod.fst = first_occurrences (ks.map keyword_type) := by
  simp [spec_groups, List.map_map, Function.comp_def]

theorem spec_groups_append_known [Locale] (ks : List Element) (k : Element)
    (h : ∃ u ∈ ks.map keyword_type, SameName u (keyword_type k)) :
    spec_groups (ks ++ [k]) = add_to_group (spec_groups ks) (keyword_type k) k := by
  unfold spec_groups add_to_group
  rw [List.map_append, List.map_singleton, first_occurrences_append_known _ _ h, List.map_map]
  apply List.map_congr_left
  intro t _
  simp only [Function.comp_apply, List.filter_append]
  by_cases hkt : SameName t (keyword_type k)
  · have : SameName (keyword_type k) t := hkt.symm_name
    simp [hkt, this]
  · have : ¬ SameName (keyword_type k) t := fun h => hkt h.symm_name
    simp [hkt, this]

theorem spec_groups_append_new [Locale] (ks : List Element) (k : Element)
    (h : ∀ u ∈ ks.map keyword_type, ¬ SameName u (keyword_type k)) :
    spec_groups (ks ++ [k]) =
      add_to_group (spec_groups ks ++ [(keyword_type k, [])]) (keyword_type k) k := by
  unfold spec_groups add_to_group
  rw [List.map_append, List.map_singleton, first_occurrences_append_new _ _ h,
    List.map_append, List.map_append, List.map_map]
  congr 1
  · apply List.map_congr_left
    intro t ht
    have htk : ¬ SameName t (keyword_type k) := h t (first_occurrences_subset ht)
    have : ¬ SameName (keyword_type k) t := fun h => htk h.symm_name
    simp [List.filter_append, htk, this]
  · have : ks.filter (fun x => decide (SameName (keyword_type x) (keyword_type k))) = [] := by
      rw [List.filter_eq_nil_iff]
      intro x hx
      simp only [decide_eq_true_eq]
      exact h _ (List.mem_map.2 ⟨x, hx, rfl⟩)
    have hrefl : SameName (keyword_type k) (keyword_type k) := SameName.refl_name _
    simp [List.filter_append, this, hrefl]

/-! ## The loop over the keywords -/
theorem forall₂_exists_of_mem_left {α β : Type} {R : α → β → Prop} :
    ∀ {l1 : List α} {l2 : List β}, List.Forall₂ R l1 l2 → ∀ {a : α}, a ∈ l1 →
      ∃ b, b ∈ l2 ∧ R a b
  | _, _, .nil, _, h => by cases h
  | _, _, .cons hab hrest, a, h => by
    rcases List.mem_cons.1 h with h | h
    · subst h
      exact ⟨_, List.mem_cons_self _ _, hab⟩
    · obtain ⟨b, hb, hr⟩ := forall₂_exists_of_mem_left hrest h
      exact ⟨b, List.mem_cons_of_mem _ hb, hr⟩

theorem forall₂_exists_of_mem_right {α β : Type} {R : α → β → Prop} :
    ∀ {l1 : List α} {l2 : List β}, List.Forall₂ R l1 l2 → ∀ {b : β}, b ∈ l2 →
      ∃ a, a ∈ l1 ∧ R a b
  | _, _, .nil, _, h => by cases h
  | _, _, .cons hab hrest, b, h => by
    rcases List.mem_cons.1 h with h | h
    · subst h
      exact ⟨_, List.mem_cons_self _ _, hab⟩
    · obtain ⟨a, ha, hr⟩ := forall₂_exists_of_mem_right hrest h
      exact ⟨a, List.mem_cons_of_mem _ ha, hr⟩

theorem forall₂_map_right_of_mem {α β : Type} {R R2 : α → β → Prop} {f : β → β} :
    ∀ {l1 : List α} {l2 : List β}, List.Forall₂ R l1 l2 →
      (∀ a b, a ∈ l1 → b ∈ l2 → R a b → R2 a (f b)) → List.Forall₂ R2 l1 (l2.map f)
  | _, _, .nil, _ => List.Forall₂.nil
  | _, _, .cons hab hrest, h =>
    List.Forall₂.cons (h _ _ (List.mem_cons_self _ _) (List.mem_cons_self _ _) hab)
      (forall₂_map_right_of_mem hrest
        (fun a b ha hb => h a b (List.mem_cons_of_mem _ ha) (List.mem_cons_of_mem _ hb)))
theorem alloc_push_length (s : devdoc) (title : String) (g : Nat) :
    (push_back_child (new_node s title (some g)).1 g s.heap.length).heap.length
      = s.heap.length + 1 := by simp

theorem alloc_push_ne (s : devdoc) (title : String) {g i : Nat} (hi : i < s.heap.length)
    (hig : i ≠ g) :
    (push_back_child (new_node s title (some g)).1 g s.heap.length).heap[i]? = s.heap[i]? := by
  rw [push_back_child_ne _ _ hig]
  simp [List.getElem?_append_left hi]

theorem alloc_push_self (s : devdoc) (title : String) {g : Nat} {n : doc_tree_node}
    (hg : s.heap[g]? = some n) :
    (push_back_child (new_node s title (some g)).1 g s.heap.length).heap[g]?
      = some { n with children := n.children ++ [s.heap.length] } := by
  apply push_back_child_self
  simp [List.getElem?_append_left (lt_of_getElem?_some hg), hg]

theorem alloc_push_new (s : devdoc) (title : String) {g : Nat} (hg : g < s.heap.length) :
    (push_back_child (new_node s title (some g)).1 g s.heap.length).heap[s.heap.length]?
      = some ⟨title, some g, []⟩ := by
  rw [push_back_child_ne _ _ (by omega)]
  simp

theorem alloc_push_grows (s : devdoc) (title : String) (g : Nat) :
    Grows s.heap (push_back_child (new_node s title (some g)).1 g s.heap.length).heap :=
  (Grows.of_new_node s title (some g)).trans_grows (Grows.push_back_child _ _ _)

theorem GroupAt.frame_group {H H2 : List doc_tree_node} {M M2 : List (Nat × Option Element)}
    {m g x : Nat} {t : String} {ks : List Element} (h : GroupAt H M m g t ks)
    (hg : g ≠ x) (hl : ∀ l k, IsLeaf H M g l k → l ≠ x)
    (hH : ∀ i, i < H.length → i ≠ x → H2[i]? = H[i]?)
    (hM : ∀ i, i < H.length → nodes_find M2 i = nodes_find M i) :
    GroupAt H2 M2 m g t ks := by
  obtain ⟨hmg, hun, lids, hrec, hleaves⟩ := h
  have hglt := lt_of_getElem?_some hrec
  refine ⟨hmg, by rw [hM g hglt]; exact hun, lids, by rw [hH g hglt hg]; exact hrec, ?_⟩
  refine hleaves.imp ?_
  intro l k hlk
  have hllt := lt_of_getElem?_some hlk.2.1
  exact ⟨hlk.1, by rw [hH l hllt (hl l k hlk)]; exact hlk.2.1, by rw [hM l hllt]; exact hlk.2.2⟩

theorem KwInv.keys_eq [Locale] {sb sc : devdoc} {m root : Nat} {known : List (String × Nat)}
    {G : List (String × List Element)} {ext : List (Nat × Option Element)}
    (h : KwInv sb sc m root known G ext) : known.map Prod.fst = G.map Prod.fst := by
  have := h.groups
  clear h
  induction this with
  | nil => rfl
  | cons hab _ ih => simp [hab.1, ih]

theorem KwInv.more_lt [Locale] {sb sc : devdoc} {m root : Nat} {known : List (String × Nat)}
    {G : List (String × List Element)} {ext : List (Nat × Option Element)}
    (h : KwInv sb sc m root known G ext) : m < sc.heap.length :=
  lt_of_getElem?_some h.more

theorem KwInv.new_group [Locale] {sb sc : devdoc} {m root : Nat} {known : List (String × Nat)}
    {G : List (String × List Element)} {ext : List (Nat × Option Element)}
    (h : KwInv sb sc m root known G ext) (t : String)
    (ht : ∀ tg ∈ G, ¬ SameName tg.1 t) :
    KwInv sb (push_back_child (new_node sc t (some m)).1 m sc.heap.length) m root
      (known ++ [(t, sc.heap.length)]) (G ++ [(t, [])]) ext := by
  have hm := h.more_lt
  have hH : ∀ i, i < sc.heap.length → i ≠ m →
      (push_back_child (new_node sc t (some m)).1 m sc.heap.length).heap[i]? = sc.heap[i]? :=
    fun i hi him => alloc_push_ne sc t hi him
  refine
    { parsers_eq := by simpa using h.parsers_eq
      root_nodes_eq := by simpa using h.root_nodes_eq
      freed_eq := by simpa using h.freed_eq
      wf := ⟨by simpa using h.wf.keys_nodup, fun k hk => by
        have := h.wf.keys_lt k (by simpa using hk)
        rw [alloc_push_length]; omega⟩
      len_le := by rw [alloc_push_length]; have := h.len_le; omega
      old := fun i hi => by rw [hH i (by omega) (by omega), h.old i hi]
      more := by rw [alloc_push_self sc t h.more]; simp
      more_unmapped := by simpa using h.more_unmapped
      keys_nodup := ?_
      groups := ?_
      nodes_eq := by simpa using h.nodes_eq
      ext_keys := fun kv hkv =>
        ⟨(h.ext_keys kv hkv).1, (h.ext_keys kv hkv).2.mono_grows (alloc_push_grows sc t m)⟩ }
  · rw [List.map_append, List.nodup_append]
    refine ⟨h.keys_nodup, by simp, ?_⟩
    intro a ha hb
    simp only [List.map_cons, List.map_nil, List.mem_singleton] at hb
    subst hb
    obtain ⟨tg, htg, hkey⟩ := List.mem_map.1 ha
    exact ht tg htg hkey
  · refine List.rel_append (h.groups.imp ?_) (List.Forall₂.cons ⟨rfl, ?_⟩ List.Forall₂.nil)
    · rintro kg tg ⟨hk, hgr⟩
      refine ⟨hk, hgr.frame_group (Nat.ne_of_gt hgr.1) ?_ hH (fun i _ => by simp)⟩
      intro l k hlk
      have := hlk.1
      have := hgr.1
      omega
    · refine ⟨hm, ?_, [], alloc_push_new sc t hm, List.Forall₂.nil⟩
      simp only [push_back_child_nodes, new_node_nodes]
      rw [nodes_find_eq_none_iff]
      intro hmem
      exact Nat.lt_irrefl _ (h.wf.keys_lt _ hmem)

theorem KwInv.add_leaf [Locale] {sb sc : devdoc} {m root : Nat} {known : List (String × Nat)}
    {G : List (String × List Element)} {ext : List (Nat × Option Element)}
    (h : KwInv sb sc m root known G ext) (k : Element) {g : Nat}
    (hg : known_at known (keyword_type k) = some g) :
    KwInv sb (nodes_insert (push_back_child
        (new_node sc (spec_attr k "name") (some g)).1 g sc.heap.length)
        sc.heap.length k) m root known (add_to_group G (keyword_type k) k)
      (ext ++ [(sc.heap.length, some k)]) := by
  have hm := h.more_lt
  obtain ⟨t0, hmem, ht0⟩ := mem_of_known_at hg
  obtain ⟨tg0, _, hk0, hgr0⟩ := forall₂_exists_of_mem_left h.groups hmem
  simp only at hk0 hgr0
  obtain ⟨hmg, hgun, lids0, hgrec, hleaves0⟩ := hgr0
  have hglt := lt_of_getElem?_some hgrec
  have hH : ∀ i, i < sc.heap.length → i ≠ g →
      (push_back_child (new_node sc (spec_attr k "name") (some g)).1 g
        sc.heap.length).heap[i]? = sc.heap[i]? :=
    fun i hi hig => alloc_push_ne sc _ hi hig
  have hfresh : nodes_find sc.nodes sc.heap.length = none := by
    rw [nodes_find_eq_none_iff]
    intro hmem
    exact Nat.lt_irrefl _ (h.wf.keys_lt _ hmem)
  have hnodes : (nodes_insert (push_back_child
        (new_node sc (spec_attr k "name") (some g)).1 g sc.heap.length)
        sc.heap.length k).nodes = sc.nodes ++ [(sc.heap.length, some k)] := by
    rw [nodes_insert_fresh _ _ (by simpa using hfresh)]
    simp
  have hM : ∀ i, i < sc.heap.length →
      nodes_find (sc.nodes ++ [(sc.heap.length, some k)]) i = nodes_find sc.nodes i := by
    intro i hi
    apply nodes_find_append_left
    simp
    omega
  have hknd : (known.map (fun kv => Locale.collate_key kv.1)).Nodup := by
    have hmap : known.map (fun kv => Locale.collate_key kv.1) =
        (known.map Prod.fst).map Locale.collate_key := by
      rw [List.map_map]
      rfl
    rw [hmap, h.keys_eq, List.map_map]
    exact h.keys_nodup
  refine
    { parsers_eq := by simpa using h.parsers_eq
      root_nodes_eq := by simpa using h.root_nodes_eq
      freed_eq := by simpa using h.freed_eq
      wf := ?_
      len_le := by
        simp only [nodes_insert_heap]
        rw [alloc_push_length]; have := h.len_le; omega
      old := fun i hi => by
        simp only [nodes_insert_heap]
        rw [hH i (by omega) (by omega), h.old i hi]
      more := by
        simp only [nodes_insert_heap]
        rw [hH m hm (by omega), h.more]
      more_unmapped := by rw [hnodes, hM m hm]; exact h.more_unmapped
      keys_nodup := ?_
      groups := ?_
      nodes_eq := by rw [hnodes, h.nodes_eq, List.append_assoc]
      ext_keys := ?_ }
  · constructor
    · rw [hnodes, List.map_append, List.nodup_append]
      refine ⟨h.wf.keys_nodup, by simp, ?_⟩
      intro a ha hb
      simp at hb
      subst hb
      exact (nodes_find_eq_none_iff.1 hfresh) ha
    · intro q hq
      rw [hnodes, List.map_append, List.mem_append] at hq
      simp only [nodes_insert_heap]
      rw [alloc_push_length]
      rcases hq with hq | hq
      · have := h.wf.keys_lt q hq; omega
      · simp at hq; omega
  · have : (add_to_group G (keyword_type k) k).map (fun tg => Locale.collate_key tg.1) =
        G.map (fun tg => Locale.collate_key tg.1) := by
      unfold add_to_group
      rw [List.map_map]
      apply List.map_congr_left
      intro tg _
      simp only [Function.comp_apply]
      split <;> rfl
    rw [this]
    exact h.keys_nodup
  · unfold add_to_group
    refine forall₂_map_right_of_mem h.groups ?_
    rintro kg tg hkg _ ⟨hk, hgr⟩
    simp only [nodes_insert_heap]
    rw [hnodes]
    by_cases htg : SameName tg.1 (keyword_type k)
    · have hkg2 : kg.2 = g := by
        have h1 : known_at known (keyword_type k) = some kg.2 := by
          refine @known_at_of_mem_nodup _ known kg.1 _ kg.2 hknd hkg ?_
          rw [hk]
          exact htg
        rw [hg] at h1
        exact (Option.some.inj h1).symm
      rw [if_pos htg]
      obtain ⟨_, _, lids, hrec, hleaves⟩ := hgr
      rw [hkg2] at hrec hleaves ⊢
      refine ⟨hk, hmg, by rw [hM g hglt]; exact hgun,
        lids ++ [sc.heap.length], ?_, ?_⟩
      · rw [alloc_push_self sc _ hrec]
      · refine List.rel_append (hleaves.imp ?_) (List.Forall₂.cons ?_ List.Forall₂.nil)
        · intro l k2 hlk
          have hllt := lt_of_getElem?_some hlk.2.1
          have := hlk.1
          exact ⟨hlk.1, by rw [hH l hllt (by omega)]; exact hlk.2.1,
            by rw [hM l hllt]; exact hlk.2.2⟩
        · refine ⟨hglt, alloc_push_new sc _ hglt, ?_⟩
          rw [nodes_find_append_right hfresh]
          simp [nodes_find, List.lookup_cons]
    · rw [if_neg htg]
      refine ⟨hk, hgr.frame_group ?_ ?_ hH hM⟩
      · intro hkg2
        obtain ⟨_, _, lids, hrec, _⟩ := hgr
        rw [hkg2, hgrec] at hrec
        have := congrArg doc_tree_node.title (Option.some.inj hrec)
        simp only at this
        apply htg
        rw [← this, ← hk0]
        exact ht0
      · intro l k2 hlk hlg
        obtain ⟨_, hrec, _⟩ := hlk
        rw [hlg, hgrec] at hrec
        have := congrArg doc_tree_node.parent (Option.some.inj hrec)
        simp only [Option.some.injEq] at this
        have := hgr.1
        omega
  · intro kv hkv
    simp only [nodes_insert_heap]
    rcases List.mem_append.1 hkv with hkv | hkv
    · exact ⟨(h.ext_keys kv hkv).1, (h.ext_keys kv hkv).2.mono_grows (alloc_push_grows sc _ g)⟩
    · simp at hkv
      subst hkv
      refine ⟨by simp only; omega, ?_⟩
      have hgm : g ∈ known.map Prod.snd := List.mem_map.2 ⟨_, hmem, rfl⟩
      have h1 : InTree sc.heap m g := InTree.child InTree.root h.more hgm
      refine InTree.child (h1.mono_grows (alloc_push_grows sc _ g)) (alloc_push_self sc _ hgrec) ?_
      simp

theorem KwInv.step [Locale] {sb sc : devdoc} {m root : Nat} {known : List (String × Nat)}
    {done : List Element} {ext : List (Nat × Option Element)}
    (h : KwInv sb sc m root known (spec_groups done) ext) (k : Element) :
    ∃ ext2, KwInv sb (add_keyword m (sc, known) k).1 m root (add_keyword m (sc, known) k).2
      (spec_groups (done ++ [k])) ext2 := by
  have hkeys : known.map Prod.fst = first_occurrences (done.map keyword_type) := by
    rw [h.keys_eq, spec_groups_keys]
  have htype : get_attribute_value k "type" = keyword_type k := get_attribute_value_eq k "type"
  have hname : get_attribute_value k "name" = spec_attr k "name" :=
    get_attribute_value_eq k "name"
  cases hl : known_at known (keyword_type k) with
  | some g =>
    have hin : ∃ u ∈ done.map keyword_type, SameName u (keyword_type k) := by
      obtain ⟨t0, hmem, ht0⟩ := mem_of_known_at hl
      refine ⟨t0, first_occurrences_subset ?_, ht0⟩
      rw [← hkeys]
      exact List.mem_map.2 ⟨_, hmem, rfl⟩
    rw [spec_groups_append_known done k hin]
    refine ⟨ext ++ [(sc.heap.length, some k)], ?_⟩
    simp only [DevDoc.add_keyword, htype, hname, hl]
    exact h.add_leaf k hl
  | none =>
    have hnin : ∀ u ∈ done.map keyword_type, ¬ SameName u (keyword_type k) := by
      intro u hu hs
      obtain ⟨u2, hu2, hs2⟩ := exists_mem_first_occurrences hu
      rw [← hkeys] at hu2
      obtain ⟨kg, hkg, hk⟩ := List.mem_map.1 hu2
      apply known_at_eq_none_iff.1 hl kg hkg
      rw [hk]
      exact hs2.trans_name hs
    rw [spec_groups_append_new done k hnin]
    have h1 := h.new_group (keyword_type k) (by
      intro tg htg hs
      have hmem : tg.1 ∈ (spec_groups done).map Prod.fst := List.mem_map.2 ⟨tg, htg, rfl⟩
      rw [spec_groups_keys] at hmem
      exact hnin _ (first_occurrences_subset hmem) hs)
    have hl3 : known_at (known ++ [(keyword_type k, sc.heap.length)]) (keyword_type k)
        = some sc.heap.length := by
      rw [known_at_append, hl, Option.orElse, known_at_cons,
        if_pos (SameName.refl_name (keyword_type k))]
    have h2 := h1.add_leaf k hl3
    refine ⟨ext ++ [(sc.heap.length + 1, some k)], ?_⟩
    simp only [DevDoc.add_keyword, htype, hname, hl]
    simp only [new_node_ptr, push_back_child_length, new_node_heap, List.length_append,
      List.length_singleton] at h2 ⊢
    exact h2

theorem KwInv.loop [Locale] {sb : devdoc} {m root : Nat} :
    ∀ (children : List XmlNode) (acc : devdoc × List (String × Nat)) (done : List Element)
      (ext : List (Nat × Option Element)),
      KwInv sb acc.1 m root acc.2 (spec_groups done) ext →
      ∃ ext2, KwInv sb (children.foldl (add_function m) acc).1 m root
        (children.foldl (add_function m) acc).2
        (spec_groups (done ++ spec_keywords children)) ext2
  | [], acc, done, ext, h => ⟨ext, by simpa [spec_keywords] using h⟩
  | .other name :: cs, acc, done, ext, h => by
    rw [List.foldl_cons]
    have h1 : add_function m acc (.other name) = acc := rfl
    have h2 : spec_keywords (.other name :: cs) = spec_keywords cs := by
      rw [spec_keywords]
    rw [h1, h2]
    exact KwInv.loop cs acc done ext h
  | .element name attrs children :: cs, acc, done, ext, h => by
    rw [List.foldl_cons]
    by_cases hn : SameName name "keyword"
    · have h1 : add_function m acc (.element name attrs children) =
          add_keyword m acc ⟨name, attrs, children⟩ := by
        simp only [add_function, as_element, get_name, (ustring_eq_iff _ _).2 hn]
        rfl
      have h2 : spec_keywords (.element name attrs children :: cs) =
          ⟨name, attrs, children⟩ :: spec_keywords cs := by
        rw [spec_keywords, if_pos hn]
      rw [h1, h2]
      obtain ⟨ext1, hk⟩ := @KwInv.step _ sb acc.1 m root acc.2 done ext h ⟨name, attrs, children⟩
      obtain ⟨ext2, hk2⟩ := KwInv.loop cs (add_keyword m acc ⟨name, attrs, children⟩)
        (done ++ [⟨name, attrs, children⟩]) ext1 hk
      refine ⟨ext2, ?_⟩
      simpa [List.append_assoc] using hk2
    · have h1 : add_function m acc (.element name attrs children) = acc := by
        simp only [add_function, as_element, get_name, (ustring_eq_false_iff _ _).2 hn]
        rfl
      have h2 : spec_keywords (.element name attrs children :: cs) = spec_keywords cs := by
        rw [spec_keywords, if_neg hn]
      rw [h1, h2]
      exact KwInv.loop cs acc done ext h

theorem spec_keyword_groups_eq [Locale] (ks : List Element) :
    spec_keyword_groups ks =
      (spec_groups ks).map (fun tg => DocTree.node tg.1 none (tg.2.map spec_keyword_leaf)) := by
  simp [spec_keyword_groups, spec_groups, List.map_map, Function.comp_def, spec_keyword_group]

theorem KwInv.represents_more [Locale] {sb sc : devdoc} {m root : Nat} {known : List (String × Nat)}
    {ks : List Element} {ext : List (Nat × Option Element)}
    (h : KwInv sb sc m root known (spec_groups ks) ext) (hroot : root < m) :
    Represents sc.heap sc.nodes m (some root) m (spec_more_tree ks) := by
  unfold spec_more_tree Represents
  refine ⟨Nat.le_refl _, fun p hp => by cases hp; exact hroot, _, h.more, rfl, rfl,
    by simpa using h.more_unmapped, ?_⟩
  rw [representsList_iff, spec_keyword_groups_eq, List.forall₂_map_left_iff,
    List.forall₂_map_right_iff]
  refine h.groups.imp ?_
  rintro kg tg ⟨_, hmg, hun, lids, hrec, hleaves⟩
  unfold Represents
  refine ⟨Nat.le_of_lt hmg, fun p hp => by cases hp; exact hmg, _, hrec, rfl, rfl,
    by simpa using hun, ?_⟩
  rw [representsList_iff, List.forall₂_map_right_iff]
  refine hleaves.imp ?_
  rintro l k ⟨hgl, hlrec, hmap⟩
  unfold spec_keyword_leaf Represents
  refine ⟨by omega, fun p hp => by cases hp; exact hgl, _, hlrec, rfl, rfl,
    by simpa using hmap, ?_⟩
  unfold RepresentsList
  trivial

theorem InTree.eq_or_child {H : List doc_tree_node} {r k : Nat} (h : InTree H r k) :
    k = r ∨ ∃ n c, H[r]? = some n ∧ c ∈ n.children := by
  induction h with
  | root => exact Or.inl rfl
  | child _ hn hc ih =>
    rcases ih with ih | ih
    · subst ih
      exact Or.inr ⟨_, _, hn, hc⟩
    · exact Or.inr ih

theorem KwInv.init [Locale] (s : devdoc) (hwf : s.WF) (root : Nat) :
    KwInv (new_node s more_title (some root)).1 (new_node s more_title (some root)).1
      s.heap.length root [] (spec_groups []) [] where
  parsers_eq := rfl
  root_nodes_eq := rfl
  freed_eq := rfl
  wf := WF.after_new_node hwf _ _
  len_le := Nat.le_refl _
  old := fun _ _ => rfl
  more := by simp
  more_unmapped := by
    simp only [new_node_nodes]
    rw [nodes_find_eq_none_iff]
    intro hmem
    exact Nat.lt_irrefl _ (hwf.keys_lt _ hmem)
  keys_nodup := by simp [spec_groups, first_occurrences]
  groups := by simp [spec_groups, first_occurrences]
  nodes_eq := by simp
  ext_keys := fun kv h => by cases h

theorem spec_book_chapters_of_first [Locale] {xml_root : Element} {c : XmlNode}
    (h : spec_first_named "chapters" xml_root.children = some c) :
    spec_book_chapters xml_root = spec_chapter_trees (get_children c) := by
  unfold spec_book_chapters
  rw [h]
  cases c with
  | element n attrs children => rfl
  | other n =>
    simp only [get_children]
    rw [spec_chapter_trees_nil]

theorem spec_book_chapters_of_none [Locale] {xml_root : Element}
    (h : spec_first_named "chapters" xml_root.children = none) :
    spec_book_chapters xml_root = [] := by
  unfold spec_book_chapters
  rw [h]

theorem book_keywords_of_first [Locale] {xml_root : Element} {f : XmlNode}
    (h : spec_first_named "functions" xml_root.children = some f) :
    book_keywords xml_root = spec_keywords (get_children f) := by
  unfold book_keywords
  rw [h]
  cases f with
  | element n attrs children => rfl
  | other n =>
    simp only [get_children]
    rw [spec_keywords]

theorem book_keywords_of_none [Locale] {xml_root : Element}
    (h : spec_first_named "functions" xml_root.children = none) :
    book_keywords xml_root = [] := by
  unfold book_keywords
  rw [h]

theorem build_functions_step [Locale] (s : devdoc) (hwf : s.WF) {root : Nat} (hroot : root < s.heap.length)
    (functions : XmlNode) :
    ∃ ext, FunStep s (build_functions s root functions) root
      (spec_keywords (get_children functions)) ext := by
  obtain ⟨ext, h⟩ := KwInv.loop (get_children functions)
    ((new_node s more_title (some root)).1, []) [] [] (KwInv.init s hwf root)
  simp only [List.nil_append] at h
  generalize hks : spec_keywords (get_children functions) = ks at h
  generalize hs2 : (List.foldl (add_function s.heap.length)
    ((new_node s more_title (some root)).1, []) (get_children functions)) = acc at h
  have hrep := h.represents_more hroot
  have hchildren : children_of acc.1 s.heap.length = acc.2.map Prod.snd := by
    simp [children_of, h.more]
  have hlen : (acc.2.map Prod.snd).length = 0 ↔ ks = [] := by
    rw [List.length_map, ← List.length_map acc.2 Prod.fst, h.keys_eq, spec_groups_keys,
      List.length_eq_zero]
    constructor
    · intro h0
      cases ks with
      | nil => rfl
      | cons k ks =>
        rw [List.map_cons, first_occurrences] at h0
        cases h0
    · rintro rfl
      rfl
  have hlen1 : s.heap.length + 1 ≤ acc.1.heap.length := by simpa using h.len_le
  have hold : ∀ i, i < s.heap.length → acc.1.heap[i]? = s.heap[i]? := by
    intro i hi
    rw [h.old i hi]
    simp [List.getElem?_append_left hi]
  have hsb : (new_node s more_title (some root)).1.nodes = s.nodes := rfl
  have hextnil : ks = [] → ext = [] := by
    intro hk
    cases hext : ext with
    | nil => rfl
    | cons kv rest =>
      exfalso
      obtain ⟨hlt, hin⟩ := h.ext_keys kv (by rw [hext]; simp)
      rcases hin.eq_or_child with heq | ⟨n, c, hn, hc⟩
      · omega
      · rw [h.more] at hn
        cases hn
        have h0 := hlen.2 hk
        rw [List.length_eq_zero] at h0
        simp only at hc
        rw [h0] at hc
        cases hc
  refine ⟨ext, ?_⟩
  unfold build_functions
  simp only [new_node_ptr, hs2, hchildren]
  by_cases hk : ks = []
  · rw [if_pos (hlen.2 hk)]
    exact
      { parsers_eq := h.parsers_eq
        root_nodes_eq := h.root_nodes_eq
        freed_eq := by simp [delete_single, h.freed_eq, hk]
        wf := ⟨h.wf.keys_nodup, h.wf.keys_lt⟩
        len_lt := hlen1
        old := fun i hi _ => hold i hi
        par := fun n hn => by simp [delete_single, hk, hold root hroot, hn]
        rep := hrep
        nodes_eq := by simpa [delete_single] using h.nodes_eq
        ext_keys := fun kv hkv => h.ext_keys kv hkv
        ext_nil := hextnil }
  · rw [if_neg (fun h0 => hk (hlen.1 h0))]
    exact
      { parsers_eq := by simpa using h.parsers_eq
        root_nodes_eq := by simpa using h.root_nodes_eq
        freed_eq := by simpa [hk] using h.freed_eq
        wf := ⟨by simpa using h.wf.keys_nodup, fun k hk => by
          simpa using h.wf.keys_lt k (by simpa using hk)⟩
        len_lt := by simpa using hlen1
        old := fun i hi hir => by rw [push_back_child_ne _ _ hir, hold i hi]
        par := fun n hn => by
          rw [push_back_child_self _ _ ((hold root hroot).trans hn)]
          simp [hk]
        rep := by
          refine Represents.frame_node ?_ ?_ _ _ _ hrep
          · intro i hlo _
            exact push_back_child_ne _ _ (by omega)
          · intro i _ _
            simp
        nodes_eq := by simpa using h.nodes_eq
        ext_keys := fun kv hkv =>
          ⟨(h.ext_keys kv hkv).1, (h.ext_keys kv hkv).2.mono_grows (Grows.push_back_child _ _ _)⟩
        ext_nil := hextnil }

/-! ## The whole tree -/

theorem FunStep.toChapStep [Locale] {s s3 : devdoc} {root : Nat} {ks : List Element}
    {ext : List (Nat × Option Element)} (h : FunStep s s3 root ks ext) :
    ChapStep s s3 root (if ks = [] then [] else [s.heap.length]) ext
      (if ks = [] then [] else [spec_more_tree ks]) where
  parsers_eq := h.parsers_eq
  root_nodes_eq := h.root_nodes_eq
  wf := h.wf
  len_le := Nat.le_of_lt h.len_lt
  old := h.old
  par := h.par
  rep := by
    by_cases hk : ks = []
    · simp only [hk, if_true]
      unfold RepresentsList
      trivial
    · simp only [hk, if_false]
      unfold RepresentsList
      exact ⟨h.rep, by unfold RepresentsList; trivial⟩
  nodes_eq := h.nodes_eq
  ext_keys := fun kv hkv => by
    have hk : ks ≠ [] := by
      intro hk
      rw [h.ext_nil hk] at hkv
      cases hkv
    obtain ⟨hlt, hin⟩ := h.ext_keys kv hkv
    exact ⟨Nat.le_of_lt hlt, s.heap.length, by simp [hk], hin⟩

theorem build_book_step [Locale] (s : devdoc) (hwf : s.WF) (xml_root : Element) :
    ∃ cs ms ext, BookStep s (build_book s xml_root).1 (build_book s xml_root).2 xml_root
      cs ms ext := by
  have hwf1 := WF.after_new_node hwf (spec_attr xml_root "title") none
  have hr1 : s.heap.length <
      (new_node s (spec_attr xml_root "title") none).1.heap.length := by simp
  -- the chapters
  have hchap : ∃ s2 cs ext, s2 = (match spec_first_named "chapters" xml_root.children with
        | some chapters => build_chapters_children
            (new_node s (spec_attr xml_root "title") none).1 s.heap.length
            (get_children chapters)
        | none => (new_node s (spec_attr xml_root "title") none).1) ∧
      ChapStep (new_node s (spec_attr xml_root "title") none).1 s2 s.heap.length
        cs ext (spec_book_chapters xml_root) := by
    cases hc : spec_first_named "chapters" xml_root.children with
    | some chapters =>
      obtain ⟨cs, ext, h⟩ := build_chapters_children_step (get_children chapters) _
        s.heap.length hwf1 hr1
      rw [← spec_book_chapters_of_first hc] at h
      exact ⟨_, cs, ext, rfl, h⟩
    | none =>
      rw [spec_book_chapters_of_none hc]
      exact ⟨_, [], [], rfl, ChapStep.nil _ hwf1 _⟩
  obtain ⟨s2, cs, ext1, hs2, h2⟩ := hchap
  have hr2 : s.heap.length < s2.heap.length := Nat.lt_of_lt_of_le hr1 h2.len_le
  -- the keywords
  have hfun : ∃ s3 ms ext, s3 = (match spec_first_named "functions" xml_root.children with
        | some functions => build_functions s2 s.heap.length functions
        | none => s2) ∧
      ChapStep s2 s3 s.heap.length ms ext (spec_book_more xml_root) ∧
      (∀ f, spec_first_named "functions" xml_root.children = some f →
        ∃ m, s.heap.length < m ∧
          Represents s3.heap s3.nodes m (some s.heap.length) m
            (spec_more_tree (book_keywords xml_root)) ∧
          ms = (if book_keywords xml_root = [] then [] else [m]) ∧
          s3.freed = s2.freed ++ (if book_keywords xml_root = [] then [m] else [])) ∧
      (spec_first_named "functions" xml_root.children = none → ms = [] ∧ s3.freed = s2.freed) := by
    unfold spec_book_more
    cases hfc : spec_first_named "functions" xml_root.children with
    | some functions =>
      obtain ⟨ext, h⟩ := build_functions_step s2 h2.wf hr2 functions
      rw [← book_keywords_of_first hfc] at h
      refine ⟨_, _, ext, rfl, h.toChapStep, ?_, (fun hf => by cases hf)⟩
      intro f hf
      cases hf
      exact ⟨s2.heap.length, hr2, h.rep, rfl, h.freed_eq⟩
    | none =>
      rw [book_keywords_of_none hfc]
      exact ⟨_, [], [], rfl, (by simpa using ChapStep.nil s2 h2.wf _), (fun f hf => by cases hf),
        (fun _ => ⟨rfl, rfl⟩)⟩
  obtain ⟨s3, ms, ext2, hs3, h3, hmore, hnofun⟩ := hfun
  have hfreed2 : s2.freed = s.freed := by
    rw [hs2]
    cases spec_first_named "chapters" xml_root.children with
    | some chapters => simp [build_chapters_children_freed]
    | none => rfl
  have h13 := ChapStep.comp hr1 h2 h3
  have hlen1 : (new_node s (spec_attr xml_root "title") none).1.heap.length
      = s.heap.length + 1 := by simp
  have hrec3 : s3.heap[s.heap.length]? =
      some ⟨spec_attr xml_root "title", none, cs ++ ms⟩ := by
    have := h13.par ⟨spec_attr xml_root "title", none, []⟩ (by simp)
    simpa using this
  have hnodes3 : s3.nodes = s.nodes ++ (ext1 ++ ext2) := by simpa using h13.nodes_eq
  have hfresh : nodes_find s3.nodes s.heap.length = none := by
    rw [nodes_find_eq_none_iff, hnodes3, List.map_append, List.mem_append]
    rintro (hm | hm)
    · exact Nat.lt_irrefl _ (hwf.keys_lt _ hm)
    · obtain ⟨kv, hkv, hk⟩ := List.mem_map.1 hm
      have := (h13.ext_keys kv hkv).1
      rw [hlen1] at this
      omega
  have hres : build_book s xml_root =
      ({ nodes_insert s3 s.heap.length xml_root with
          root_nodes := (nodes_insert s3 s.heap.length xml_root).root_nodes ++ [s.heap.length] },
        s.heap.length) := by
    unfold build_book
    simp only [new_node_ptr, get_attribute_value_eq, get_first_child_eq]
    rw [← hs2, ← hs3]
  have hnodes4 : (nodes_insert s3 s.heap.length xml_root).nodes
      = s3.nodes ++ [(s.heap.length, some xml_root)] := nodes_insert_fresh _ _ hfresh
  refine ⟨cs, ms, (ext1 ++ ext2) ++ [(s.heap.length, some xml_root)], ?_⟩
  rw [hres]
  have hframeM : ∀ i, s.heap.length + 1 ≤ i →
      nodes_find (s3.nodes ++ [(s.heap.length, some xml_root)]) i = nodes_find s3.nodes i := by
    intro i hi
    apply nodes_find_append_left
    simp
    omega
  refine
    { root_eq := rfl
      parsers_eq := by simpa using h13.parsers_eq
      root_nodes_eq := by simpa using h13.root_nodes_eq
      wf := ?_
      len_lt := by simpa using Nat.lt_of_lt_of_le hr1 h13.len_le
      old := fun i hi => by
        simp only [nodes_insert_heap]
        rw [h13.old i (by omega) (by omega)]
        simp [List.getElem?_append_left hi]
      root_rec := by simpa using hrec3
      root_map := by
        simp only
        rw [hnodes4, nodes_find_append_right hfresh]
        simp [nodes_find, List.lookup_cons]
      chap := ?_
      more := ?_
      nodes_eq := by
        simp only
        rw [hnodes4, hnodes3, List.append_assoc]
      ext_keys := ?_
      more_node := ?_
      no_functions := fun hf => by
        obtain ⟨h1, h2⟩ := hnofun hf
        exact ⟨h1, by simpa [hfreed2] using h2⟩ }
  · constructor
    · simp only
      rw [hnodes4, List.map_append, List.nodup_append]
      refine ⟨h13.wf.keys_nodup, by simp, ?_⟩
      intro a ha hb
      simp at hb
      subst hb
      exact (nodes_find_eq_none_iff.1 hfresh) ha
    · intro k hk
      simp only at hk
      rw [hnodes4, List.map_append, List.mem_append] at hk
      simp only [nodes_insert_heap]
      rcases hk with hk | hk
      · exact h13.wf.keys_lt k hk
      · simp at hk
        have := h13.len_le
        rw [hlen1] at this
        omega
  · simp only [nodes_insert_heap]
    rw [hnodes4]
    refine RepresentsList.frame_list (fun _ _ _ => rfl) (fun i hi _ => hframeM i hi) _ _ _ ?_
    refine RepresentsList.frame_list ?_ ?_ _ _ _ (RepresentsList.mono_list (Nat.le_of_eq hlen1.symm) _ _ _ h2.rep)
    · intro i hi hlt
      exact h3.old i hlt (by omega)
    · intro i _ hlt
      exact h3.find_old hlt
  · simp only [nodes_insert_heap]
    rw [hnodes4]
    refine RepresentsList.frame_list (fun _ _ _ => rfl) (fun i hi _ => hframeM i hi) _ _ _ ?_
    exact RepresentsList.mono_list (by have := h2.len_le; rw [hlen1] at this; exact this) _ _ _ h3.rep
  · intro kv hkv
    simp only [nodes_insert_heap]
    rcases List.mem_append.1 hkv with hkv | hkv
    · obtain ⟨hle, c, hc, hin⟩ := h13.ext_keys kv hkv
      rw [hlen1] at hle
      exact ⟨by omega, InTree.trans_tree (InTree.child InTree.root hrec3 hc) hin⟩
    · simp at hkv
      subst hkv
      exact ⟨Nat.le_refl _, InTree.root⟩
  · intro f hf
    obtain ⟨m, hm, hrep, hms, hfr⟩ := hmore f hf
    refine ⟨m, hm, ?_, hms, by simpa [hfreed2] using hfr⟩
    simp only [nodes_insert_heap]
    rw [hnodes4]
    refine Represents.frame_node (fun _ _ _ => rfl) (fun i hi _ => ?_) _ _ _ hrep
    apply nodes_find_append_left
    simp
    omega
theorem BookStep.represents_book [Locale] {s s2 : devdoc} {r : Nat} {xml_root : Element} {cs ms : List Nat}
    {ext : List (Nat × Option Element)} (h : BookStep s s2 r xml_root cs ms ext) :
    Represents s2.heap s2.nodes s.heap.length none r (spec_book_tree xml_root) := by
  unfold spec_book_tree Represents
  refine ⟨Nat.le_of_eq h.root_eq.symm, (fun p hp => by cases hp), _, h.root_rec, rfl, rfl,
    (by simpa using h.root_map), ?_⟩
  exact representsList_append (RepresentsList.mono_list (Nat.le_succ _) _ _ _ h.chap)
    (RepresentsList.mono_list (Nat.le_succ _) _ _ _ h.more)

theorem InTree.represented {H : List doc_tree_node} {M : List (Nat × Option Element)}
    {lo r : Nat} {par : Option Nat} {t : DocTree} (P : Nat → DocTree → Prop)
    (hrep : Represents H M lo par r t) (h0 : P r t)
    (hstep : ∀ par2 n tn c tc, P n tn → Represents H M lo par2 n tn → tc ∈ tn.children →
      Represents H M lo (some n) c tc → P c tc)
    {k : Nat} (hk : InTree H r k) : ∃ par2 tk, Represents H M lo par2 k tk ∧ P k tk := by
  induction hk with
  | root => exact ⟨par, t, hrep, h0⟩
  | child _ hn hc ih =>
    obtain ⟨par2, tn, hrn, hpn⟩ := ih
    have hrn2 := represents_node.1 hrn
    obtain ⟨_, _, n2, hn2, _, _, _, hlist⟩ := hrn2
    rw [hn] at hn2
    cases hn2
    rw [representsList_iff] at hlist
    obtain ⟨tc, htc, hrc⟩ := forall₂_exists_of_mem_left hlist hc
    exact ⟨_, tc, hrc, hstep par2 _ tn _ tc hpn hrn htc hrc⟩

theorem mem_spec_chapter_trees [Locale] {t : DocTree} :
    ∀ {l : List XmlNode}, t ∈ spec_chapter_trees l →
      ∃ name attrs children, XmlNode.element name attrs children ∈ l ∧ SameName name "sub" ∧
        t = .node (spec_attr ⟨name, attrs, children⟩ "name")
          (some ⟨name, attrs, children⟩) (spec_chapter_trees children)
  | [], h => by rw [spec_chapter_trees_nil] at h; cases h
  | x :: xs, h => by
    rw [spec_chapter_trees_cons] at h
    rcases List.mem_append.1 h with h | h
    · cases x with
      | element name attrs children =>
        rw [spec_chapter_node_element] at h
        by_cases hname : SameName name "sub"
        · rw [if_pos hname, List.mem_singleton] at h
          exact ⟨name, attrs, children, List.mem_cons_self _ _, hname, h⟩
        · rw [if_neg hname] at h
          cases h
      | other name => rw [spec_chapter_node_other] at h; cases h
    · obtain ⟨name, attrs, children, hmem, hname, ht⟩ := mem_spec_chapter_trees h
      exact ⟨name, attrs, children, List.mem_cons_of_mem _ hmem, hname, ht⟩

theorem mem_spec_book_chapters [Locale] {t : DocTree} {xml_root : Element}
    (h : t ∈ spec_book_chapters xml_root) :
    ∃ name attrs children, SameName name "sub" ∧
      t = .node (spec_attr ⟨name, attrs, children⟩ "name")
        (some ⟨name, attrs, children⟩) (spec_chapter_trees children) := by
  cases hch : spec_first_named "chapters" xml_root.children with
  | none =>
    rw [spec_book_chapters_of_none hch] at h
    cases h
  | some chapters =>
    rw [spec_book_chapters_of_first hch] at h
    obtain ⟨name, attrs, children, _, hname, ht⟩ := mem_spec_chapter_trees h
    exact ⟨name, attrs, children, hname, ht⟩

theorem BookStep.kind [Locale] {s s2 : devdoc} {r : Nat} {xml_root : Element} {cs ms : List Nat}
    {ext : List (Nat × Option Element)} (h : BookStep s s2 r xml_root cs ms ext)
    {k : Nat} (hk : InTree s2.heap r k) :
    ∃ par tk, Represents s2.heap s2.nodes s.heap.length par k tk ∧
      NodeKind s2.heap s2.nodes r xml_root k tk := by
  refine InTree.represented (NodeKind s2.heap s2.nodes r xml_root) h.represents_book NodeKind.root
    ?_ hk
  intro par2 n tn c tc hkind hrn htc hrc
  cases hkind with
  | root =>
    simp only [spec_book_tree, DocTree.children, List.mem_append] at htc
    rcases htc with htc | htc
    · obtain ⟨name, attrs, children, hname, rfl⟩ := mem_spec_book_chapters htc
      exact NodeKind.chapter _ _ _ _ hname
    · unfold spec_book_more at htc
      by_cases hks : book_keywords xml_root = []
      · simp [hks] at htc
      · simp only [hks, if_false, List.mem_singleton] at htc
        subst htc
        obtain ⟨_, _, n2, hn2, ht, hp, hm, _⟩ := represents_node.1 hrc
        exact NodeKind.more _ n2 hks hn2 ht hp (by simpa [spec_more_tree, DocTree.element] using hm)
  | chapter _ name attrs children =>
    simp only [DocTree.children] at htc
    obtain ⟨name2, attrs2, children2, _, hname2, rfl⟩ := mem_spec_chapter_trees htc
    exact NodeKind.chapter _ _ _ _ hname2
  | more _ mn hks hmn hmt hmp hmm =>
    simp only [spec_more_tree, DocTree.children, spec_keyword_groups, List.mem_map] at htc
    obtain ⟨t, ht, rfl⟩ := htc
    obtain ⟨_, _, n2, hn2, hnt, hp, hm, _⟩ := represents_node.1 hrc
    exact NodeKind.group _ _ n2 mn t hmn hmt hmp hmm hn2 hnt hp
      (by simpa [spec_keyword_group, DocTree.element] using hm) (first_occurrences_subset ht)
  | group _ m n0 mn t _ _ _ _ _ _ _ _ ht =>
    simp only [spec_keyword_group, DocTree.children, List.mem_map, List.mem_filter] at htc
    obtain ⟨kw, ⟨hkw, _⟩, rfl⟩ := htc
    exact NodeKind.leaf _ kw hkw
  | leaf _ kw _ =>
    simp [spec_keyword_leaf, DocTree.children] at htc

/-! ## `get_doc_tree` -/

theorem get_doc_tree_of_checks [Locale] (fs : FileSystem) (s : devdoc) (path : String)
    (h1 : fs.is_directory path = some true) (h2 : fs.file_exists (index_file path) = some true)
    (h3 : fs.is_regular_file (index_file path) = some true) :
    get_doc_tree fs s path = some (get_doc_tree_try fs s path) := by
  simp only [get_doc_tree, h1, h2, h3]

theorem get_doc_tree_cases [Locale] (fs : FileSystem) (s : devdoc) (path : String)
    (out : devdoc × Option Nat) (h : get_doc_tree fs s path = some out) :
    out = (s, none) ∨
      (fs.is_directory path = some true ∧ fs.file_exists (index_file path) = some true ∧
        fs.is_regular_file (index_file path) = some true ∧ out = get_doc_tree_try fs s path) := by
  unfold get_doc_tree at h
  cases h1 : fs.is_directory path with
  | none => rw [h1] at h; cases h
  | some b1 =>
    cases b1 with
    | false =>
      rw [h1] at h
      exact Or.inl (Option.some.inj h).symm
    | true =>
      rw [h1] at h
      simp only at h
      cases h2 : fs.file_exists (index_file path) with
      | none => rw [h2] at h; cases h
      | some b2 =>
        cases b2 with
        | false =>
          rw [h2] at h
          exact Or.inl (Option.some.inj h).symm
        | true =>
          rw [h2] at h
          simp only at h
          cases h3 : fs.is_regular_file (index_file path) with
          | none => rw [h3] at h; cases h
          | some b3 =>
            cases b3 with
            | false =>
              rw [h3] at h
              exact Or.inl (Option.some.inj h).symm
            | true =>
              rw [h3] at h
              exact Or.inr ⟨rfl, rfl, rfl, (Option.some.inj h).symm⟩

theorem get_doc_tree_try_parse_failure [Locale] (fs : FileSystem) (s : devdoc) (path : String)
    (h4 : fs.parse_file (index_file path) = none) :
    get_doc_tree_try fs s path = ({ s with parsers := s.parsers ++ [⟨none⟩] }, none) := by
  simp only [get_doc_tree_try, h4]

theorem get_doc_tree_try_no_root [Locale] (fs : FileSystem) (s : devdoc) (path : String)
    (doc : Document) (h4 : fs.parse_file (index_file path) = some doc) (h5 : doc.root = none) :
    get_doc_tree_try fs s path = ({ s with parsers := s.parsers ++ [⟨some doc⟩] }, none) := by
  simp only [get_doc_tree_try, h4, h5]

theorem get_doc_tree_try_not_book [Locale] (fs : FileSystem) (s : devdoc) (path : String)
    (doc : Document) (xml_root : Element) (h4 : fs.parse_file (index_file path) = some doc)
    (h5 : doc.root = some xml_root) (hb : ¬ SameName xml_root.name "book") :
    get_doc_tree_try fs s path = ({ s with parsers := s.parsers ++ [⟨some doc⟩] }, none) := by
  simp only [get_doc_tree_try, h4, h5, (ustring_eq_false_iff _ _).2 hb]
  rfl

theorem get_doc_tree_try_eq_build_book [Locale] (fs : FileSystem) (s : devdoc) (path : String)
    (doc : Document) (xml_root : Element) (h4 : fs.parse_file (index_file path) = some doc)
    (h5 : doc.root = some xml_root) (hb : SameName xml_root.name "book") :
    get_doc_tree_try fs s path =
      ((build_book { s with parsers := s.parsers ++ [⟨some doc⟩] } xml_root).1,
        some (build_book { s with parsers := s.parsers ++ [⟨some doc⟩] } xml_root).2) := by
  simp only [get_doc_tree_try, h4, h5, (ustring_eq_iff _ _).2 hb]
  rfl

theorem get_doc_tree_book [Locale] (fs : FileSystem) (s : devdoc) (path : String)
    (xml_root : Element) (hwf : s.WF) (hp : ParsesTo fs path xml_root)
    (hb : SameName xml_root.name "book") :
    ∃ doc cs ms ext s2, fs.parse_file (index_file path) = some doc ∧
      get_doc_tree fs s path = some (s2, some s.heap.length) ∧
      BookStep { s with parsers := s.parsers ++ [⟨some doc⟩] } s2
        s.heap.length xml_root cs ms ext := by
  obtain ⟨h1, h2, h3, doc, h4, h5⟩ := hp
  obtain ⟨cs, ms, ext, hstep⟩ :=
    build_book_step { s with parsers := s.parsers ++ [⟨some doc⟩] }
      ⟨hwf.keys_nodup, hwf.keys_lt⟩ xml_root
  have hroot := hstep.root_eq
  simp only at hroot
  refine ⟨doc, cs, ms, ext,
    (build_book { s with parsers := s.parsers ++ [⟨some doc⟩] } xml_root).1, h4, ?_, ?_⟩
  · rw [get_doc_tree_of_checks fs s path h1 h2 h3,
      get_doc_tree_try_eq_build_book fs s path doc xml_root h4 h5 hb, hroot]
  · rw [← hroot]
    exact hstep

theorem get_doc_tree_outcome [Locale] (fs : FileSystem) (s s2 : devdoc) (path : String)
    (res : Option Nat) (h : get_doc_tree fs s path = some (s2, res)) :
    (res = none ∧ ∃ ps, s2 = { s with parsers := s.parsers ++ ps }) ∨
      ∃ xml_root, ParsesTo fs path xml_root ∧ SameName xml_root.name "book" := by
  rcases get_doc_tree_cases fs s path _ h with h0 | ⟨h1, h2, h3, h0⟩
  · cases h0
    exact Or.inl ⟨rfl, [], by simp⟩
  · cases h4 : fs.parse_file (index_file path) with
    | none =>
      rw [get_doc_tree_try_parse_failure fs s path h4] at h0
      cases h0
      exact Or.inl ⟨rfl, _, rfl⟩
    | some doc =>
      cases h5 : doc.root with
      | none =>
        rw [get_doc_tree_try_no_root fs s path doc h4 h5] at h0
        cases h0
        exact Or.inl ⟨rfl, _, rfl⟩
      | some xml_root =>
        by_cases hb : SameName xml_root.name "book"
        · exact Or.inr ⟨xml_root, ⟨h1, h2, h3, doc, h4, h5⟩, hb⟩
        · rw [get_doc_tree_try_not_book fs s path doc xml_root h4 h5 hb] at h0
          cases h0
          exact Or.inl ⟨rfl, _, rfl⟩

theorem representsList_nil_right {H : List doc_tree_node} {M : List (Nat × Option Element)}
    {lo : Nat} {par : Option Nat} {ids : List Nat}
    (h : RepresentsList H M lo par ids []) : ids = [] := by
  rw [representsList_iff] at h
  exact List.forall₂_nil_right_iff.1 h

theorem represents_more_groups [Locale] {H : List doc_tree_node}
    {M : List (Nat × Option Element)} {lo m : Nat} {par : Option Nat} {ks : List Element}
    (h : Represents H M lo par m (spec_more_tree ks)) :
    ∃ n, H[m]? = some n ∧ n.title = more_title ∧ n.parent = par ∧ nodes_find M m = none ∧
      List.Forall₂
        (fun g t => GroupAt H M m g t
          (ks.filter (fun k => decide (SameName (keyword_type k) t))))
        n.children (first_occurrences (ks.map keyword_type)) := by
  obtain ⟨_, _, n, hn, ht, hp, hm, hlist⟩ := represents_node.1 h
  refine ⟨n, hn, ht, hp, by simpa [spec_more_tree, DocTree.element] using hm, ?_⟩
  simp only [spec_more_tree, DocTree.children, spec_keyword_groups] at hlist
  rw [representsList_iff, List.forall₂_map_right_iff] at hlist
  refine hlist.imp ?_
  intro g t hg
  obtain ⟨_, hlt, gn, hgn, hgt, hgp, hgm, hleaves⟩ := represents_node.1 hg
  simp only [spec_keyword_group, DocTree.title, DocTree.element, DocTree.children,
    Option.map_none'] at hgt hgm hleaves
  rw [representsList_iff, List.forall₂_map_right_iff] at hleaves
  refine ⟨hlt m rfl, hgm, gn.children, ?_, ?_⟩
  · rw [hgn, ← hgt, ← hgp]
  · refine hleaves.imp ?_
    intro l k hl
    obtain ⟨_, hgl, ln, hln, hlt2, hlp, hlm, hlc⟩ := represents_node.1 hl
    simp only [spec_keyword_leaf, DocTree.title, DocTree.element, DocTree.children,
      Option.map_some'] at hlt2 hlm hlc
    have hnil := representsList_nil_right hlc
    refine ⟨hgl g rfl, ?_, hlm⟩
    rw [hln, ← hlt2, ← hlp, ← hnil]

theorem parsesTo_fs_with (path : String) (xml_root : Element) :
    ParsesTo (fs_with (some xml_root)) path xml_root :=
  ⟨rfl, rfl, rfl, ⟨some xml_root⟩, rfl, rfl⟩

theorem represents_chapter_mapped [Locale] {H : List doc_tree_node}
    {M : List (Nat × Option Element)} {lo k : Nat} {par : Option Nat} {xml_root : Element}
    {ids : List Nat}
    (h : RepresentsList H M lo par ids (spec_book_chapters xml_root)) (hk : k ∈ ids) :
    ∃ el, nodes_find M k = some (some el) := by
  rw [representsList_iff] at h
  obtain ⟨tc, htc, hrc⟩ := forall₂_exists_of_mem_left h hk
  obtain ⟨name, attrs, children, _, rfl⟩ := mem_spec_book_chapters htc
  obtain ⟨_, _, _, _, _, _, hm, _⟩ := represents_node.1 hrc
  exact ⟨_, hm⟩

theorem find_root_of_inTree [Locale] {s s2 : devdoc} {r : Nat} {xml_root : Element}
    {cs ms : List Nat} {ext : List (Nat × Option Element)}
    (h : BookStep s s2 r xml_root cs ms ext)
    {k : Nat} (hk : InTree s2.heap r k) : find_root s2.heap s2.heap.length k = some r := by
  obtain ⟨par, tk, hrep, hP⟩ := InTree.represented
    (fun k _ => ∀ f, k < f → find_root s2.heap f k = some r) h.represents_book
    (by
      intro f hf
      cases f with
      | zero => omega
      | succ f => simp [find_root, h.root_rec])
    (by
      intro par2 n tn c tc hn _ _ hrc f hf
      obtain ⟨_, hlt, cn, hcn, _, hcp, _, _⟩ := represents_node.1 hrc
      have := hlt n rfl
      cases f with
      | zero => omega
      | succ f =>
        simp only [find_root, hcn, hcp]
        exact hn f (by omega))
    hk
  exact hP _ (represents_lt_length hrep)

theorem get_doc_tree_some_inj [Locale] {fs : FileSystem} {s s2 s3 : devdoc} {path : String}
    {r r3 : Option Nat} (h1 : get_doc_tree fs s path = some (s2, r))
    (h2 : get_doc_tree fs s path = some (s3, r3)) : s3 = s2 ∧ r3 = r := by
  rw [h1] at h2
  cases h2
  exact ⟨rfl, rfl⟩

/-- C5: for a node `N` of a tree returned by `get_doc_tree` that is mapped to the element `E`,
`get_doc` leaves the state as it is and returns the location
`"file://" ++ base ++ "/" ++ link` with the success flag `true`, where `base` is the `base`
attribute of the element of the root of the tree (the root element of the document) and
`link` is the `link` attribute of `E`. -/
theorem get_doc_of_mapped_node [Locale] (fs : FileSystem) (s s2 : devdoc) (path : String)
    (xml_root : Element) (hwf : s.WF) (hp : ParsesTo fs path xml_root)
    (hb : SameName xml_root.name "book") (r N : Nat) (E : Element)
    (hr : get_doc_tree fs s path = some (s2, some r))
    (hN : InTree s2.heap r N)
    (hE : nodes_find s2.nodes N = some (some E)) :
    nodes_find s2.nodes r = some (some xml_root) ∧
    get_doc s2 N =
      (s2, some ("file://" ++ spec_attr xml_root "base" ++ "/" ++ spec_attr E "link", true)) := by
  obtain ⟨doc, cs, ms, ext, s3, _, hres, hstep⟩ :=
    get_doc_tree_book fs s path xml_root hwf hp hb
  obtain ⟨h1, h2⟩ := get_doc_tree_some_inj hr hres
  subst h1
  cases h2
  have hwalk := find_root_of_inTree hstep hN
  refine ⟨hstep.root_map, ?_⟩
  simp [get_doc, hwalk, nodes_index, hstep.root_map, hE, get_attribute_value_eq]

/-! ## Calls that return `nullptr`, and calls that do not return -/

/-- When the checks of lines 79-87 answer and one of them answers no (the path is not a
directory, or the index file does not exist, or it is not a regular file), `get_doc_tree`
returns `nullptr` and leaves the whole state as it is, whatever a parse of the file would
give: no parser is created. -/
theorem get_doc_tree_not_applicable [Locale] (fs : FileSystem) (s : devdoc) (path : String)
    (h : fs.is_directory path = some false ∨
      (fs.is_directory path = some true ∧ fs.file_exists (index_file path) = some false) ∨
      (fs.is_directory path = some true ∧ fs.file_exists (index_file path) = some true ∧
        fs.is_regular_file (index_file path) = some false)) :
    get_doc_tree fs s path = some (s, none) ∧
    ∀ parse : String → Option Document,
      get_doc_tree { fs with parse_file := parse } s path = some (s, none) := by
  rcases h with h | ⟨h1, h2⟩ | ⟨h1, h2, h3⟩
  · simp only [get_doc_tree, h, true_and, implies_true]
  · simp only [get_doc_tree, h1, h2, true_and, implies_true]
  · simp only [get_doc_tree, h1, h2, h3, true_and, implies_true]

/-- When one of the checks of lines 79-87 throws (the earlier ones held), the call does not
return: the checks stand before the `try` block of a `noexcept` function. -/
theorem get_doc_tree_check_throws [Locale] (fs : FileSystem) (s : devdoc) (path : String)
    (h : fs.is_directory path = none ∨
      (fs.is_directory path = some true ∧ fs.file_exists (index_file path) = none) ∨
      (fs.is_directory path = some true ∧ fs.file_exists (index_file path) = some true ∧
        fs.is_regular_file (index_file path) = none)) :
    get_doc_tree fs s path = none := by
  rcases h with h | ⟨h1, h2⟩ | ⟨h1, h2, h3⟩
  · simp only [get_doc_tree, h]
  · simp only [get_doc_tree, h1, h2]
  · simp only [get_doc_tree, h1, h2, h3]

/-- C7: when the path passes the checks and the parse of the index file fails (the call
throws), `get_doc_tree` returns `nullptr` as an ordinary result; the parser that was created
stays in `parsers`, and the map and the root registry are as before. -/
theorem get_doc_tree_parse_failure [Locale] (fs : FileSystem) (s : devdoc) (path : String)
    (h1 : fs.is_directory path = some true)
    (h2 : fs.file_exists (index_file path) = some true)
    (h3 : fs.is_regular_file (index_file path) = some true)
    (h4 : fs.parse_file (index_file path) = none) :
    get_doc_tree fs s path = some ({ s with parsers := s.parsers ++ [⟨none⟩] }, none) := by
  rw [get_doc_tree_of_checks fs s path h1 h2 h3, get_doc_tree_try_parse_failure fs s path h4]

/-- C8, amended: when the path passes the checks and the index file parses to the document
`doc`, `get_doc_tree` returns a tree exactly when `doc` has a root element whose name
compares equal to `book` (it has the collation key of `book`); so it returns a tree when the
root element is named exactly `book`, and the result is `nullptr` when the root element is
missing or its name does not compare equal to `book`. -/
theorem get_doc_tree_some_iff_book [Locale] (fs : FileSystem) (s : devdoc) (path : String)
    (doc : Document)
    (h1 : fs.is_directory path = some true)
    (h2 : fs.file_exists (index_file path) = some true)
    (h3 : fs.is_regular_file (index_file path) = some true)
    (h4 : fs.parse_file (index_file path) = some doc) :
    ((∃ s2 r, get_doc_tree fs s path = some (s2, some r)) ↔
      ∃ xml_root, doc.root = some xml_root ∧ SameName xml_root.name "book") ∧
    ((¬ ∃ xml_root, doc.root = some xml_root ∧ SameName xml_root.name "book") →
      get_doc_tree fs s path =
        some ({ s with parsers := s.parsers ++ [⟨some doc⟩] }, none)) ∧
    (∀ xml_root, doc.root = some xml_root → xml_root.name = "book" →
      ∃ s2 r, get_doc_tree fs s path = some (s2, some r)) := by
  have hyes : ∀ xml_root, doc.root = some xml_root → SameName xml_root.name "book" →
      ∃ s2 r, get_doc_tree fs s path = some (s2, some r) := by
    intro xml_root h5 hb
    exact ⟨_, _, by
      rw [get_doc_tree_of_checks fs s path h1 h2 h3,
        get_doc_tree_try_eq_build_book fs s path doc xml_root h4 h5 hb]⟩
  have hno : (¬ ∃ xml_root, doc.root = some xml_root ∧ SameName xml_root.name "book") →
      get_doc_tree fs s path =
        some ({ s with parsers := s.parsers ++ [⟨some doc⟩] }, none) := by
    intro hneg
    rw [get_doc_tree_of_checks fs s path h1 h2 h3]
    cases h5 : doc.root with
    | none => rw [get_doc_tree_try_no_root fs s path doc h4 h5]
    | some xml_root =>
      rw [get_doc_tree_try_not_book fs s path doc xml_root h4 h5
        (fun hb => hneg ⟨xml_root, h5, hb⟩)]
  refine ⟨⟨?_, ?_⟩, hno, fun xml_root h5 hn => hyes xml_root h5 (sameName_of_eq hn)⟩
  · rintro ⟨s2, r, hres⟩
    by_contra hneg
    rw [hno hneg] at hres
    cases hres
  · rintro ⟨xml_root, h5, hb⟩
    exact hyes xml_root h5 hb

/-! ## Well-formedness is an invariant

The hypothesis `s.WF` of the theorems above holds of the freshly constructed object
(`WF_init`) and is kept by both member functions. -/

theorem get_doc_tree_none_frame [Locale] (fs : FileSystem) (s s2 : devdoc) (path : String)
    (h : get_doc_tree fs s path = some (s2, none)) :
    s2.nodes = s.nodes ∧ s2.root_nodes = s.root_nodes ∧ s2.heap = s.heap ∧
      s2.freed = s.freed := by
  rcases get_doc_tree_outcome fs s s2 path none h with ⟨_, ps, hps⟩ | ⟨xml_root, hp, hb⟩
  · rw [hps]
    exact ⟨rfl, rfl, rfl, rfl⟩
  · obtain ⟨h1, h2, h3, doc, h4, h5⟩ := hp
    rw [get_doc_tree_of_checks fs s path h1 h2 h3,
      get_doc_tree_try_eq_build_book fs s path doc xml_root h4 h5 hb] at h
    cases h

theorem get_doc_tree_WF [Locale] (fs : FileSystem) (s s2 : devdoc) (path : String)
    (res : Option Nat) (h : get_doc_tree fs s path = some (s2, res)) (hwf : s.WF) :
    s2.WF := by
  rcases get_doc_tree_outcome fs s s2 path res h with ⟨_, ps, hps⟩ | ⟨xml_root, hp, hb⟩
  · rw [hps]
    exact ⟨hwf.keys_nodup, hwf.keys_lt⟩
  · obtain ⟨doc, cs, ms, ext, s3, _, hres, hstep⟩ :=
      get_doc_tree_book fs s path xml_root hwf hp hb
    rw [(get_doc_tree_some_inj hres h).1]
    exact hstep.wf

theorem find_root_lt {H : List doc_tree_node} :
    ∀ (fuel node : Nat) {root : Nat}, find_root H fuel node = some root →
      node < H.length ∧ root < H.length
  | 0, _, _, h => by simp [find_root] at h
  | fuel + 1, node, root, h => by
    unfold find_root at h
    cases hn : H[node]? with
    | none => rw [hn] at h; cases h
    | some n =>
      rw [hn] at h
      simp only at h
      have hlt := lt_of_getElem?_some hn
      cases hp : n.parent with
      | none =>
        rw [hp] at h
        cases h
        exact ⟨hlt, hlt⟩
      | some p =>
        rw [hp] at h
        exact ⟨hlt, (find_root_lt fuel p h).2⟩

theorem nodes_index_WF (s : devdoc) (k : Nat) (hwf : s.WF) (hk : k < s.heap.length) :
    (nodes_index s k).1.WF ∧ (nodes_index s k).1.heap = s.heap := by
  unfold nodes_index
  cases h : nodes_find s.nodes k with
  | some e => exact ⟨hwf, rfl⟩
  | none =>
    refine ⟨⟨?_, ?_⟩, rfl⟩
    · simp only [List.map_append, List.map_cons, List.map_nil]
      rw [List.nodup_append]
      refine ⟨hwf.keys_nodup, by simp, ?_⟩
      intro a ha hb
      simp at hb
      subst hb
      exact (nodes_find_eq_none_iff.1 h) ha
    · intro q hq
      simp only [List.map_append, List.map_cons, List.map_nil, List.mem_append,
        List.mem_singleton] at hq
      rcases hq with hq | hq
      · exact hwf.keys_lt q hq
      · subst hq
        exact hk

theorem get_doc_WF (s : devdoc) (node : Nat) (hwf : s.WF) : (get_doc s node).1.WF := by
  unfold get_doc
  cases h : find_root s.heap s.heap.length node with
  | none => exact hwf
  | some root =>
    obtain ⟨hn, hr⟩ := find_root_lt _ _ h
    obtain ⟨hwf1, hh1⟩ := nodes_index_WF s root hwf hr
    obtain ⟨hwf2, _⟩ := nodes_index_WF (nodes_index s root).1 node hwf1 (by rw [hh1]; exact hn)
    simp only
    split <;> exact hwf2

/-! ## Frame conditions, pruning, ordering, parent links and teardown -/

/-- C17: whenever `get_doc_tree` returns `nullptr`, the map `nodes` and the root registry are
exactly as before the call, and so are the free store and the list of deleted pointers: no
document node was created, mapped or registered. Only the parser collection can have
grown. -/
theorem get_doc_tree_absent_frame [Locale] (fs : FileSystem) (s s2 : devdoc) (path : String)
    (h : get_doc_tree fs s path = some (s2, none)) :
    s2.nodes = s.nodes ∧ s2.root_nodes = s.root_nodes ∧ s2.heap = s.heap ∧
      s2.freed = s.freed ∧ ∃ ps, s2.parsers = s.parsers ++ ps := by
  obtain ⟨h1, h2, h3, h4⟩ := get_doc_tree_none_frame fs s s2 path h
  refine ⟨h1, h2, h3, h4, ?_⟩
  rcases get_doc_tree_outcome fs s s2 path none h with ⟨_, ps, hps⟩ | ⟨xml_root, hp, hb⟩
  · exact ⟨ps, by rw [hps]⟩
  · obtain ⟨c1, c2, c3, doc, c4, c5⟩ := hp
    rw [get_doc_tree_of_checks fs s path c1 c2 c3,
      get_doc_tree_try_eq_build_book fs s path doc xml_root c4 c5 hb] at h
    cases h

theorem nodes_index_frame (s : devdoc) (k : Nat) :
    (nodes_index s k).1.parsers = s.parsers ∧ (nodes_index s k).1.root_nodes = s.root_nodes ∧
    (nodes_index s k).1.heap = s.heap ∧ (nodes_index s k).1.freed = s.freed := by
  unfold nodes_index
  cases nodes_find s.nodes k <;> exact ⟨rfl, rfl, rfl, rfl⟩

theorem nodes_index_some (s : devdoc) (k : Nat) (e : Element)
    (h : (nodes_index s k).2 = some e) :
    nodes_find s.nodes k = some (some e) ∧ nodes_index s k = (s, some e) := by
  unfold nodes_index at h ⊢
  cases hk : nodes_find s.nodes k with
  | none => rw [hk] at h; cases h
  | some v =>
    rw [hk] at h
    simp only at h
    subst h
    exact ⟨rfl, rfl⟩

theorem get_doc_eq (s : devdoc) (node root : Nat)
    (hr : find_root s.heap s.heap.length node = some root) :
    get_doc s node =
      ((nodes_index (nodes_index s root).1 node).1,
        match (nodes_index s root).2, (nodes_index (nodes_index s root).1 node).2 with
        | some r, some n =>
          some ("file://" ++ get_attribute_value r "base" ++ "/" ++
            get_attribute_value n "link", true)
        | _, _ => none) := by
  unfold get_doc
  rw [hr]
  simp only
  generalize nodes_index s root = a
  obtain ⟨s1, re⟩ := a
  simp only
  generalize nodes_index s1 node = b
  obtain ⟨s2, ne⟩ := b
  cases re <;> cases ne <;> rfl

theorem get_doc_frame (s : devdoc) (node : Nat) :
    (get_doc s node).1.parsers = s.parsers ∧ (get_doc s node).1.root_nodes = s.root_nodes ∧
    (get_doc s node).1.heap = s.heap ∧ (get_doc s node).1.freed = s.freed := by
  cases hr : find_root s.heap s.heap.length node with
  | none =>
    have : get_doc s node = (s, none) := by unfold get_doc; rw [hr]
    rw [this]
    exact ⟨rfl, rfl, rfl, rfl⟩
  | some root =>
    rw [get_doc_eq s node root hr]
    obtain ⟨a1, a2, a3, a4⟩ := nodes_index_frame s root
    obtain ⟨b1, b2, b3, b4⟩ := nodes_index_frame (nodes_index s root).1 node
    exact ⟨b1.trans a1, b2.trans a2, b3.trans a3, b4.trans a4⟩

/-- C15, amended: `get_doc` never changes the parser collection, the root registry, the free
store of document nodes or the list of deleted pointers, whatever node it is called on; and
for every node on which it returns a result (the node and the root of its tree have an
element mapping, which is the precondition of `get_doc`) the whole state, the map `nodes`
included, is the same after the call as before it, and a second call on the same node
returns the same result. -/
theorem get_doc_pure (s : devdoc) (node : Nat) :
    (get_doc s node).1.parsers = s.parsers ∧ (get_doc s node).1.root_nodes = s.root_nodes ∧
    (get_doc s node).1.heap = s.heap ∧ (get_doc s node).1.freed = s.freed ∧
    ∀ x : String × Bool, (get_doc s node).2 = some x →
      (get_doc s node).1.nodes = s.nodes ∧ (get_doc s node).1 = s ∧
      get_doc (get_doc s node).1 node = (s, some x) := by
  obtain ⟨h1, h2, h3, h4⟩ := get_doc_frame s node
  refine ⟨h1, h2, h3, h4, ?_⟩
  intro x h
  have hs : (get_doc s node).1 = s := by
    cases hr : find_root s.heap s.heap.length node with
    | none => unfold get_doc; rw [hr]
    | some root =>
      rw [get_doc_eq s node root hr] at h ⊢
      simp only at h ⊢
      cases ha : (nodes_index s root).2 with
      | none => rw [ha] at h; cases h
      | some re =>
        have ha2 := (nodes_index_some s root re ha).2
        rw [ha2] at h ⊢
        simp only at h ⊢
        cases hb : (nodes_index s node).2 with
        | none => rw [hb] at h; cases h
        | some ne => rw [(nodes_index_some s node ne hb).2]
  refine ⟨by rw [hs], hs, ?_⟩
  rw [hs]
  exact Prod.ext hs h

theorem size_list_nil : DocTree.size_list [] = 0 := by
  rw [DocTree.size_list]

theorem size_list_cons (t : DocTree) (ts : List DocTree) :
    DocTree.size_list (t :: ts) = DocTree.size t + DocTree.size_list ts := by
  rw [DocTree.size_list]

theorem size_node (title : String) (el : Option Element) (children : List DocTree) :
    DocTree.size (.node title el children) = 1 + DocTree.size_list children := by
  rw [DocTree.size]

theorem size_list_append :
    ∀ (l1 l2 : List DocTree),
      DocTree.size_list (l1 ++ l2) = DocTree.size_list l1 + DocTree.size_list l2
  | [], l2 => by
    rw [List.nil_append, size_list_nil]
    omega
  | t :: ts, l2 => by
    rw [List.cons_append, size_list_cons, size_list_cons, size_list_append ts l2]
    omega

theorem sub_chain_count_nil [Locale] : sub_chain_count [] = 0 := by
  rw [sub_chain_count]

theorem sub_chain_count_cons [Locale] (x : XmlNode) (xs : List XmlNode) :
    sub_chain_count (x :: xs) = sub_chain_count_node x + sub_chain_count xs := by
  rw [sub_chain_count]

theorem sub_chain_count_node_element [Locale] (name : String) (attrs : List (String × String))
    (children : List XmlNode) :
    sub_chain_count_node (.element name attrs children) =
      if SameName name "sub" then 1 + sub_chain_count children else 0 := by
  rw [sub_chain_count_node]

theorem sub_chain_count_node_other [Locale] (name : String) :
    sub_chain_count_node (.other name) = 0 := by
  rw [sub_chain_count_node]

mutual
theorem build_chapters_tree_length [Locale] :
    ∀ (source : XmlNode) (s : devdoc) (p : Nat),
      (build_chapters_tree s p source).heap.length =
        s.heap.length + sub_chain_count_node source
  | .element name attrs children, s, p => by
    rw [sub_chain_count_node_element]
    by_cases hname : SameName name "sub"
    · rw [build_chapters_tree_sub s p name attrs children hname, if_pos hname]
      simp only [nodes_insert_heap, push_back_child_length]
      rw [build_chapters_children_length children]
      simp only [new_node_heap, List.length_append, List.length_singleton]
      omega
    · rw [build_chapters_tree_not_sub s p name attrs children hname, if_neg hname]
      rfl
  | .other name, s, p => by
    rw [build_chapters_tree_other, sub_chain_count_node_other]
    rfl
theorem build_chapters_children_length [Locale] :
    ∀ (sources : List XmlNode) (s : devdoc) (p : Nat),
      (build_chapters_children s p sources).heap.length =
        s.heap.length + sub_chain_count sources
  | [], s, p => by
    rw [build_chapters_children_nil, sub_chain_count_nil]
    rfl
  | x :: xs, s, p => by
    rw [build_chapters_children_cons, sub_chain_count_cons,
      build_chapters_children_length xs, build_chapters_tree_length x]
    omega
end

mutual
theorem spec_chapter_node_size [Locale] :
    ∀ (source : XmlNode),
      DocTree.size_list (spec_chapter_node source) = sub_chain_count_node source
  | .element name attrs children => by
    rw [spec_chapter_node_element, sub_chain_count_node_element]
    by_cases hname : SameName name "sub"
    · rw [if_pos hname, if_pos hname, size_list_cons, size_node, size_list_nil,
        spec_chapter_trees_size children]
      omega
    · rw [if_neg hname, if_neg hname]
      exact size_list_nil
  | .other _ => by
    rw [spec_chapter_node_other, sub_chain_count_node_other]
    exact size_list_nil
theorem spec_chapter_trees_size [Locale] :
    ∀ (sources : List XmlNode),
      DocTree.size_list (spec_chapter_trees sources) = sub_chain_count sources
  | [] => by
    rw [spec_chapter_trees_nil, sub_chain_count_nil]
    exact size_list_nil
  | x :: xs => by
    rw [spec_chapter_trees_cons, sub_chain_count_cons, ← spec_chapter_node_size x,
      ← spec_chapter_trees_size xs]
    exact size_list_append _ _
end

/-- C16, amended: in the chapters walk a child that is not an element whose name compares
equal to `sub` (an element with another name, or a text or comment node) produces nothing
and is not descended into: the state is returned as it is, whatever the child contains, so a
`sub` element inside such an element produces no node; and an element whose name compares
equal to `sub` does produce a node, whether or not it is literally named `sub`. The number
of nodes the walk creates is the number of elements named `sub` (up to that comparison)
reached from the children through a chain of such elements only, which is also the number
of nodes of the chapter trees that the returned tree holds. -/
theorem build_chapters_prunes [Locale] (s : devdoc) (node : Nat) :
    (∀ source,
      (∀ name attrs children, source = XmlNode.element name attrs children →
        ¬ SameName name "sub") →
      build_chapters_tree s node source = s) ∧
    (∀ name attrs children, ¬ SameName name "sub" →
      build_chapters_children s node [XmlNode.element name attrs children] = s) ∧
    (∀ name attrs children, SameName name "sub" →
      (build_chapters_tree s node (XmlNode.element name attrs children)).heap.length =
        s.heap.length + 1 + sub_chain_count children) ∧
    (∀ sources, (build_chapters_children s node sources).heap.length =
      s.heap.length + sub_chain_count sources) ∧
    (∀ sources, DocTree.size_list (spec_chapter_trees sources) = sub_chain_count sources) := by
  have h1 : ∀ source,
      (∀ name attrs children, source = XmlNode.element name attrs children →
        ¬ SameName name "sub") →
      build_chapters_tree s node source = s := by
    intro source hsrc
    cases source with
    | element name attrs children =>
      exact build_chapters_tree_not_sub s node name attrs children (hsrc name attrs children rfl)
    | other name => exact build_chapters_tree_other s node name
  refine ⟨h1, ?_, ?_, fun sources => build_chapters_children_length sources s node,
    spec_chapter_trees_size⟩
  · intro name attrs children hname
    rw [build_chapters_children_cons, build_chapters_children_nil]
    apply h1
    intro name2 attrs2 children2 heq
    cases heq
    exact hname
  · intro name attrs children hname
    rw [build_chapters_tree_length, sub_chain_count_node_element, if_pos hname]
    omega

theorem find_root_of_inTree_fuel [Locale] {s s2 : devdoc} {r : Nat} {xml_root : Element}
    {cs ms : List Nat} {ext : List (Nat × Option Element)}
    (h : BookStep s s2 r xml_root cs ms ext) {k : Nat} (hk : InTree s2.heap r k) :
    k < s2.heap.length ∧ (∀ fuel, k < fuel → find_root s2.heap fuel k = some r) ∧
    ((∃ d, s2.heap[k]? = some d ∧ d.parent = none) → k = r) := by
  obtain ⟨par, tk, hrep, hP, hQ⟩ := InTree.represented
    (fun k _ => (∀ f, k < f → find_root s2.heap f k = some r) ∧
      ((∃ d, s2.heap[k]? = some d ∧ d.parent = none) → k = r)) h.represents_book
    ⟨by
      intro f hf
      cases f with
      | zero => omega
      | succ f => simp [find_root, h.root_rec], fun _ => rfl⟩
    (by
      intro par2 n tn c tc hn _ _ hrc
      obtain ⟨_, hlt, cn, hcn, _, hcp, _, _⟩ := represents_node.1 hrc
      have := hlt n rfl
      refine ⟨?_, ?_⟩
      · intro f hf
        cases f with
        | zero => omega
        | succ f =>
          simp only [find_root, hcn, hcp]
          exact hn.1 f (by omega)
      · rintro ⟨d, hd, hdp⟩
        rw [hcn] at hd
        cases hd
        rw [hcp] at hdp
        cases hdp)
    hk
  exact ⟨represents_lt_length hrep, hP, hQ⟩

/-- C12: for every node `k` of a tree returned by `get_doc_tree`, the parent walk of
`get_doc` ends: with any fuel above `k` (in particular with the size of the free store, the
fuel `get_doc` gives it) it stops, and the node it stops at is the root `r` that
`get_doc_tree` returned. The root has a null parent and is the only node of the tree that
has one. -/
theorem get_doc_tree_parent_walk [Locale] (fs : FileSystem) (s : devdoc) (path : String)
    (xml_root : Element) (hwf : s.WF) (hp : ParsesTo fs path xml_root)
    (hb : SameName xml_root.name "book") :
    ∃ s2 r rn,
      get_doc_tree fs s path = some (s2, some r) ∧
      s2.heap[r]? = some rn ∧ rn.parent = none ∧
      ∀ k, InTree s2.heap r k →
        (∀ fuel, k < fuel → find_root s2.heap fuel k = some r) ∧
        find_root s2.heap s2.heap.length k = some r ∧
        ((∃ d, s2.heap[k]? = some d ∧ d.parent = none) → k = r) := by
  obtain ⟨doc, cs, ms, ext, s2, _, hres, hstep⟩ :=
    get_doc_tree_book fs s path xml_root hwf hp hb
  refine ⟨s2, s.heap.length, _, hres, hstep.root_rec, rfl, ?_⟩
  intro k hk
  obtain ⟨hlt, hwalk, huniq⟩ := find_root_of_inTree_fuel hstep hk
  exact ⟨hwalk, hwalk _ hlt, huniq⟩

theorem nodes_find_append_of_some {M E : List (Nat × Option Element)} {k : Nat}
    {v : Option Element} (h : nodes_find M k = some v) : nodes_find (M ++ E) k = some v := by
  unfold nodes_find at h ⊢
  rw [List.lookup_append, h]
  rfl

theorem find_root_stable {H H2 : List doc_tree_node}
    (hH : ∀ i, i < H.length → H2[i]? = H[i]?) :
    ∀ (fuel fuel2 node : Nat) {root : Nat}, fuel ≤ fuel2 →
      find_root H fuel node = some root → find_root H2 fuel2 node = some root
  | 0, _, _, _, _, h => by simp [find_root] at h
  | fuel + 1, 0, _, _, hle, _ => by omega
  | fuel + 1, fuel2 + 1, node, root, hle, h => by
    unfold find_root at h ⊢
    cases hn : H[node]? with
    | none => rw [hn] at h; cases h
    | some n =>
      rw [hn] at h
      simp only at h
      rw [hH node (lt_of_getElem?_some hn), hn]
      simp only
      cases hp : n.parent with
      | none =>
        rw [hp] at h
        exact h
      | some p =>
        rw [hp] at h
        exact find_root_stable hH fuel fuel2 p (by omega) h

theorem get_doc_stable {s s2 : devdoc} {ext : List (Nat × Option Element)}
    (hH : ∀ i, i < s.heap.length → s2.heap[i]? = s.heap[i]?)
    (hlen : s.heap.length ≤ s2.heap.length) (hM : s2.nodes = s.nodes ++ ext)
    (node : Nat) (x : String × Bool) (h : (get_doc s node).2 = some x) :
    get_doc s2 node = (s2, some x) := by
  cases hr : find_root s.heap s.heap.length node with
  | none =>
    have : get_doc s node = (s, none) := by unfold get_doc; rw [hr]
    rw [this] at h
    cases h
  | some root =>
    have hr2 := find_root_stable hH _ _ node hlen hr
    rw [get_doc_eq s node root hr] at h
    rw [get_doc_eq s2 node root hr2]
    simp only at h
    cases ha : (nodes_index s root).2 with
    | none => rw [ha] at h; cases h
    | some re =>
      obtain ⟨ha1, ha2⟩ := nodes_index_some s root re ha
      rw [ha2] at h
      simp only at h
      cases hb : (nodes_index s node).2 with
      | none => rw [hb] at h; cases h
      | some ne =>
        obtain ⟨hb1, hb2⟩ := nodes_index_some s node ne hb
        rw [hb2] at h
        simp only at h
        have ha3 : nodes_index s2 root = (s2, some re) := by
          unfold nodes_index
          rw [hM, nodes_find_append_of_some ha1]
        have hb3 : nodes_index s2 node = (s2, some ne) := by
          unfold nodes_index
          rw [hM, nodes_find_append_of_some hb1]
        rw [ha3]
        simp only
        rw [hb3]
        simp only
        rw [h]

/-- C13: a successful `get_doc_tree` appends the returned root, a newly created node, as the
last entry of the root registry, appends its own parser to the parser collection, and
appends entries to the map `nodes` that all belong to newly created nodes; the document
nodes that existed before and their map entries are unchanged, and `get_doc` on a node on
which it returned a result before the call (a node of an earlier tree) returns the same
result after it. -/
theorem get_doc_tree_frame [Locale] (fs : FileSystem) (s : devdoc) (path : String)
    (xml_root : Element) (hwf : s.WF) (hp : ParsesTo fs path xml_root)
    (hb : SameName xml_root.name "book") :
    ∃ s2 r ext doc,
      get_doc_tree fs s path = some (s2, some r) ∧ r = s.heap.length ∧
      s2.root_nodes = s.root_nodes ++ [r] ∧
      s2.parsers = s.parsers ++ [⟨some doc⟩] ∧
      s2.nodes = s.nodes ++ ext ∧
      (∀ kv ∈ ext, s.heap.length ≤ kv.1 ∧ kv.1 < s2.heap.length) ∧
      (∀ i, i < s.heap.length → s2.heap[i]? = s.heap[i]?) ∧
      (∀ k, k < s.heap.length → nodes_find s2.nodes k = nodes_find s.nodes k) ∧
      ∀ node x, (get_doc s node).2 = some x → get_doc s2 node = (s2, some x) := by
  obtain ⟨doc, cs, ms, ext, s2, _, hres, hstep⟩ :=
    get_doc_tree_book fs s path xml_root hwf hp hb
  have hkeys : ∀ kv ∈ ext, s.heap.length ≤ kv.1 ∧ kv.1 < s2.heap.length := by
    intro kv hkv
    refine ⟨(hstep.ext_keys kv hkv).1, hstep.wf.keys_lt _ ?_⟩
    rw [hstep.nodes_eq]
    exact List.mem_map.2 ⟨kv, List.mem_append_right _ hkv, rfl⟩
  refine ⟨s2, s.heap.length, ext, doc, hres, rfl, hstep.root_nodes_eq, hstep.parsers_eq,
    hstep.nodes_eq, hkeys, hstep.old, ?_, ?_⟩
  · intro k hk
    rw [hstep.nodes_eq]
    apply nodes_find_append_left
    intro hmem
    obtain ⟨kv, hkv, rfl⟩ := List.mem_map.1 hmem
    have := (hkeys kv hkv).1
    omega
  · intro node x hx
    exact @get_doc_stable s _ ext hstep.old (Nat.le_of_lt hstep.len_lt) hstep.nodes_eq node x hx

theorem InTree.eq_or_parent {H : List doc_tree_node} {r k : Nat} (h : InTree H r k) :
    k = r ∨ ∃ n d, InTree H r n ∧ H[n]? = some d ∧ k ∈ d.children := by
  cases h with
  | root => exact Or.inl rfl
  | child hn hd hc => exact Or.inr ⟨_, _, hn, hd, hc⟩

theorem BookStep.child_represents [Locale] {s s2 : devdoc} {r : Nat} {xml_root : Element}
    {cs ms : List Nat} {ext : List (Nat × Option Element)}
    (h : BookStep s s2 r xml_root cs ms ext) {n c : Nat} {d : doc_tree_node}
    (hn : InTree s2.heap r n) (hd : s2.heap[n]? = some d) (hc : c ∈ d.children) :
    ∃ par tn tc, Represents s2.heap s2.nodes s.heap.length par n tn ∧
      NodeKind s2.heap s2.nodes r xml_root n tn ∧ tc ∈ tn.children ∧
      Represents s2.heap s2.nodes s.heap.length (some n) c tc := by
  obtain ⟨par, tn, hrep, hkind⟩ := h.kind hn
  obtain ⟨_, _, d2, hd2, _, _, _, hlist⟩ := represents_node.1 hrep
  rw [hd] at hd2
  cases hd2
  rw [representsList_iff] at hlist
  obtain ⟨tc, htc, hrc⟩ := forall₂_exists_of_mem_left hlist hc
  exact ⟨par, tn, tc, hrep, hkind, htc, hrc⟩

theorem BookStep.parent_in_tree [Locale] {s s2 : devdoc} {r : Nat} {xml_root : Element}
    {cs ms : List Nat} {ext : List (Nat × Option Element)}
    (h : BookStep s s2 r xml_root cs ms ext) {k : Nat} (hk : InTree s2.heap r k)
    (hne : k ≠ r) :
    ∃ p dp dk, InTree s2.heap r p ∧ s2.heap[p]? = some dp ∧ k ∈ dp.children ∧
      s2.heap[k]? = some dk ∧ dk.parent = some p := by
  rcases hk.eq_or_parent with hkr | ⟨n, d, hn, hd, hc⟩
  · exact absurd hkr hne
  · obtain ⟨_, _, tc, _, _, _, hrc⟩ := h.child_represents hn hd hc
    obtain ⟨_, _, dk, hdk, _, hdkp, _, _⟩ := represents_node.1 hrc
    exact ⟨n, d, dk, hn, hd, hc, hdk, hdkp⟩

theorem BookStep.ms_cases [Locale] {s s2 : devdoc} {r : Nat} {xml_root : Element}
    {cs ms : List Nat} {ext : List (Nat × Option Element)}
    (h : BookStep s s2 r xml_root cs ms ext) :
    (ms = [] ∧ book_keywords xml_root = []) ∨
      ∃ m, ms = [m] ∧ book_keywords xml_root ≠ [] ∧ IsMore s2.heap s2.nodes r m ∧
        Represents s2.heap s2.nodes (s.heap.length + 1) (some r) m
          (spec_more_tree (book_keywords xml_root)) := by
  have hmore := h.more
  unfold spec_book_more at hmore
  by_cases hks : book_keywords xml_root = []
  · rw [if_pos hks] at hmore
    exact Or.inl ⟨representsList_nil_right hmore, hks⟩
  · rw [if_neg hks] at hmore
    right
    rw [representsList_iff] at hmore
    cases hmore with
    | cons hrep hrest =>
      cases hrest
      obtain ⟨n, hn, ht, hpar, hun, _⟩ := represents_more_groups hrep
      exact ⟨_, rfl, hks, ⟨n, hn, ht, hpar, hun⟩, hrep⟩

theorem BookStep.root_child_cases [Locale] {s s2 : devdoc} {r : Nat} {xml_root : Element}
    {cs ms : List Nat} {ext : List (Nat × Option Element)}
    (h : BookStep s s2 r xml_root cs ms ext) {k : Nat} (hk : k ∈ cs ++ ms) :
    (k ∈ cs ∧ ∃ el, nodes_find s2.nodes k = some (some el)) ∨
      (ms = [k] ∧ book_keywords xml_root ≠ [] ∧ IsMore s2.heap s2.nodes r k ∧
        Represents s2.heap s2.nodes (s.heap.length + 1) (some r) k
          (spec_more_tree (book_keywords xml_root))) := by
  rcases List.mem_append.1 hk with hk | hk
  · exact Or.inl ⟨hk, represents_chapter_mapped h.chap hk⟩
  · right
    rcases h.ms_cases with ⟨hnil, _⟩ | ⟨m, hm, hks, hmore, hrep⟩
    · rw [hnil] at hk
      cases hk
    · rw [hm, List.mem_singleton] at hk
      subst hk
      exact ⟨hm, hks, hmore, hrep⟩

theorem BookStep.leaf_chain [Locale] {s s2 : devdoc} {r : Nat} {xml_root : Element}
    {cs ms : List Nat} {ext : List (Nat × Option Element)}
    (h : BookStep s s2 r xml_root cs ms ext) (hb : SameName xml_root.name "book")
    (hbk : ¬ SameName "book" "keyword") (hsk : ¬ SameName "sub" "keyword")
    {k : Nat} (hk : InTree s2.heap r k) {kw : Element}
    (hkw : nodes_find s2.nodes k = some (some kw)) (hname : SameName kw.name "keyword") :
    ∃ g m dk dg dm,
      s2.heap[k]? = some dk ∧ dk.parent = some g ∧ dk.children = [] ∧
      s2.heap[g]? = some dg ∧ dg.parent = some m ∧ k ∈ dg.children ∧
      s2.heap[m]? = some dm ∧ dm.parent = some r ∧ g ∈ dm.children ∧
      IsMore s2.heap s2.nodes r m ∧ InTree s2.heap r g ∧ InTree s2.heap r m := by
  rcases hk.eq_or_parent with hkr | ⟨n, d, hn, hd, hc⟩
  · subst hkr
    rw [h.root_map] at hkw
    cases hkw
    exact absurd (hb.symm_name.trans_name hname) hbk
  obtain ⟨par, tn, tc, hrepn, hkind, htc, hrc⟩ := h.child_represents hn hd hc
  obtain ⟨_, _, dk, hdk, _, hdkp, hmap, hkids⟩ := represents_node.1 hrc
  rw [hkw] at hmap
  have hel : tc.element = some kw := by
    cases hte : tc.element with
    | none => rw [hte] at hmap; cases hmap
    | some e =>
      rw [hte] at hmap
      simp only [Option.map_some', Option.some.injEq] at hmap
      rw [hmap]
  cases hkind with
  | root =>
    exfalso
    simp only [spec_book_tree, DocTree.children, List.mem_append] at htc
    rcases htc with htc | htc
    · obtain ⟨name, attrs, children, hsub, rfl⟩ := mem_spec_book_chapters htc
      simp only [DocTree.element, Option.some.injEq] at hel
      rw [← hel] at hname
      exact hsk (hsub.symm_name.trans_name hname)
    · unfold spec_book_more at htc
      by_cases hks : book_keywords xml_root = []
      · simp [hks] at htc
      · simp only [hks, if_false, List.mem_singleton] at htc
        subst htc
        simp [spec_more_tree, DocTree.element] at hel
  | chapter _ name attrs children =>
    exfalso
    simp only [DocTree.children] at htc
    obtain ⟨name2, attrs2, children2, _, hsub, rfl⟩ := mem_spec_chapter_trees htc
    simp only [DocTree.element, Option.some.injEq] at hel
    rw [← hel] at hname
    exact hsk (hsub.symm_name.trans_name hname)
  | more _ mn hks hmn hmt hmp hmm =>
    exfalso
    simp only [spec_more_tree, DocTree.children, spec_keyword_groups, List.mem_map] at htc
    obtain ⟨t, _, rfl⟩ := htc
    simp [spec_keyword_group, DocTree.element] at hel
  | group _ m n0 mn t hmn hmt hmp hmm hn0 hn0t hn0p hn0m ht =>
    rw [hd] at hn0
    cases hn0
    simp only [spec_keyword_group, DocTree.children, List.mem_map] at htc
    obtain ⟨kw2, _, rfl⟩ := htc
    simp only [spec_keyword_leaf, DocTree.children] at hkids
    have hnil := representsList_nil_right hkids
    have hnr : n ≠ r := by
      intro hnr
      subst hnr
      rw [h.root_rec] at hd
      cases hd
      cases hn0p
    obtain ⟨p, dp, dn, hp, hdp, hnp, hdn, hdnp⟩ := h.parent_in_tree hn hnr
    rw [hd] at hdn
    cases hdn
    rw [hn0p] at hdnp
    cases hdnp
    rw [hmn] at hdp
    cases hdp
    exact ⟨n, m, dk, d, mn, hdk, hdkp, hnil, hd, hn0p, hc, hmn, hmp, hnp,
      ⟨mn, hmn, hmt, hmp, hmm⟩, hn, hp⟩
  | leaf _ kw2 _ =>
    exfalso
    simp [spec_keyword_leaf, DocTree.children] at htc

/-- C18: the children of the returned root are the chapter nodes `cs` (each mapped to an
element, none of them the "More" node) followed by `ms`, which is empty or the "More" node
alone; so when the "More" node is among the children of the root it is the last child, it
occurs once, and it comes after all chapter nodes, wherever `functions` stands in the
document. Every keyword leaf (a node of the tree mapped to an element named `keyword`) is a
childless child of a group node, which is a child of the "More" node, which is a child of
the root, whose parent is null: it is at depth 3 below the root. Names are compared by their
collation keys; the locale is one in which neither `book` nor `sub` compares equal to
`keyword` (otherwise the root or a chapter node is mapped to an element named `keyword`
too). -/
theorem get_doc_tree_more_last [Locale] (fs : FileSystem) (s : devdoc) (path : String)
    (xml_root : Element) (hwf : s.WF) (hp : ParsesTo fs path xml_root)
    (hb : SameName xml_root.name "book")
    (hbk : ¬ SameName "book" "keyword") (hsk : ¬ SameName "sub" "keyword") :
    ∃ s2 r rn cs ms,
      get_doc_tree fs s path = some (s2, some r) ∧
      s2.heap[r]? = some rn ∧ rn.parent = none ∧
      rn.children = cs ++ ms ∧
      (∀ c ∈ cs, (∃ el, nodes_find s2.nodes c = some (some el)) ∧
        ¬ IsMore s2.heap s2.nodes r c) ∧
      (ms = [] ∨ ∃ m, ms = [m] ∧ IsMore s2.heap s2.nodes r m) ∧
      (∀ m ∈ rn.children, IsMore s2.heap s2.nodes r m →
        rn.children = cs ++ [m] ∧ m ∉ cs ∧ rn.children.getLast? = some m ∧
        rn.children.count m = 1) ∧
      ∀ k kw, InTree s2.heap r k →
        nodes_find s2.nodes k = some (some kw) →
        SameName kw.name "keyword" →
        ∃ g m dk dg dm,
          s2.heap[k]? = some dk ∧ dk.parent = some g ∧
          dk.children = [] ∧
          s2.heap[g]? = some dg ∧ dg.parent = some m ∧
          k ∈ dg.children ∧
          s2.heap[m]? = some dm ∧ dm.parent = some r ∧
          g ∈ dm.children ∧
          IsMore s2.heap s2.nodes r m := by
  obtain ⟨doc, cs, ms, ext, s2, _, hres, hstep⟩ :=
    get_doc_tree_book fs s path xml_root hwf hp hb
  have hcs : ∀ c ∈ cs,
      (∃ el, nodes_find s2.nodes c = some (some el)) ∧
      ¬ IsMore s2.heap s2.nodes s.heap.length c := by
    intro c hc
    obtain ⟨el, hel⟩ := represents_chapter_mapped hstep.chap hc
    refine ⟨⟨el, hel⟩, ?_⟩
    rintro ⟨_, _, _, _, hun⟩
    rw [hun] at hel
    cases hel
  have hms : ms = [] ∨ ∃ m, ms = [m] ∧ IsMore s2.heap s2.nodes s.heap.length m := by
    rcases hstep.ms_cases with ⟨hnil, _⟩ | ⟨m, hm, _, hmore, _⟩
    · exact Or.inl hnil
    · exact Or.inr ⟨m, hm, hmore⟩
  refine ⟨s2, s.heap.length, _, cs, ms, hres, hstep.root_rec, rfl, rfl, hcs, hms, ?_, ?_⟩
  · intro m hm hmore
    simp only [List.mem_append] at hm
    have hmcs : m ∉ cs := fun h => (hcs m h).2 hmore
    rcases hm with hm | hm
    · exact absurd hm hmcs
    · rcases hms with hnil | ⟨m2, hm2, _⟩
      · rw [hnil] at hm
        cases hm
      · rw [hm2] at hm
        simp only [List.mem_singleton] at hm
        subst hm
        subst hm2
        refine ⟨rfl, hmcs, by simp, ?_⟩
        show List.count m (cs ++ [m]) = 1
        rw [List.count_append, List.count_eq_zero_of_not_mem hmcs]
        simp
  · intro k kw hk hkw hname
    obtain ⟨g, m, dk, dg, dm, h1, h2, h3, h4, h5, h6, h7, h8, h9, h10, _, _⟩ :=
      hstep.leaf_chain hb hbk hsk hk hkw hname
    exact ⟨g, m, dk, dg, dm, h1, h2, h3, h4, h5, h6, h7, h8, h9, h10⟩

/-- C9, amended: the children of the returned root are the chapter nodes `cs`, as many as
there are chapter trees, followed by `ms`, which is empty or the "More" node alone (titled
"More (keywords, functions...)", below the root). A node of the returned tree that is the
"More" node or a group node (a child of the "More" node) has no entry in the map `nodes`;
every other node of the tree is mapped to an element. -/
theorem get_doc_tree_nodes_mapped [Locale] (fs : FileSystem) (s : devdoc) (path : String)
    (xml_root : Element) (hwf : s.WF) (hp : ParsesTo fs path xml_root)
    (hb : SameName xml_root.name "book") :
    ∃ s2 r rn cs ms,
      get_doc_tree fs s path = some (s2, some r) ∧
      s2.heap[r]? = some rn ∧ rn.children = cs ++ ms ∧
      cs.length = (spec_book_chapters xml_root).length ∧
      (ms = [] ∨ ∃ m dm, ms = [m] ∧ s2.heap[m]? = some dm ∧ dm.title = more_title ∧
        dm.parent = some r) ∧
      ∀ k, InTree s2.heap r k →
        ((k ∈ ms ∨ ∃ m ∈ ms, ∃ dm, s2.heap[m]? = some dm ∧ k ∈ dm.children) →
          nodes_find s2.nodes k = none) ∧
        (¬ (k ∈ ms ∨ ∃ m ∈ ms, ∃ dm, s2.heap[m]? = some dm ∧ k ∈ dm.children) →
          ∃ el, nodes_find s2.nodes k = some (some el)) := by
  obtain ⟨doc, cs, ms, ext, s2, _, hres, hstep⟩ :=
    get_doc_tree_book fs s path xml_root hwf hp hb
  have hlen : cs.length = (spec_book_chapters xml_root).length := by
    have := hstep.chap
    rw [representsList_iff] at this
    exact this.length_eq
  have hms : ms = [] ∨ ∃ m dm, ms = [m] ∧ s2.heap[m]? = some dm ∧ dm.title = more_title ∧
      dm.parent = some s.heap.length := by
    rcases hstep.ms_cases with ⟨hnil, _⟩ | ⟨m, hm, _, ⟨dm, hdm, ht, hpar, _⟩, _⟩
    · exact Or.inl hnil
    · exact Or.inr ⟨m, dm, hm, hdm, ht, hpar⟩
  have hroot_par : ∀ d, s2.heap[s.heap.length]? = some d → d.parent = none := by
    intro d hd
    rw [hstep.root_rec] at hd
    cases hd
    rfl
  have hchild_of_root : ∀ k dk, InTree s2.heap s.heap.length k → s2.heap[k]? = some dk →
      dk.parent = some s.heap.length → k ∈ cs ++ ms := by
    intro k dk hk hdk hpar
    have hne : k ≠ s.heap.length := by
      intro hkr
      rw [hkr] at hdk
      rw [hroot_par dk hdk] at hpar
      cases hpar
    obtain ⟨p, dp, dk2, _, hdp, hkp, hdk2, hdk2p⟩ := hstep.parent_in_tree hk hne
    rw [hdk] at hdk2
    cases hdk2
    rw [hpar] at hdk2p
    cases hdk2p
    rw [hstep.root_rec] at hdp
    cases hdp
    exact hkp
  refine ⟨s2, s.heap.length, _, cs, ms, hres, hstep.root_rec, rfl, hlen, hms, ?_⟩
  intro k hk
  constructor
  · rintro (hkm | ⟨m, hm, dm, hdm, hkc⟩)
    · rcases hstep.ms_cases with ⟨hnil, _⟩ | ⟨m, hm, _, ⟨_, _, _, _, hun⟩, _⟩
      · rw [hnil] at hkm
        cases hkm
      · rw [hm, List.mem_singleton] at hkm
        rw [hkm]
        exact hun
    · rcases hstep.ms_cases with ⟨hnil, _⟩ | ⟨m2, hm2, _, _, hrep⟩
      · rw [hnil] at hm
        cases hm
      · rw [hm2, List.mem_singleton] at hm
        subst hm
        obtain ⟨n, hn, _, _, _, hgroups⟩ := represents_more_groups hrep
        rw [hdm] at hn
        cases hn
        obtain ⟨t, _, hg⟩ := forall₂_exists_of_mem_left hgroups hkc
        exact hg.2.1
  · intro hnot
    obtain ⟨par, tk, hrep, hkind⟩ := hstep.kind hk
    cases hkind with
    | root => exact ⟨_, hstep.root_map⟩
    | chapter _ name attrs children =>
      obtain ⟨_, _, _, _, _, _, hm, _⟩ := represents_node.1 hrep
      exact ⟨_, hm⟩
    | more _ n _ hn ht hpar hun =>
      exfalso
      apply hnot
      left
      rcases hstep.root_child_cases (hchild_of_root k n hk hn hpar) with ⟨_, el, hel⟩ | hm
      · rw [hun] at hel
        cases hel
      · rw [hm.1]
        exact List.mem_singleton_self _
    | group _ m n mn t hmn hmt hmp hmm hn _ hnp hun _ =>
      exfalso
      apply hnot
      right
      have hne : k ≠ s.heap.length := by
        intro hkr
        rw [hkr] at hn
        rw [hroot_par n hn] at hnp
        cases hnp
      obtain ⟨p, dp, dk2, hp2, hdp, hkp, hdk2, hdk2p⟩ := hstep.parent_in_tree hk hne
      rw [hn] at hdk2
      cases hdk2
      rw [hnp] at hdk2p
      cases hdk2p
      rw [hmn] at hdp
      cases hdp
      rcases hstep.root_child_cases (hchild_of_root m mn hp2 hmn hmp) with ⟨_, el, hel⟩ | hm
      · rw [hmm] at hel
        cases hel
      · exact ⟨m, by rw [hm.1]; exact List.mem_singleton_self _, mn, hmn, hkp⟩
    | leaf _ kw _ =>
      obtain ⟨_, _, _, _, _, _, hm, _⟩ := represents_node.1 hrep
      exact ⟨_, hm⟩

/-- C10: after a successful `get_doc_tree` the map `nodes` is the old map followed by new
entries `ext`, and the new entries are exactly the pairs of a node of the returned tree and
what that node is mapped to. Every node of the tree is of one of five kinds, and it is mapped
to the element of the abstract tree `tk` it holds: the root to the root element `book`, a
chapter node to the `sub` element it was built from, a keyword leaf to its `keyword` element,
while the "More" node and the group nodes are mapped to no element. -/
theorem get_doc_tree_mapping [Locale] (fs : FileSystem) (s : devdoc) (path : String)
    (xml_root : Element) (hwf : s.WF) (hp : ParsesTo fs path xml_root)
    (hb : SameName xml_root.name "book") :
    ∃ s2 r ext,
      get_doc_tree fs s path = some (s2, some r) ∧
      s2.nodes = s.nodes ++ ext ∧
      (∀ k v, (k, v) ∈ ext ↔ InTree s2.heap r k ∧ nodes_find s2.nodes k = some v) ∧
      nodes_find s2.nodes r = some (some xml_root) ∧
      ∀ k, InTree s2.heap r k →
        ∃ par tk,
          NodeKind s2.heap s2.nodes r xml_root k tk ∧
          Represents s2.heap s2.nodes s.heap.length par k tk ∧
          nodes_find s2.nodes k = tk.element.map some := by
  obtain ⟨doc, cs, ms, ext, s2, _, hres, hstep⟩ :=
    get_doc_tree_book fs s path xml_root hwf hp hb
  refine ⟨s2, s.heap.length, ext, hres, hstep.nodes_eq, ?_, hstep.root_map, ?_⟩
  · intro k v
    constructor
    · intro hkv
      refine ⟨(hstep.ext_keys _ hkv).2, nodes_find_of_mem hstep.wf.keys_nodup ?_⟩
      rw [hstep.nodes_eq]
      exact List.mem_append_right _ hkv
    · rintro ⟨hk, hv⟩
      obtain ⟨par, tk, hrep, _⟩ := hstep.kind hk
      obtain ⟨hlo, _⟩ := represents_node.1 hrep
      have hnot : nodes_find s.nodes k = none := by
        rw [nodes_find_eq_none_iff]
        intro hmem
        have := hwf.keys_lt k hmem
        simp only at hlo
        omega
      rw [hstep.nodes_eq, nodes_find_append_right (by simpa using hnot)] at hv
      exact mem_of_nodes_find hv
  · intro k hk
    obtain ⟨par, tk, hrep, hkind⟩ := hstep.kind hk
    obtain ⟨_, _, _, _, _, _, hm, _⟩ := represents_node.1 hrep
    exact ⟨par, tk, hkind, hrep, hm⟩

/-! ## The free store agrees with its children sequences -/

theorem push_back_child_getElem? (s : devdoc) (p c j : Nat) :
    (push_back_child s p c).heap[j]? =
      if j = p then (s.heap[p]?).map (fun d => { d with children := d.children ++ [c] })
      else s.heap[j]? := by
  by_cases hj : j = p
  · subst hj
    simp only [if_true]
    cases hd : s.heap[j]? with
    | none =>
      unfold push_back_child
      rw [hd]
      simpa using hd
    | some d => rw [push_back_child_self s c hd]; rfl
  · simp only [hj, if_false]
    exact push_back_child_ne s c hj

theorem push_back_child_parent (s : devdoc) (p c : Nat) {j : Nat} {dj : doc_tree_node}
    (h : s.heap[j]? = some dj) :
    ∃ dj2, (push_back_child s p c).heap[j]? = some dj2 ∧ dj2.parent = dj.parent := by
  rw [push_back_child_getElem?]
  by_cases hj : j = p
  · subst hj
    simp only [if_true, h, Option.map_some']
    exact ⟨_, rfl, rfl⟩
  · simp only [hj, if_false]
    exact ⟨dj, h, rfl⟩

theorem heapOK_new_node (lo : Nat) (s : devdoc) (t : String) (p : Option Nat)
    (h : HeapOK lo s.heap) : HeapOK lo (new_node s t p).1.heap := by
  intro i d hlo hi
  simp only [new_node_heap] at hi ⊢
  rcases Nat.lt_trichotomy i s.heap.length with hlt | heq | hgt
  · rw [List.getElem?_append_left hlt] at hi
    obtain ⟨hpw, hch⟩ := h i d hlo hi
    refine ⟨hpw, fun c hc => ?_⟩
    obtain ⟨hic, dc, hdc, hp⟩ := hch c hc
    exact ⟨hic, dc, by rw [List.getElem?_append_left (lt_of_getElem?_some hdc)]; exact hdc, hp⟩
  · subst heq
    simp at hi
    subst hi
    exact ⟨List.Pairwise.nil, fun c hc => by cases hc⟩
  · rw [List.getElem?_eq_none (by simp; omega)] at hi
    cases hi

theorem heapOK_push (lo : Nat) (s : devdoc) (p c : Nat) (h : HeapOK lo s.heap)
    (hc : ∃ dc, s.heap[c]? = some dc ∧ dc.parent = some p) (hpc : p < c)
    (hlast : lo ≤ p → ∀ d, s.heap[p]? = some d → ∀ x ∈ d.children, x < c) :
    HeapOK lo (push_back_child s p c).heap := by
  intro i d hlo hi
  rw [push_back_child_getElem?] at hi
  have hrec : ∀ (x : Nat) (dx : doc_tree_node), s.heap[x]? = some dx →
      ∀ q, dx.parent = some q →
      ∃ dx2 : doc_tree_node,
        (push_back_child s p c).heap[x]? = some dx2 ∧ dx2.parent = some q := by
    intro x dx hx q hq
    obtain ⟨dx2, h1, h2⟩ := push_back_child_parent s p c hx
    exact ⟨dx2, h1, h2.trans hq⟩
  by_cases hip : i = p
  · subst hip
    simp only [if_true] at hi
    cases hd : s.heap[i]? with
    | none => rw [hd] at hi; cases hi
    | some d0 =>
      rw [hd] at hi
      simp only [Option.map_some', Option.some.injEq] at hi
      subst hi
      obtain ⟨hpw, hch⟩ := h i d0 hlo hd
      simp only
      refine ⟨?_, ?_⟩
      · rw [List.pairwise_append]
        refine ⟨hpw, List.pairwise_singleton _ _, ?_⟩
        intro a ha b hb
        simp only [List.mem_singleton] at hb
        subst hb
        exact hlast hlo d0 hd a ha
      · intro x hx
        rcases List.mem_append.1 hx with hx | hx
        · obtain ⟨hix, dx, hdx, hp⟩ := hch x hx
          exact ⟨hix, hrec x dx hdx i hp⟩
        · simp only [List.mem_singleton] at hx
          subst hx
          obtain ⟨dc, hdc, hp⟩ := hc
          exact ⟨hpc, hrec x dc hdc i hp⟩
  · simp only [hip, if_false] at hi
    obtain ⟨hpw, hch⟩ := h i d hlo hi
    refine ⟨hpw, fun x hx => ?_⟩
    obtain ⟨hix, dx, hdx, hp⟩ := hch x hx
    exact ⟨hix, hrec x dx hdx i hp⟩

theorem heapOK_alloc_push (lo : Nat) (s : devdoc) (t : String) (g : Nat)
    (h : HeapOK lo s.heap) (hg : g < s.heap.length) :
    HeapOK lo (push_back_child (new_node s t (some g)).1 g s.heap.length).heap := by
  apply heapOK_push lo _ g s.heap.length (heapOK_new_node lo s t (some g) h)
  · exact ⟨⟨t, some g, []⟩, by simp, rfl⟩
  · exact hg
  · intro hlo d hd x hx
    simp only [new_node_heap] at hd
    rw [List.getElem?_append_left hg] at hd
    obtain ⟨_, dx, hdx, _⟩ := (h g d hlo hd).2 x hx
    exact lt_of_getElem?_some hdx

mutual
theorem heapOK_build_chapters_tree [Locale] :
    ∀ (source : XmlNode) (s : devdoc) (p lo : Nat), s.WF → p < s.heap.length →
      HeapOK lo s.heap → HeapOK lo (build_chapters_tree s p source).heap
  | .element name attrs children, s, p, lo, hwf, hp, h => by
    by_cases hname : SameName name "sub"
    · rw [build_chapters_tree_sub s p name attrs children hname]
      simp only [nodes_insert_heap]
      have hwf1 := WF.after_new_node hwf
        (spec_attr ⟨name, attrs, children⟩ "name") (some p)
      have h1 := heapOK_new_node lo s
        (spec_attr ⟨name, attrs, children⟩ "name") (some p) h
      have h2 := heapOK_build_chapters_children children _ s.heap.length lo hwf1 (by simp) h1
      obtain ⟨ids, ext, hstep⟩ := build_chapters_children_step children
        (new_node s (spec_attr ⟨name, attrs, children⟩ "name") (some p)).1
        s.heap.length hwf1 (by simp)
      apply heapOK_push lo _ p s.heap.length h2
      · exact ⟨_, hstep.par ⟨spec_attr ⟨name, attrs, children⟩ "name", some p, []⟩
          (by simp), rfl⟩
      · exact hp
      · intro hlo d hd x hx
        rw [hstep.old p (by simp; omega) (by omega)] at hd
        simp only [new_node_heap] at hd
        rw [List.getElem?_append_left hp] at hd
        obtain ⟨_, dx, hdx, _⟩ := (h p d hlo hd).2 x hx
        exact lt_of_getElem?_some hdx
    · rw [build_chapters_tree_not_sub s p name attrs children hname]
      exact h
  | .other name, s, p, lo, _, _, h => by
    rw [build_chapters_tree_other]
    exact h
theorem heapOK_build_chapters_children [Locale] :
    ∀ (sources : List XmlNode) (s : devdoc) (p lo : Nat), s.WF → p < s.heap.length →
      HeapOK lo s.heap → HeapOK lo (build_chapters_children s p sources).heap
  | [], s, p, lo, _, _, h => by
    rw [build_chapters_children_nil]
    exact h
  | x :: xs, s, p, lo, hwf, hp, h => by
    rw [build_chapters_children_cons]
    obtain ⟨ids, ext, hstep⟩ := build_chapters_tree_step x s p hwf hp
    exact heapOK_build_chapters_children xs _ p lo hstep.wf
      (Nat.lt_of_lt_of_le hp hstep.len_le) (heapOK_build_chapters_tree x s p lo hwf hp h)
end

theorem heapOK_add_keyword [Locale] (lo parent : Nat) (acc : devdoc × List (String × Nat))
    (element : Element) (h : HeapOK lo acc.1.heap) (hpar : parent < acc.1.heap.length)
    (hknown : ∀ kg ∈ acc.2, kg.2 < acc.1.heap.length) :
    HeapOK lo (add_keyword parent acc element).1.heap ∧
    parent < (add_keyword parent acc element).1.heap.length ∧
    ∀ kg ∈ (add_keyword parent acc element).2,
      kg.2 < (add_keyword parent acc element).1.heap.length := by
  cases hl : known_at acc.2 (get_attribute_value element "type") with
  | some g =>
    have hg : g < acc.1.heap.length := by
      obtain ⟨t0, hmem, _⟩ := mem_of_known_at hl
      exact hknown _ hmem
    simp only [add_keyword, hl, nodes_insert_heap]
    simp only [new_node_ptr, push_back_child_length, new_node_heap, List.length_append,
      List.length_singleton]
    refine ⟨heapOK_alloc_push lo acc.1 _ g h hg, by omega, ?_⟩
    intro kg hkg
    have := hknown kg hkg
    omega
  | none =>
    simp only [add_keyword, hl, nodes_insert_heap]
    have h1 := heapOK_alloc_push lo acc.1 (get_attribute_value element "type") parent h hpar
    have hlen1 := alloc_push_length acc.1 (get_attribute_value element "type") parent
    have h2 := heapOK_alloc_push lo
      (push_back_child (new_node acc.1 (get_attribute_value element "type") (some parent)).1
        parent acc.1.heap.length)
      (get_attribute_value element "name") acc.1.heap.length h1 (by rw [hlen1]; omega)
    simp only [new_node_ptr, push_back_child_length, new_node_heap, List.length_append,
      List.length_singleton] at h2 hlen1 ⊢
    refine ⟨h2, by omega, ?_⟩
    intro kg hkg
    rcases List.mem_append.1 hkg with hkg | hkg
    · have := hknown kg hkg
      omega
    · simp only [List.mem_singleton] at hkg
      subst hkg
      simp only
      omega

theorem heapOK_add_functions [Locale] (lo parent : Nat) :
    ∀ (children : List XmlNode) (acc : devdoc × List (String × Nat)),
      HeapOK lo acc.1.heap → parent < acc.1.heap.length →
      (∀ kg ∈ acc.2, kg.2 < acc.1.heap.length) →
      HeapOK lo (children.foldl (add_function parent) acc).1.heap
  | [], _, h, _, _ => h
  | c :: cs, acc, h, hpar, hknown => by
    rw [List.foldl_cons]
    have hstep : HeapOK lo (add_function parent acc c).1.heap ∧
        parent < (add_function parent acc c).1.heap.length ∧
        ∀ kg ∈ (add_function parent acc c).2,
          kg.2 < (add_function parent acc c).1.heap.length := by
      unfold add_function
      cases as_element c with
      | none => exact ⟨h, hpar, hknown⟩
      | some e =>
        simp only
        split
        · exact ⟨h, hpar, hknown⟩
        · exact heapOK_add_keyword lo parent acc e h hpar hknown
    exact heapOK_add_functions lo parent cs _ hstep.1 hstep.2.1 hstep.2.2

theorem heapOK_build_functions [Locale] (lo : Nat) (s : devdoc) (hwf : s.WF) {root : Nat}
    (hroot : root < s.heap.length) (functions : XmlNode) (h : HeapOK lo s.heap) :
    HeapOK lo (build_functions s root functions).heap := by
  obtain ⟨ext, hk⟩ := KwInv.loop (get_children functions)
    ((new_node s more_title (some root)).1, []) [] [] (KwInv.init s hwf root)
  have h2 := heapOK_add_functions lo s.heap.length (get_children functions)
    ((new_node s more_title (some root)).1, []) (heapOK_new_node lo s _ _ h) (by simp)
    (fun kg hkg => by cases hkg)
  generalize hs2 : (List.foldl (add_function s.heap.length)
    ((new_node s more_title (some root)).1, []) (get_children functions)) = acc at hk h2
  unfold build_functions
  simp only [new_node_ptr, hs2]
  split
  · exact h2
  · apply heapOK_push lo acc.1 root s.heap.length h2 ⟨_, hk.more, rfl⟩ hroot
    intro hlo d hd x hx
    rw [hk.old root hroot] at hd
    simp only [new_node_heap] at hd
    rw [List.getElem?_append_left hroot] at hd
    obtain ⟨_, dx, hdx, _⟩ := (h root d hlo hd).2 x hx
    exact lt_of_getElem?_some hdx

theorem heapOK_build_book [Locale] (lo : Nat) (s : devdoc) (hwf : s.WF) (xml_root : Element)
    (h : HeapOK lo s.heap) : HeapOK lo (build_book s xml_root).1.heap := by
  have hwf1 := WF.after_new_node hwf (get_attribute_value xml_root "title") none
  have h1 := heapOK_new_node lo s (get_attribute_value xml_root "title") none h
  have hr1 : s.heap.length <
      (new_node s (get_attribute_value xml_root "title") none).1.heap.length := by simp
  have hchap : ∃ s2, s2 = (match get_first_child xml_root "chapters" with
        | some chapters => build_chapters_children
            (new_node s (get_attribute_value xml_root "title") none).1 s.heap.length
            (get_children chapters)
        | none => (new_node s (get_attribute_value xml_root "title") none).1) ∧
      s2.WF ∧ s.heap.length < s2.heap.length ∧ HeapOK lo s2.heap := by
    cases get_first_child xml_root "chapters" with
    | some chapters =>
      obtain ⟨cs, ext, hstep⟩ := build_chapters_children_step (get_children chapters) _
        s.heap.length hwf1 hr1
      exact ⟨_, rfl, hstep.wf, Nat.lt_of_lt_of_le hr1 hstep.len_le,
        heapOK_build_chapters_children (get_children chapters) _ s.heap.length lo hwf1 hr1 h1⟩
    | none => exact ⟨_, rfl, hwf1, hr1, h1⟩
  obtain ⟨s2, hs2, hwf2, hr2, h2⟩ := hchap
  have hfun : ∃ s3, s3 = (match get_first_child xml_root "functions" with
        | some functions => build_functions s2 s.heap.length functions
        | none => s2) ∧ HeapOK lo s3.heap := by
    cases get_first_child xml_root "functions" with
    | some functions => exact ⟨_, rfl, heapOK_build_functions lo s2 hwf2 hr2 functions h2⟩
    | none => exact ⟨_, rfl, h2⟩
  obtain ⟨s3, hs3, h3⟩ := hfun
  unfold build_book
  simp only [new_node_ptr, nodes_insert_heap]
  rw [← hs2, ← hs3]
  exact h3

theorem heapOK_get_doc_tree [Locale] (lo : Nat) (fs : FileSystem) (s s2 : devdoc)
    (path : String) (res : Option Nat) (hres : get_doc_tree fs s path = some (s2, res))
    (hwf : s.WF) (h : HeapOK lo s.heap) : HeapOK lo s2.heap := by
  rcases get_doc_tree_outcome fs s s2 path res hres with ⟨_, ps, hps⟩ | ⟨xml_root, hp, hb⟩
  · rw [hps]
    exact h
  · obtain ⟨h1, h2, h3, doc, h4, h5⟩ := hp
    rw [get_doc_tree_of_checks fs s path h1 h2 h3,
      get_doc_tree_try_eq_build_book fs s path doc xml_root h4 h5 hb] at hres
    cases hres
    exact heapOK_build_book lo { s with parsers := s.parsers ++ [⟨some doc⟩] }
      ⟨hwf.keys_nodup, hwf.keys_lt⟩ xml_root h

theorem heapOK_nil (lo : Nat) : HeapOK lo [] := by
  intro i d _ hi
  simp at hi

theorem heapOK_of_length_le (H : List doc_tree_node) : HeapOK H.length H := by
  intro i d hlo hi
  have := lt_of_getElem?_some hi
  omega

theorem heapOK_mono {lo lo2 : Nat} {H : List doc_tree_node} (h : HeapOK lo H)
    (hle : lo ≤ lo2) : HeapOK lo2 H :=
  fun i d hlo hi => h i d (Nat.le_trans hle hlo) hi

theorem BookStep.inTree_ge [Locale] {s s2 : devdoc} {r : Nat} {xml_root : Element}
    {cs ms : List Nat} {ext : List (Nat × Option Element)}
    (h : BookStep s s2 r xml_root cs ms ext) {k : Nat} (hk : InTree s2.heap r k) :
    s.heap.length ≤ k ∧ ∃ d, s2.heap[k]? = some d := by
  obtain ⟨par, tk, hrep, _⟩ := h.kind hk
  obtain ⟨hlo, _, d, hd, _⟩ := represents_node.1 hrep
  exact ⟨hlo, d, hd⟩

/-- C11: in a tree returned by `get_doc_tree` the parent back-references agree with the
children sequences. The returned root has a null parent; every child `c` in the children
sequence of a node `n` of the tree has `n` as its parent; a children sequence lists no node
twice; and every node `c` of the tree other than the root occurs exactly once in the
children sequence of its parent `p`, a node of the tree, and in the children sequence of no
other node `q` (of this tree, or of the free store from the pointer `lo` on, where `lo` is
any pointer from which the free store agreed with its children sequences before the call:
the end of the free store, or `0` in the states the object can be in). -/
theorem get_doc_tree_parents_agree [Locale] (fs : FileSystem) (s : devdoc) (path : String)
    (xml_root : Element) (lo : Nat) (hwf : s.WF) (hp : ParsesTo fs path xml_root)
    (hb : SameName xml_root.name "book") (hlo : lo ≤ s.heap.length) (hok : HeapOK lo s.heap) :
    ∃ s2 r rn,
      get_doc_tree fs s path = some (s2, some r) ∧
      s2.heap[r]? = some rn ∧ rn.parent = none ∧
      (∀ n d c, InTree s2.heap r n → s2.heap[n]? = some d → c ∈ d.children →
        InTree s2.heap r c ∧ ∃ dc, s2.heap[c]? = some dc ∧ dc.parent = some n) ∧
      (∀ n d, InTree s2.heap r n → s2.heap[n]? = some d → d.children.Nodup) ∧
      (∀ c, InTree s2.heap r c → c ≠ r →
        ∃ p dp dc,
          InTree s2.heap r p ∧ s2.heap[p]? = some dp ∧
          s2.heap[c]? = some dc ∧ dc.parent = some p ∧
          dp.children.count c = 1 ∧
          ∀ q dq, (lo ≤ q ∨ InTree s2.heap r q) →
            s2.heap[q]? = some dq → c ∈ dq.children → q = p) := by
  obtain ⟨doc, cs, ms, ext, s2, _, hres, hstep⟩ :=
    get_doc_tree_book fs s path xml_root hwf hp hb
  have hok2 := heapOK_get_doc_tree lo fs s s2 path _ hres hwf hok
  have hge : ∀ k, InTree s2.heap s.heap.length k → lo ≤ k :=
    fun k hk => Nat.le_trans hlo (hstep.inTree_ge hk).1
  have hnodup : ∀ n d, InTree s2.heap s.heap.length n →
      s2.heap[n]? = some d → d.children.Nodup := by
    intro n d hn hd
    exact (hok2 n d (hge n hn) hd).1.imp (fun hab => Nat.ne_of_lt hab)
  refine ⟨s2, s.heap.length, _, hres, hstep.root_rec, rfl, ?_, hnodup, ?_⟩
  · intro n d c hn hd hc
    exact ⟨InTree.child hn hd hc, ((hok2 n d (hge n hn) hd).2 c hc).2⟩
  · intro c hc hcr
    rcases hc.eq_or_parent with h | ⟨p, dp, hp2, hdp, hcp⟩
    · exact absurd h hcr
    · obtain ⟨_, dc, hdc, hdcp⟩ := (hok2 p dp (hge p hp2) hdp).2 c hcp
      refine ⟨p, dp, dc, hp2, hdp, hdc, hdcp,
        List.count_eq_one_of_mem (hnodup p dp hp2 hdp) hcp, ?_⟩
      intro q dq hq hdq hcq
      have hq2 : lo ≤ q := by
        rcases hq with hq | hq
        · exact hq
        · exact hge q hq
      obtain ⟨_, dc2, hdc2, hdcp2⟩ := (hok2 q dq hq2 hdq).2 c hcq
      rw [hdc] at hdc2
      cases hdc2
      rw [hdcp] at hdcp2
      exact (Option.some.inj hdcp2).symm

/-! ## Teardown -/

theorem inTree_ok {H : List doc_tree_node} (hok : HeapOK 0 H) {a x : Nat}
    (ha : ∃ d, H[a]? = some d) (h : InTree H a x) : a ≤ x ∧ ∃ d, H[x]? = some d := by
  induction h with
  | root => exact ⟨Nat.le_refl _, ha⟩
  | child _ hn hc ih =>
    obtain ⟨hlt, dc, hdc, _⟩ := (hok _ _ (Nat.zero_le _) hn).2 _ hc
    exact ⟨by omega, dc, hdc⟩

theorem inTree_parent {H : List doc_tree_node} (hok : HeapOK 0 H) {a x : Nat}
    (h : InTree H a x) (hne : x ≠ a) :
    ∃ p dx, H[x]? = some dx ∧ dx.parent = some p ∧ InTree H a p ∧ p < x := by
  rcases h.eq_or_parent with h | ⟨n, d, hn, hd, hc⟩
  · exact absurd h hne
  · obtain ⟨hlt, dx, hdx, hp⟩ := (hok n d (Nat.zero_le _) hd).2 x hc
    exact ⟨n, dx, hdx, hp, hn, hlt⟩

theorem inTree_left {H : List doc_tree_node} {k x : Nat} :
    InTree H k x ↔ x = k ∨ ∃ d c, H[k]? = some d ∧ c ∈ d.children ∧ InTree H c x := by
  constructor
  · intro h
    induction h with
    | root => exact Or.inl rfl
    | child _ hn hc ih =>
      rcases ih with ih | ⟨d, c, hd, hcd, hcn⟩
      · subst ih
        exact Or.inr ⟨_, _, hn, hc, InTree.root⟩
      · exact Or.inr ⟨d, c, hd, hcd, InTree.child hcn hn hc⟩
  · rintro (h | ⟨d, c, hd, hcd, hcx⟩)
    · subst h
      exact InTree.root
    · exact InTree.trans_tree (InTree.child InTree.root hd hcd) hcx

theorem siblings_disjoint {H : List doc_tree_node} (hok : HeapOK 0 H) {k c1 c2 : Nat}
    {d1 d2 : doc_tree_node} (h1 : H[c1]? = some d1) (hp1 : d1.parent = some k)
    (h2 : H[c2]? = some d2) (hp2 : d2.parent = some k) (hk1 : k < c1) (hk2 : k < c2) :
    ∀ x, InTree H c1 x → InTree H c2 x → c1 = c2 := by
  intro x
  induction x using Nat.strong_induction_on with
  | _ x ih =>
    intro hx1 hx2
    by_cases hc : c1 = c2
    · exact hc
    by_cases hxc1 : x = c1
    · subst hxc1
      obtain ⟨p, dx, hdx, hpx, hin, _⟩ := inTree_parent hok hx2 hc
      rw [h1] at hdx
      cases hdx
      rw [hp1] at hpx
      cases hpx
      have := (inTree_ok hok ⟨d2, h2⟩ hin).1
      omega
    by_cases hxc2 : x = c2
    · subst hxc2
      obtain ⟨p, dx, hdx, hpx, hin, _⟩ := inTree_parent hok hx1 (fun h => hc h.symm)
      rw [h2] at hdx
      cases hdx
      rw [hp2] at hpx
      cases hpx
      have := (inTree_ok hok ⟨d1, h1⟩ hin).1
      omega
    obtain ⟨p1, dx1, hdx1, hpx1, hin1, hlt1⟩ := inTree_parent hok hx1 hxc1
    obtain ⟨p2, dx2, hdx2, hpx2, hin2, _⟩ := inTree_parent hok hx2 hxc2
    rw [hdx1] at hdx2
    cases hdx2
    rw [hpx1] at hpx2
    cases hpx2
    exact ih p1 hlt1 hin1 hin2

theorem before_append_right {L : List Nat} {c n : Nat} (h : Before L c n) (L2 : List Nat) :
    Before (L ++ L2) c n := by
  obtain ⟨l1, l2, l3, rfl⟩ := h
  exact ⟨l1, l2, l3 ++ L2, by simp [List.append_assoc]⟩

theorem before_append_left {L : List Nat} {c n : Nat} (h : Before L c n) (L1 : List Nat) :
    Before (L1 ++ L) c n := by
  obtain ⟨l1, l2, l3, rfl⟩ := h
  exact ⟨L1 ++ l1, l2, l3, by simp [List.append_assoc]⟩

theorem devdoc_freed_append_nil (s : devdoc) : { s with freed := s.freed ++ [] } = s := by
  cases s
  simp

theorem for_each_released (H : List doc_tree_node) (f : devdoc → Nat → Option devdoc) :
    ∀ (cs : List Nat),
      (∀ c ∈ cs, ∀ s : devdoc, s.heap = H → (∀ x, InTree H c x → x ∉ s.freed) →
        ∃ L, Released H (f s c) s [c] L) →
      (∀ c1 ∈ cs, ∀ c2 ∈ cs, ∀ x, InTree H c1 x → InTree H c2 x → c1 = c2) →
      cs.Nodup →
      ∀ s : devdoc, s.heap = H → (∀ c ∈ cs, ∀ x, InTree H c x → x ∉ s.freed) →
        ∃ L, Released H (for_each f s cs) s cs L
  | [], _, _, _, s, _, _ => by
    refine ⟨[], ?_, List.nodup_nil, ?_, ?_⟩
    · rw [devdoc_freed_append_nil]
      rfl
    · intro x
      simp
    · intro n d c hn
      cases hn
  | c :: rest, hf, hdisj, hnd, s, hs, hfree => by
    obtain ⟨hc_notin, hnd_rest⟩ := List.nodup_cons.1 hnd
    obtain ⟨L1, hres1, hnd1, hmem1, hfirst1⟩ :=
      hf c (List.mem_cons_self _ _) s hs (hfree c (List.mem_cons_self _ _))
    have hmem1' : ∀ x, x ∈ L1 ↔ InTree H c x := by
      intro x
      rw [hmem1 x]
      simp
    have hsep : ∀ c2 ∈ rest, ∀ x, InTree H c2 x → x ∉ L1 := by
      intro c2 hc2 x hx2 hx1
      have := hdisj c (List.mem_cons_self _ _) c2 (List.mem_cons_of_mem _ hc2) x
        ((hmem1' x).1 hx1) hx2
      exact hc_notin (this ▸ hc2)
    obtain ⟨L2, hres2, hnd2, hmem2, hfirst2⟩ :=
      for_each_released H f rest
        (fun c2 hc2 => hf c2 (List.mem_cons_of_mem _ hc2))
        (fun a ha b hb => hdisj a (List.mem_cons_of_mem _ ha) b (List.mem_cons_of_mem _ hb))
        hnd_rest { s with freed := s.freed ++ L1 } hs
        (fun c2 hc2 x hx => by
          simp only [List.mem_append, not_or]
          exact ⟨hfree c2 (List.mem_cons_of_mem _ hc2) x hx, hsep c2 hc2 x hx⟩)
    refine ⟨L1 ++ L2, ?_, ?_, ?_, ?_⟩
    · rw [for_each, hres1]
      simp only
      rw [hres2]
      simp [List.append_assoc]
    · rw [List.nodup_append]
      refine ⟨hnd1, hnd2, ?_⟩
      intro x hx1 hx2
      obtain ⟨c2, hc2, hxc2⟩ := (hmem2 x).1 hx2
      exact hsep c2 hc2 x hxc2 hx1
    · intro x
      rw [List.mem_append, hmem1' x, hmem2 x]
      simp
    · intro n d c2 hn hd hc2
      rcases List.mem_append.1 hn with hn | hn
      · exact before_append_right (hfirst1 n d c2 hn hd hc2) L2
      · exact before_append_left (hfirst2 n d c2 hn hd hc2) L1

theorem delete_node_released (H : List doc_tree_node) (hok : HeapOK 0 H) :
    ∀ (fuel k : Nat) (s : devdoc), s.heap = H → (∃ d, H[k]? = some d) →
      H.length ≤ fuel + k → (∀ x, InTree H k x → x ∉ s.freed) →
      ∃ L, Released H (delete_node fuel s k) s [k] L
  | 0, k, s, _, hk, hfuel, _ => by
    obtain ⟨d, hd⟩ := hk
    have := lt_of_getElem?_some hd
    omega
  | fuel + 1, k, s, hs, hk, hfuel, hfree => by
    obtain ⟨d, hd⟩ := hk
    obtain ⟨hpw, hch⟩ := hok k d (Nat.zero_le _) hd
    have hnd : d.children.Nodup := hpw.imp (fun hab => Nat.ne_of_lt hab)
    obtain ⟨Ls, hres, hnds, hmems, hfirsts⟩ :=
      for_each_released H (delete_node fuel) d.children
        (fun c hc s2 hs2 hfree2 => by
          obtain ⟨hlt, dc, hdc, _⟩ := hch c hc
          exact delete_node_released H hok fuel c s2 hs2 ⟨dc, hdc⟩ (by omega) hfree2)
        (fun c1 hc1 c2 hc2 x hx1 hx2 => by
          obtain ⟨hlt1, dc1, hdc1, hp1⟩ := hch c1 hc1
          obtain ⟨hlt2, dc2, hdc2, hp2⟩ := hch c2 hc2
          exact siblings_disjoint hok hdc1 hp1 hdc2 hp2 hlt1 hlt2 x hx1 hx2)
        hnd s hs
        (fun c hc x hx => hfree x (InTree.trans_tree (InTree.child InTree.root hd hc) hx))
    have hk_notin : k ∉ Ls := by
      intro hmem
      obtain ⟨c, hc, hcx⟩ := (hmems k).1 hmem
      obtain ⟨hlt, dc, hdc, _⟩ := hch c hc
      have := (inTree_ok hok ⟨dc, hdc⟩ hcx).1
      omega
    have hk_free : k ∉ s.freed := hfree k InTree.root
    refine ⟨Ls ++ [k], ?_, ?_, ?_, ?_⟩
    · have hd2 : s.heap[k]? = some d := by rw [hs]; exact hd
      rw [delete_node]
      simp only [hk_free, if_false]
      rw [hd2]
      simp only
      rw [hres]
      simp only [List.mem_append, hk_free, hk_notin, or_self, if_false, delete_single,
        List.append_assoc]
    · rw [List.nodup_append]
      refine ⟨hnds, List.nodup_singleton _, ?_⟩
      intro x hx hxk
      simp only [List.mem_singleton] at hxk
      subst hxk
      exact hk_notin hx
    · intro x
      rw [List.mem_append, hmems x]
      simp only [List.mem_singleton, exists_eq_left]
      rw [inTree_left (k := k)]
      constructor
      · rintro (⟨c, hc, hcx⟩ | hxk)
        · exact Or.inr ⟨d, c, hd, hc, hcx⟩
        · exact Or.inl hxk
      · rintro (hxk | ⟨d2, c, hd2, hc, hcx⟩)
        · exact Or.inr hxk
        · rw [hd] at hd2
          cases hd2
          exact Or.inl ⟨c, hc, hcx⟩
    · intro n dn c hn hdn hc
      rcases List.mem_append.1 hn with hn | hn
      · exact before_append_right (hfirsts n dn c hn hdn hc) [k]
      · simp only [List.mem_singleton] at hn
        subst hn
        rw [hd] at hdn
        cases hdn
        have hcL : c ∈ Ls := (hmems c).2 ⟨c, hc, InTree.root⟩
        obtain ⟨l1, l2, hsplit⟩ := List.append_of_mem hcL
        exact ⟨l1, l2, [], by rw [hsplit]⟩

theorem destructor_released (s : devdoc) (hs : s.Sound) :
    ∃ L, Released s.heap s.destructor s s.root_nodes L ∧ ∀ x ∈ L, x ∉ s.freed := by
  obtain ⟨L, hL⟩ := for_each_released s.heap (delete_node s.heap.length) s.root_nodes
    (fun r hr s2 hs2 hfree2 => by
      obtain ⟨d, hd, _⟩ := hs.roots_ok r hr
      exact delete_node_released s.heap hs.heap_ok s.heap.length r s2 hs2 ⟨d, hd⟩
        (Nat.le_add_right _ _) hfree2)
    (fun r1 hr1 r2 hr2 x hx1 hx2 => by
      obtain ⟨d1, hd1, _⟩ := hs.roots_ok r1 hr1
      obtain ⟨d2, hd2, _⟩ := hs.roots_ok r2 hr2
      have h1 := (inTree_ok hs.heap_ok ⟨d1, hd1⟩ hx1).1
      have h2 := (inTree_ok hs.heap_ok ⟨d2, hd2⟩ hx2).1
      rcases Nat.lt_trichotomy r1 r2 with hlt | heq | hgt
      · have := (hs.sep r1 hr1 x hx1).2 r2 hr2 hlt
        omega
      · exact heq
      · have := (hs.sep r2 hr2 x hx2).2 r1 hr1 hgt
        omega)
    (hs.roots_sorted.imp (fun hab => Nat.ne_of_lt hab)) s rfl
    (fun r hr x hx => (hs.sep r hr x hx).1)
  refine ⟨L, hL, ?_⟩
  intro x hx
  obtain ⟨r, hr, hrx⟩ := (hL.2.2.1 x).1 hx
  exact (hs.sep r hr x hrx).1

theorem sound_init : devdoc.init.Sound where
  wf := WF_init
  heap_ok := heapOK_nil 0
  roots_sorted := List.Pairwise.nil
  roots_ok := fun r hr => by cases hr
  sep := fun r hr => by cases hr
  freed_nodup := List.nodup_nil
  freed_lt := fun x hx => by cases hx

theorem sound_of_eq {s s2 : devdoc} (hs : s.Sound) (hwf : s2.WF) (h1 : s2.heap = s.heap)
    (h2 : s2.root_nodes = s.root_nodes) (h3 : s2.freed = s.freed) : s2.Sound where
  wf := hwf
  heap_ok := by rw [h1]; exact hs.heap_ok
  roots_sorted := by rw [h2]; exact hs.roots_sorted
  roots_ok := by rw [h1, h2]; exact hs.roots_ok
  sep := by rw [h1, h2, h3]; exact hs.sep
  freed_nodup := by rw [h3]; exact hs.freed_nodup
  freed_lt := by rw [h1, h3]; exact hs.freed_lt

theorem inTree_old {H H2 : List doc_tree_node} (hok : HeapOK 0 H)
    (hold : ∀ i, i < H.length → H2[i]? = H[i]?) {r k : Nat} (hr : ∃ d, H[r]? = some d)
    (h : InTree H2 r k) : InTree H r k := by
  induction h with
  | root => exact InTree.root
  | child _ hn hc ih =>
    obtain ⟨_, dn, hdn⟩ := inTree_ok hok hr ih
    rw [hold _ (lt_of_getElem?_some hdn)] at hn
    exact InTree.child ih hn hc

theorem BookStep.freed_eq [Locale] {s s2 : devdoc} {r : Nat} {xml_root : Element}
    {cs ms : List Nat} {ext : List (Nat × Option Element)}
    (h : BookStep s s2 r xml_root cs ms ext) :
    s2.freed = s.freed ∨
      ∃ m, s2.freed = s.freed ++ [m] ∧ r < m ∧ m < s2.heap.length ∧
        nodes_find s2.nodes m = none ∧ book_keywords xml_root = [] := by
  cases hf : spec_first_named "functions" xml_root.children with
  | none => exact Or.inl (h.no_functions hf).2
  | some f =>
    obtain ⟨m, hm, hrep, _, hfr⟩ := h.more_node f hf
    by_cases hks : book_keywords xml_root = []
    · right
      obtain ⟨n, hn, _, _, hun, _⟩ := represents_more_groups hrep
      exact ⟨m, by simpa [hks] using hfr, hm, lt_of_getElem?_some hn, hun, hks⟩
    · left
      simpa [hks] using hfr

theorem BookStep.inTree_mapped [Locale] {s s2 : devdoc} {r : Nat} {xml_root : Element}
    {cs ms : List Nat} {ext : List (Nat × Option Element)}
    (h : BookStep s s2 r xml_root cs ms ext) (hks : book_keywords xml_root = [])
    {k : Nat} (hk : InTree s2.heap r k) : ∃ el, nodes_find s2.nodes k = some (some el) := by
  obtain ⟨par, tk, hrep, hkind⟩ := h.kind hk
  cases hkind with
  | root => exact ⟨_, h.root_map⟩
  | chapter _ name attrs children =>
    obtain ⟨_, _, _, _, _, _, hm, _⟩ := represents_node.1 hrep
    exact ⟨_, hm⟩
  | more _ _ hne => exact absurd hks hne
  | group _ _ _ _ _ _ _ _ _ _ _ _ _ ht =>
    rw [hks] at ht
    simp at ht
  | leaf _ kw hkw =>
    rw [hks] at hkw
    cases hkw

theorem BookStep.sound [Locale] {s s2 : devdoc} {r : Nat} {xml_root : Element}
    {cs ms : List Nat} {ext : List (Nat × Option Element)}
    (h : BookStep s s2 r xml_root cs ms ext) (hs : s.Sound) (hok2 : HeapOK 0 s2.heap) :
    s2.Sound := by
  have hroots_lt : ∀ a ∈ s.root_nodes, a < s.heap.length := by
    intro a ha
    obtain ⟨d, hd, _⟩ := hs.roots_ok a ha
    exact lt_of_getElem?_some hd
  have hfreed : ∀ x ∈ s2.freed, x ∈ s.freed ∨
      (s.heap.length < x ∧ x < s2.heap.length ∧ nodes_find s2.nodes x = none ∧
        book_keywords xml_root = []) := by
    intro x hx
    rcases h.freed_eq with he | ⟨m, he, hm1, hm2, hm3, hm4⟩
    · rw [he] at hx
      exact Or.inl hx
    · rw [he, List.mem_append, List.mem_singleton] at hx
      rcases hx with hx | hx
      · exact Or.inl hx
      · subst hx
        exact Or.inr ⟨by rw [← h.root_eq]; exact hm1, hm2, hm3, hm4⟩
  refine
    { wf := h.wf
      heap_ok := hok2
      roots_sorted := ?_
      roots_ok := ?_
      sep := ?_
      freed_nodup := ?_
      freed_lt := ?_ }
  · rw [h.root_nodes_eq, List.pairwise_append]
    refine ⟨hs.roots_sorted, List.pairwise_singleton _ _, ?_⟩
    intro a ha b hb
    simp only [List.mem_singleton] at hb
    subst hb
    rw [h.root_eq]
    exact hroots_lt a ha
  · intro a ha
    rw [h.root_nodes_eq, List.mem_append, List.mem_singleton] at ha
    rcases ha with ha | ha
    · obtain ⟨d, hd, hp⟩ := hs.roots_ok a ha
      exact ⟨d, by rw [h.old a (hroots_lt a ha)]; exact hd, hp⟩
    · subst ha
      exact ⟨_, h.root_rec, rfl⟩
  · intro a ha k hk
    rw [h.root_nodes_eq, List.mem_append, List.mem_singleton] at ha
    rcases ha with ha | ha
    · obtain ⟨d, hd, _⟩ := hs.roots_ok a ha
      have hk0 := inTree_old hs.heap_ok h.old ⟨d, hd⟩ hk
      obtain ⟨_, dk, hdk⟩ := inTree_ok hs.heap_ok ⟨d, hd⟩ hk0
      have hklt := lt_of_getElem?_some hdk
      obtain ⟨hkf, hkb⟩ := hs.sep a ha k hk0
      refine ⟨?_, ?_⟩
      · intro hx
        rcases hfreed k hx with hx | ⟨hx, _⟩
        · exact hkf hx
        · omega
      · intro r2 hr2 hlt
        rw [h.root_nodes_eq, List.mem_append, List.mem_singleton] at hr2
        rcases hr2 with hr2 | hr2
        · exact hkb r2 hr2 hlt
        · subst hr2
          rw [h.root_eq]
          exact hklt
    · subst ha
      obtain ⟨hge, _⟩ := h.inTree_ge hk
      refine ⟨?_, ?_⟩
      · intro hx
        rcases hfreed k hx with hx | ⟨_, _, hun, hks⟩
        · have := hs.freed_lt k hx
          omega
        · obtain ⟨el, hel⟩ := h.inTree_mapped hks hk
          rw [hun] at hel
          cases hel
      · intro r2 hr2 hlt
        rw [h.root_nodes_eq, List.mem_append, List.mem_singleton] at hr2
        rcases hr2 with hr2 | hr2
        · have := hroots_lt r2 hr2
          have := h.root_eq
          omega
        · omega
  · rcases h.freed_eq with he | ⟨m, he, hm1, _, _, _⟩
    · rw [he]
      exact hs.freed_nodup
    · rw [he, List.nodup_append]
      refine ⟨hs.freed_nodup, List.nodup_singleton _, ?_⟩
      intro x hx hxm
      simp only [List.mem_singleton] at hxm
      subst hxm
      have := hs.freed_lt x hx
      have := h.root_eq
      omega
  · intro x hx
    rcases hfreed x hx with hx | ⟨_, hx, _⟩
    · have := hs.freed_lt x hx
      have := h.len_lt
      omega
    · exact hx

theorem get_doc_tree_sound [Locale] (fs : FileSystem) (s s2 : devdoc) (path : String)
    (res : Option Nat) (h : get_doc_tree fs s path = some (s2, res)) (hs : s.Sound) :
    s2.Sound := by
  rcases get_doc_tree_outcome fs s s2 path res h with ⟨_, ps, hps⟩ | ⟨xml_root, hp, hb⟩
  · refine sound_of_eq hs (get_doc_tree_WF fs s s2 path res h hs.wf) ?_ ?_ ?_ <;> rw [hps]
  · obtain ⟨doc, cs, ms, ext, s3, _, hres, hstep⟩ :=
      get_doc_tree_book fs s path xml_root hs.wf hp hb
    obtain ⟨h1, _⟩ := get_doc_tree_some_inj hres h
    subst h1
    exact hstep.sound (sound_of_eq hs ⟨hs.wf.keys_nodup, hs.wf.keys_lt⟩ rfl rfl rfl)
      (heapOK_get_doc_tree 0 fs s s2 path _ hres hs.wf hs.heap_ok)

theorem get_doc_sound (s : devdoc) (node : Nat) (hs : s.Sound) : (get_doc s node).1.Sound := by
  obtain ⟨_, h2, h3, h4⟩ := get_doc_frame s node
  exact sound_of_eq hs (get_doc_WF s node hs.wf) h3 h2 h4

theorem sound_of_reachable [Locale] {s : devdoc} (h : Reachable s) : s.Sound := by
  induction h with
  | init => exact sound_init
  | tree fs path _ hres ih => exact get_doc_tree_sound fs _ _ path _ hres ih
  | doc node _ ih => exact get_doc_sound _ node ih

theorem get_doc_tree_roots [Locale] (fs : FileSystem) (s s2 : devdoc) (path : String)
    (res : Option Nat) (h : get_doc_tree fs s path = some (s2, res)) (hwf : s.WF) :
    (∀ r ∈ s.root_nodes, r ∈ s2.root_nodes) ∧ ∀ r, res = some r → r ∈ s2.root_nodes := by
  rcases get_doc_tree_outcome fs s s2 path res h with ⟨hnone, ps, hps⟩ | ⟨xml_root, hp, hb⟩
  · refine ⟨fun r hr => by rw [hps]; exact hr, fun r hr => ?_⟩
    rw [hnone] at hr
    cases hr
  · obtain ⟨doc, cs, ms, ext, s3, _, hres, hstep⟩ :=
      get_doc_tree_book fs s path xml_root hwf hp hb
    obtain ⟨h1, h2⟩ := get_doc_tree_some_inj hres h
    subst h1
    have hroots : s2.root_nodes = s.root_nodes ++ [s.heap.length] := hstep.root_nodes_eq
    refine ⟨fun r hr => by rw [hroots]; exact List.mem_append_left _ hr, fun r hr => ?_⟩
    rw [hroots]
    rw [hr] at h2
    cases h2
    exact List.mem_append_right _ (List.mem_singleton_self _)

theorem returned_registered [Locale] {s : devdoc} {r : Nat} (h : Returned s r) :
    Reachable s ∧ r ∈ s.root_nodes := by
  induction h with
  | here fs path hs hres =>
    exact ⟨Reachable.tree fs path hs hres,
      (get_doc_tree_roots fs _ _ path _ hres (sound_of_reachable hs).wf).2 _ rfl⟩
  | tree fs path _ hres ih =>
    exact ⟨Reachable.tree fs path ih.1 hres,
      (get_doc_tree_roots fs _ _ path _ hres (sound_of_reachable ih.1).wf).1 _ ih.2⟩
  | doc node _ ih =>
    refine ⟨Reachable.doc node ih.1, ?_⟩
    rw [(get_doc_frame _ node).2.1]
    exact ih.2

/-- C14: in every state `s` the loader reaches from the fresh object through calls of
`get_doc_tree` that return and calls of `get_doc`, the destructor runs to completion without
releasing a node that is already released, and the list `L` of nodes it releases has no
repetition, holds no node released before, holds exactly the nodes reachable from the
registered roots (so every node of every tree returned by `get_doc_tree`), and holds every
child before its parent; and for each registered root, `delete_node` releases exactly the
nodes of that root's subtree, each once, children before their parent. -/
theorem destructor_releases_once [Locale] (s : devdoc) (hs : Reachable s) :
    ∃ L : List Nat,
      s.destructor = some { s with freed := s.freed ++ L } ∧
      L.Nodup ∧
      (∀ x ∈ L, x ∉ s.freed) ∧
      (∀ x, x ∈ L ↔ ∃ r ∈ s.root_nodes, InTree s.heap r x) ∧
      ChildrenFirst s.heap L ∧
      (∀ r, Returned s r → ∀ x, InTree s.heap r x → x ∈ L) ∧
      ∀ r ∈ s.root_nodes, ∀ s2 : devdoc, s2.heap = s.heap →
        (∀ x, InTree s.heap r x → x ∉ s2.freed) →
        ∃ Lr : List Nat,
          delete_node s.heap.length s2 r = some { s2 with freed := s2.freed ++ Lr } ∧
          Lr.Nodup ∧ (∀ x, x ∈ Lr ↔ InTree s.heap r x) ∧ ChildrenFirst s.heap Lr := by
  have hsound := sound_of_reachable hs
  obtain ⟨L, ⟨hres, hnd, hmem, hfirst⟩, hnew⟩ := destructor_released s hsound
  refine ⟨L, hres, hnd, hnew, hmem, hfirst, ?_, ?_⟩
  · intro r hr x hx
    exact (hmem x).2 ⟨r, (returned_registered hr).2, hx⟩
  · intro r hr s2 hs2 hfree
    obtain ⟨d, hd, _⟩ := hsound.roots_ok r hr
    obtain ⟨Lr, hres2, hnd2, hmem2, hfirst2⟩ :=
      delete_node_released s.heap hsound.heap_ok s.heap.length r s2 hs2 ⟨d, hd⟩
        (Nat.le_add_right _ _) hfree
    refine ⟨Lr, hres2, hnd2, ?_, hfirst2⟩
    intro x
    rw [hmem2 x]
    simp

/-! ## The sample locale, and the theorems at the sample documents

From here on names are compared in the sample locale `compat_locale`, in which the ligature
`ﬁ` compares equal to `fi` and a fullwidth letter to its ASCII counterpart. -/

attribute [instance] compat_locale

theorem get_doc_tree_sample :
    get_doc_tree (fs_with (some sample_book)) devdoc.init "/d" = some (sample_state, some 0) := by
  decide

theorem sample_state_WF : sample_state.WF :=
  get_doc_tree_WF (fs_with (some sample_book)) devdoc.init sample_state "/d" (some 0)
    get_doc_tree_sample WF_init

theorem inTree_sample_more : InTree sample_state.heap 0 3 :=
  InTree.child (n := 0) (c := 3) (d := ⟨"X", none, [1, 3]⟩) InTree.root (by decide) (by decide)

theorem inTree_sample_group : InTree sample_state.heap 0 4 :=
  InTree.child (n := 3) (c := 4) (d := ⟨more_title, some 0, [4, 6]⟩) inTree_sample_more
    (by decide) (by decide)

theorem inTree_sample_BAR : InTree sample_state.heap 0 8 :=
  InTree.child (n := 4) (c := 8) (d := ⟨"macro", some 3, [5, 8]⟩) inTree_sample_group
    (by decide) (by decide)

/-- Witness of C5: in the tree of the sample book (`base="/docs"`), the leaf of the keyword
`BAR` (`link="x.html"`, the pointer `8`) resolves to `file:///docs/x.html`. -/
theorem get_doc_of_mapped_node_witness :
    devdoc.init.WF ∧ ParsesTo (fs_with (some sample_book)) "/d" sample_book ∧
    SameName sample_book.name "book" ∧
    get_doc_tree (fs_with (some sample_book)) devdoc.init "/d" = some (sample_state, some 0) ∧
    InTree sample_state.heap 0 8 ∧
    nodes_find sample_state.nodes 8 = some (some sample_BAR) ∧
    nodes_find sample_state.nodes 0 = some (some sample_book) ∧
    get_doc sample_state 8 = (sample_state, some ("file:///docs/x.html", true)) :=
  ⟨WF_init, parsesTo_fs_with "/d" sample_book, sameName_of_eq rfl, get_doc_tree_sample, inTree_sample_BAR, rfl,
    get_doc_of_mapped_node (fs_with (some sample_book)) devdoc.init sample_state "/d" sample_book WF_init
      (parsesTo_fs_with "/d" sample_book) (sameName_of_eq rfl) 0 8 sample_BAR
      get_doc_tree_sample inTree_sample_BAR rfl⟩

set_option maxRecDepth 8000 in
/-- C6, at a failing input: the path `long_name` has one component of 256 characters, so
it names no directory, and the query `is_directory` on it fails with `ENAMETOOLONG` and
throws; the query stands before the `try` block of the function, which is `noexcept`, so the
call does not return `nullptr`: it does not return at all (`std::terminate`). On a path with
a short name in the same file system the call returns `nullptr` and leaves the state as it
is. -/
theorem get_doc_tree_terminates :
    long_name.length = 256 ∧
    fs_empty.is_directory long_name = none ∧
    get_doc_tree fs_empty devdoc.init long_name = none ∧
    get_doc_tree fs_empty devdoc.init "/usr/share/doc" = some (devdoc.init, none) := by
  decide

/-- Witness of C7: a file system in which every path passes the checks and every parse
fails. -/
theorem get_doc_tree_parse_failure_witness :
    get_doc_tree ⟨fun _ => some true, fun _ => some true, fun _ => some true, fun _ => none⟩
        devdoc.init "/d" =
      some ({ devdoc.init with parsers := devdoc.init.parsers ++ [⟨none⟩] }, none) :=
  get_doc_tree_parse_failure
    ⟨fun _ => some true, fun _ => some true, fun _ => some true, fun _ => none⟩
    devdoc.init "/d" rfl rfl rfl rfl

/-- Counterexample to C8 as stated. The root element of the document is not named `book`:
its name is `book` written in fullwidth letters, which compares equal to `book`, and
`get_doc_tree` returns a tree (the root `F`, the pointer `0`). -/
theorem get_doc_tree_some_iff_book_counterexample :
    fullwidth_book.name ≠ "book" ∧
    (get_doc_tree (fs_with (some fullwidth_book)) devdoc.init "/f").map
        (fun o => (o.1.heap, o.1.root_nodes, o.2)) =
      some ([⟨"F", none, []⟩], [0], some 0) := by
  decide

/-- Witness of C8: a document whose root element is named `Book`, which does not compare
equal to `book`; the result is `nullptr`. -/
theorem get_doc_tree_some_iff_book_witness :
    get_doc_tree (fs_with (some ⟨"Book", [], []⟩)) devdoc.init "/d" =
      some ({ devdoc.init with parsers := [⟨some ⟨some ⟨"Book", [], []⟩⟩⟩] }, none) ∧
    ((∃ s2 r, get_doc_tree (fs_with (some ⟨"Book", [], []⟩)) devdoc.init "/d" = some (s2, some r)) ↔
      ∃ xml_root, (Document.mk (some ⟨"Book", [], []⟩)).root = some xml_root ∧ SameName xml_root.name "book") ∧
    ((¬ ∃ xml_root, (Document.mk (some ⟨"Book", [], []⟩)).root = some xml_root ∧ SameName xml_root.name "book") →
      get_doc_tree (fs_with (some ⟨"Book", [], []⟩)) devdoc.init "/d" =
        some ({ devdoc.init with parsers := devdoc.init.parsers ++ [⟨some (Document.mk (some ⟨"Book", [], []⟩))⟩] }, none)) ∧
    (∀ xml_root, (Document.mk (some ⟨"Book", [], []⟩)).root = some xml_root → xml_root.name = "book" →
      ∃ s2 r, get_doc_tree (fs_with (some ⟨"Book", [], []⟩)) devdoc.init "/d" = some (s2, some r)) :=
  ⟨by decide,
    get_doc_tree_some_iff_book (fs_with (some ⟨"Book", [], []⟩)) devdoc.init "/d"
      ⟨some ⟨"Book", [], []⟩⟩ rfl rfl rfl rfl⟩

/-- Counterexample to C9 as stated: in the tree of the sample book the "More" node (the
pointer `3`, a child of the root `0`) and the group node `macro` (the pointer `4`) have no
entry in the map `nodes`, so not every node of a returned tree has one. -/
theorem get_doc_tree_unmapped_counterexample :
    get_doc_tree (fs_with (some sample_book)) devdoc.init "/d" = some (sample_state, some 0) ∧
    InTree sample_state.heap 0 3 ∧ nodes_find sample_state.nodes 3 = none ∧
    InTree sample_state.heap 0 4 ∧ nodes_find sample_state.nodes 4 = none :=
  ⟨get_doc_tree_sample, inTree_sample_more, rfl, inTree_sample_group, rfl⟩

/-- Witness of C9: in the tree of the sample book the children of the root are the chapter
node `A` (the pointer `1`) and the "More" node (the pointer `3`); the "More" node and its
children, the group nodes `4` and `6`, are not mapped, and the other six nodes are. -/
theorem get_doc_tree_nodes_mapped_witness :
    devdoc.init.WF ∧ ParsesTo (fs_with (some sample_book)) "/d" sample_book ∧
    SameName sample_book.name "book" ∧
    get_doc_tree (fs_with (some sample_book)) devdoc.init "/d" = some (sample_state, some 0) ∧
    sample_state.heap[0]? = some ⟨"X", none, [1, 3]⟩ ∧
    sample_state.heap[3]? = some ⟨more_title, some 0, [4, 6]⟩ ∧
    sample_state.nodes.map Prod.fst = [2, 1, 5, 7, 8, 0] ∧
    ∃ s2 r rn cs ms,
      get_doc_tree (fs_with (some sample_book)) devdoc.init "/d" = some (s2, some r) ∧
      s2.heap[r]? = some rn ∧ rn.children = cs ++ ms ∧
      cs.length = (spec_book_chapters sample_book).length ∧
      (ms = [] ∨ ∃ m dm, ms = [m] ∧ s2.heap[m]? = some dm ∧ dm.title = more_title ∧
        dm.parent = some r) ∧
      ∀ k, InTree s2.heap r k →
        ((k ∈ ms ∨ ∃ m ∈ ms, ∃ dm, s2.heap[m]? = some dm ∧ k ∈ dm.children) →
          nodes_find s2.nodes k = none) ∧
        (¬ (k ∈ ms ∨ ∃ m ∈ ms, ∃ dm, s2.heap[m]? = some dm ∧ k ∈ dm.children) →
          ∃ el, nodes_find s2.nodes k = some (some el)) :=
  ⟨WF_init, parsesTo_fs_with "/d" sample_book, sameName_of_eq rfl, get_doc_tree_sample, rfl, rfl, rfl,
    get_doc_tree_nodes_mapped (fs_with (some sample_book)) devdoc.init "/d" sample_book WF_init
      (parsesTo_fs_with "/d" sample_book) (sameName_of_eq rfl)⟩

/-- Witness of C10: the sample book; the new entries are those of the chapters `B1` and `A`,
of the keywords `FOO`, `f` and `BAR`, and of the root. -/
theorem get_doc_tree_mapping_witness :
    devdoc.init.WF ∧ ParsesTo (fs_with (some sample_book)) "/d" sample_book ∧
    SameName sample_book.name "book" ∧
    get_doc_tree (fs_with (some sample_book)) devdoc.init "/d" = some (sample_state, some 0) ∧
    sample_state.nodes =
      [(2, some sample_B1), (1, some sample_A), (5, some sample_FOO), (7, some sample_f),
        (8, some sample_BAR), (0, some sample_book)] ∧
    ∃ s2 r ext,
      get_doc_tree (fs_with (some sample_book)) devdoc.init "/d" = some (s2, some r) ∧
      s2.nodes = devdoc.init.nodes ++ ext ∧
      (∀ k v, (k, v) ∈ ext ↔ InTree s2.heap r k ∧ nodes_find s2.nodes k = some v) ∧
      nodes_find s2.nodes r = some (some sample_book) ∧
      ∀ k, InTree s2.heap r k →
        ∃ par tk,
          NodeKind s2.heap s2.nodes r sample_book k tk ∧
          Represents s2.heap s2.nodes devdoc.init.heap.length par k tk ∧
          nodes_find s2.nodes k = tk.element.map some :=
  ⟨WF_init, parsesTo_fs_with "/d" sample_book, sameName_of_eq rfl, get_doc_tree_sample, rfl,
    get_doc_tree_mapping (fs_with (some sample_book)) devdoc.init "/d" sample_book WF_init
      (parsesTo_fs_with "/d" sample_book) (sameName_of_eq rfl)⟩

/-- Witness of C11: the sample book on the freshly constructed object, whose free store is
empty (`lo = 0`). -/
theorem get_doc_tree_parents_agree_witness :
    devdoc.init.WF ∧ ParsesTo (fs_with (some sample_book)) "/d" sample_book ∧
    SameName sample_book.name "book" ∧
    0 ≤ devdoc.init.heap.length ∧ HeapOK 0 devdoc.init.heap ∧
    get_doc_tree (fs_with (some sample_book)) devdoc.init "/d" = some (sample_state, some 0) ∧
    ∃ s2 r rn,
      get_doc_tree (fs_with (some sample_book)) devdoc.init "/d" = some (s2, some r) ∧
      s2.heap[r]? = some rn ∧ rn.parent = none ∧
      (∀ n d c, InTree s2.heap r n → s2.heap[n]? = some d → c ∈ d.children →
        InTree s2.heap r c ∧ ∃ dc, s2.heap[c]? = some dc ∧ dc.parent = some n) ∧
      (∀ n d, InTree s2.heap r n → s2.heap[n]? = some d → d.children.Nodup) ∧
      (∀ c, InTree s2.heap r c → c ≠ r →
        ∃ p dp dc,
          InTree s2.heap r p ∧ s2.heap[p]? = some dp ∧
          s2.heap[c]? = some dc ∧ dc.parent = some p ∧
          dp.children.count c = 1 ∧
          ∀ q dq, (0 ≤ q ∨ InTree s2.heap r q) →
            s2.heap[q]? = some dq → c ∈ dq.children → q = p) :=
  ⟨WF_init, parsesTo_fs_with "/d" sample_book, sameName_of_eq rfl, Nat.zero_le _, heapOK_nil 0, get_doc_tree_sample,
    get_doc_tree_parents_agree (fs_with (some sample_book)) devdoc.init "/d" sample_book 0 WF_init
      (parsesTo_fs_with "/d" sample_book) (sameName_of_eq rfl) (Nat.zero_le _) (heapOK_nil 0)⟩

/-- Witness of C12: in the tree of the sample book the parent walk from the leaf `BAR` (the
pointer `8`) ends at the root (the pointer `0`). -/
theorem get_doc_tree_parent_walk_witness :
    devdoc.init.WF ∧ ParsesTo (fs_with (some sample_book)) "/d" sample_book ∧
    SameName sample_book.name "book" ∧
    get_doc_tree (fs_with (some sample_book)) devdoc.init "/d" = some (sample_state, some 0) ∧
    find_root sample_state.heap sample_state.heap.length 8 = some 0 ∧
    ∃ s2 r rn,
      get_doc_tree (fs_with (some sample_book)) devdoc.init "/d" = some (s2, some r) ∧
      s2.heap[r]? = some rn ∧ rn.parent = none ∧
      ∀ k, InTree s2.heap r k →
        (∀ fuel, k < fuel → find_root s2.heap fuel k = some r) ∧
        find_root s2.heap s2.heap.length k = some r ∧
        ((∃ d, s2.heap[k]? = some d ∧ d.parent = none) → k = r) :=
  ⟨WF_init, parsesTo_fs_with "/d" sample_book, sameName_of_eq rfl, get_doc_tree_sample, by decide,
    get_doc_tree_parent_walk (fs_with (some sample_book)) devdoc.init "/d" sample_book WF_init
      (parsesTo_fs_with "/d" sample_book) (sameName_of_eq rfl)⟩

/-- Witness of C13: the tree of the sample book is built first and the tree of the book
`pruned_book` second; the second root is the pointer `9`, the registry becomes `[0, 9]`, and
the leaf of the keyword `BAR` of the first tree resolves to the same location before and
after the second build. -/
theorem get_doc_tree_frame_witness :
    sample_state.WF ∧ ParsesTo (fs_with (some pruned_book)) "/p" pruned_book ∧
    SameName pruned_book.name "book" ∧
    (get_doc sample_state 8).2 = some ("file:///docs/x.html", true) ∧
    (get_doc_tree (fs_with (some pruned_book)) sample_state "/p").map
        (fun o => (o.1.root_nodes, o.2, (get_doc o.1 8).2)) =
      some ([0, 9], some 9, some ("file:///docs/x.html", true)) ∧
    ∃ s2 r ext doc,
      get_doc_tree (fs_with (some pruned_book)) sample_state "/p" = some (s2, some r) ∧ r = sample_state.heap.length ∧
      s2.root_nodes = sample_state.root_nodes ++ [r] ∧
      s2.parsers = sample_state.parsers ++ [⟨some doc⟩] ∧
      s2.nodes = sample_state.nodes ++ ext ∧
      (∀ kv ∈ ext, sample_state.heap.length ≤ kv.1 ∧ kv.1 < s2.heap.length) ∧
      (∀ i, i < sample_state.heap.length → s2.heap[i]? = sample_state.heap[i]?) ∧
      (∀ k, k < sample_state.heap.length → nodes_find s2.nodes k = nodes_find sample_state.nodes k) ∧
      ∀ node x, (get_doc sample_state node).2 = some x → get_doc s2 node = (s2, some x) :=
  ⟨sample_state_WF, parsesTo_fs_with "/p" pruned_book, sameName_of_eq rfl, by decide,
    by decide,
    get_doc_tree_frame (fs_with (some pruned_book)) sample_state "/p" pruned_book
      sample_state_WF (parsesTo_fs_with "/p" pruned_book) (sameName_of_eq rfl)⟩

/-- Witness of C14: the state after building the sample book; the destructor releases the
nine nodes of the tree, every child before its parent. -/
theorem destructor_releases_once_witness :
    Reachable sample_state ∧
    sample_state.destructor.map (fun s => s.freed) = some [2, 1, 5, 8, 4, 7, 6, 3, 0] ∧
    ∃ L : List Nat,
      sample_state.destructor = some { sample_state with freed := sample_state.freed ++ L } ∧
      L.Nodup ∧
      (∀ x ∈ L, x ∉ sample_state.freed) ∧
      (∀ x, x ∈ L ↔ ∃ r ∈ sample_state.root_nodes, InTree sample_state.heap r x) ∧
      ChildrenFirst sample_state.heap L ∧
      (∀ r, Returned sample_state r → ∀ x, InTree sample_state.heap r x → x ∈ L) ∧
      ∀ r ∈ sample_state.root_nodes, ∀ s2 : devdoc, s2.heap = sample_state.heap →
        (∀ x, InTree sample_state.heap r x → x ∉ s2.freed) →
        ∃ Lr : List Nat,
          delete_node sample_state.heap.length s2 r = some { s2 with freed := s2.freed ++ Lr } ∧
          Lr.Nodup ∧ (∀ x, x ∈ Lr ↔ InTree sample_state.heap r x) ∧ ChildrenFirst sample_state.heap Lr :=
  ⟨Reachable.tree (fs_with (some sample_book)) "/d" Reachable.init get_doc_tree_sample,
    by decide,
    destructor_releases_once sample_state
      (Reachable.tree (fs_with (some sample_book)) "/d" Reachable.init get_doc_tree_sample)⟩

/-- Counterexample to C15 as stated: in the tree of the sample book the group node `macro`
(the pointer `4`, a node of the returned tree) has no entry in the map `nodes`, and
`get_doc` on it inserts one (a null element pointer, through `nodes[node]`), so the map is
not the same after the call as before it. -/
theorem get_doc_inserts_counterexample :
    InTree sample_state.heap 0 4 ∧
    (get_doc sample_state 4).1.nodes ≠ sample_state.nodes ∧
    (get_doc sample_state 4).1.nodes = sample_state.nodes ++ [(4, none)] :=
  ⟨inTree_sample_group, by decide, by decide⟩

/-- Counterexample to C16 as stated: under the root `X` (the pointer `0`) the chapters walk
creates a node, titled `W`, for an element that is not literally named `sub`: its name is
`sub` written in fullwidth letters, which compares equal to `sub`. -/
theorem build_chapters_prunes_counterexample :
    "ｓｕｂ" ≠ "sub" ∧
    (build_chapters_tree (new_node devdoc.init "X" none).1 0
        (XmlNode.element "ｓｕｂ" [("name", "W"), ("link", "w.html")] [])).heap =
      [⟨"X", none, [1]⟩, ⟨"W", some 0, []⟩] := by
  decide

/-- Witness of C17: the tree of the sample book is built first; a second call, on a document
whose root element is named `Book`, returns `nullptr` and leaves the map, the registry and
the document nodes of the first tree as they are. -/
theorem get_doc_tree_absent_frame_witness :
    get_doc_tree (fs_with (some ⟨"Book", [], []⟩)) sample_state "/e" =
      some (sample_state_absent, none) ∧
    sample_state_absent.nodes = sample_state.nodes ∧ sample_state_absent.root_nodes = sample_state.root_nodes ∧ sample_state_absent.heap = sample_state.heap ∧
      sample_state_absent.freed = sample_state.freed ∧ ∃ ps, sample_state_absent.parsers = sample_state.parsers ++ ps :=
  ⟨by decide,
    get_doc_tree_absent_frame (fs_with (some ⟨"Book", [], []⟩)) sample_state _ "/e"
      (by decide)⟩

/-- Witness of C18: in the book `reversed_book` the `functions` element stands before the
`chapters` element; the children of the root are the chapter nodes `One` and `Two` (the
pointers `1` and `2`) followed by the "More" node (the pointer `3`), and the leaf `f` (the
pointer `5`) is below the group `function` (the pointer `4`) below the "More" node. -/
theorem get_doc_tree_more_last_witness :
    devdoc.init.WF ∧ ParsesTo (fs_with (some reversed_book)) "/r" reversed_book ∧
    SameName reversed_book.name "book" ∧
    ¬ SameName "book" "keyword" ∧ ¬ SameName "sub" "keyword" ∧
    (get_doc_tree (fs_with (some reversed_book)) devdoc.init "/r").map
        (fun o => (o.1.heap, o.2)) =
      some ([⟨"R", none, [1, 2, 3]⟩, ⟨"One", some 0, []⟩, ⟨"Two", some 0, []⟩,
        ⟨more_title, some 0, [4]⟩, ⟨"function", some 3, [5]⟩, ⟨"f", some 4, []⟩], some 0) ∧
    ∃ s2 r rn cs ms,
      get_doc_tree (fs_with (some reversed_book)) devdoc.init "/r" = some (s2, some r) ∧
      s2.heap[r]? = some rn ∧ rn.parent = none ∧
      rn.children = cs ++ ms ∧
      (∀ c ∈ cs, (∃ el, nodes_find s2.nodes c = some (some el)) ∧
        ¬ IsMore s2.heap s2.nodes r c) ∧
      (ms = [] ∨ ∃ m, ms = [m] ∧ IsMore s2.heap s2.nodes r m) ∧
      (∀ m ∈ rn.children, IsMore s2.heap s2.nodes r m →
        rn.children = cs ++ [m] ∧ m ∉ cs ∧ rn.children.getLast? = some m ∧
        rn.children.count m = 1) ∧
      ∀ k kw, InTree s2.heap r k →
        nodes_find s2.nodes k = some (some kw) →
        SameName kw.name "keyword" →
        ∃ g m dk dg dm,
          s2.heap[k]? = some dk ∧ dk.parent = some g ∧
          dk.children = [] ∧
          s2.heap[g]? = some dg ∧ dg.parent = some m ∧
          k ∈ dg.children ∧
          s2.heap[m]? = some dm ∧ dm.parent = some r ∧
          g ∈ dm.children ∧
          IsMore s2.heap s2.nodes r m :=
  ⟨WF_init, parsesTo_fs_with "/r" reversed_book, sameName_of_eq rfl, by decide, by decide,
    by decide,
    get_doc_tree_more_last (fs_with (some reversed_book)) devdoc.init "/r" reversed_book
      WF_init (parsesTo_fs_with "/r" reversed_book) (sameName_of_eq rfl) (by decide)
      (by decide)⟩

end DevDoc
